import Mathlib

/-!
# The XML marshaller of `marshal-xml.js`

A shallow embedding of `src/bin/META-INF/chat/js/marshal-xml.js`: the class
`XmlMarshaller` (methods `marshal` and `unmarshal`) and the two private
recursive functions `marshal (object, element)` and `unmarshal (element)`.

The script runs on the browser's DOM. The part of the DOM it calls is
embedded next to it:

* `Node` is the DOM tree (elements and text nodes), with the members the
  script reads or calls (`attributes`, `children`, `textContent`, `nodeName`,
  `appendChild`, `setAttributeNode`);
* `serializeToString` is `XMLSerializer.serializeToString` on a tree without
  namespaces;
* `Dom` collects what differs between browsers and versions of the DOM
  standard: which names `createElement`, `createAttribute` and
  `createDocument` accept, how the serialiser escapes text, and the XML
  parser behind `DOMParser`.
  Theorems are stated for every `Dom`; `referenceDom` is one concrete instance.
-/

namespace MarshalXml

/-! ## JavaScript values -/

/-- JavaScript values, as far as the marshaller distinguishes them.

* `num text` is a number, given by its string form: `text` is `String(n)`,
  the result of `Number::toString` of ECMAScript (`5`, `-0.5`, `1e+21`,
  `18446744073709552000`, `NaN`, `Infinity`). The conversion to a string
  (lines 83 and 92) is all the marshaller does with a number.
* `func` is a function object, given by its source text (its string form).
* `object own protos` is an ordinary object: `own` lists its own enumerable
  properties in enumeration order (names distinct), `protos` lists the same
  for each object along its prototype chain, nearest first. The chain ends at
  `Object.prototype`, which has no enumerable property. A plain record
  (object literal) is `object own []`. All properties are data properties,
  and the objects have no property that is not enumerable. -/
inductive JSValue where
  | undefined
  | null
  | bool (b : Bool)
  | num (text : String)
  | str (s : String)
  | func (source : String)
  | array (items : List JSValue)
  | object (own : List (String × JSValue)) (protos : List (List (String × JSValue)))

/-- The exceptions a call can end with. -/
inductive JSError where
  /-- A JavaScript `TypeError`. -/
  | typeError
  /-- A `DOMException` thrown by the DOM for a name it does not accept
  (`InvalidCharacterError`, or `NamespaceError` from `createDocument`). -/
  | domException
  /-- Not an exception of the script: the embedding stops here. Decoding a
  child element named `__proto__` assigns to `object["__proto__"]`, which
  replaces the prototype of the object under construction; converting an
  object to a string runs its `toString` when that is a function. -/
  | unmodelled
deriving DecidableEq, Repr

/-- The property lists of objects. -/
abbrev Props := List (String × JSValue)

/-- The test `value == null`: true of `null` and `undefined`. -/
def JSValue.isNullish : JSValue → Bool
  | .undefined => true
  | .null => true
  | _ => false

/-- The test `typeof value == "function"`. -/
def JSValue.isFunction : JSValue → Bool
  | .func _ => true
  | _ => false

/-- The test `value instanceof Array`. -/
def JSValue.isArray : JSValue → Bool
  | .array _ => true
  | _ => false

/-- The test of `marshal`, line 82: `Object.prototype.toString.call(object)` is
`"[object String]"`, `"[object Number]"` or `"[object Boolean]"`. -/
def JSValue.isPrimitive : JSValue → Bool
  | .str _ => true
  | .num _ => true
  | .bool _ => true
  | _ => false

/-- Join strings with a separator (`Array.prototype.join`). -/
def joinWith (sep : String) : List String → String
  | [] => ""
  | [s] => s
  | s :: t :: rest => s ++ sep ++ joinWith sep (t :: rest)

mutual
/-- The string form `String(value)` of a value, when the conversion returns
(see `JSValue.conversionError`). An array is the string forms of its items
joined by commas; an ordinary object is `[object Object]`. -/
def JSValue.toJSString : JSValue → String
  | .undefined => "undefined"
  | .null => "null"
  | .bool b => if b then "true" else "false"
  | .num text => text
  | .str s => s
  | .func source => source
  | .array items => joinWith "," (JSValue.itemStrings items)
  | .object _ _ => "[object Object]"
termination_by structural x => x
/-- The items of an array as `join` sees them: `null` and `undefined` items
give the empty string. -/
def JSValue.itemStrings : List JSValue → List String
  | [] => []
  | .undefined :: rest => "" :: JSValue.itemStrings rest
  | .null :: rest => "" :: JSValue.itemStrings rest
  | .bool b :: rest => JSValue.toJSString (.bool b) :: JSValue.itemStrings rest
  | .num n :: rest => JSValue.toJSString (.num n) :: JSValue.itemStrings rest
  | .str s :: rest => JSValue.toJSString (.str s) :: JSValue.itemStrings rest
  | .func f :: rest => JSValue.toJSString (.func f) :: JSValue.itemStrings rest
  | .array xs :: rest => JSValue.toJSString (.array xs) :: JSValue.itemStrings rest
  | .object o p :: rest => JSValue.toJSString (.object o p) :: JSValue.itemStrings rest
termination_by structural x => x
end

/-- The own property of the given name, if the object has one. -/
def getProp (key : String) : Props → Option JSValue
  | [] => none
  | (k, v) :: rest => if k = key then some v else getProp key rest

/-- The assignment `object[key] = value` on the own properties: an existing
property keeps its place and takes the value, a new one is added last. -/
def setProp (key : String) (value : JSValue) : Props → Props
  | [] => [(key, value)]
  | (k, v) :: rest => if k = key then (key, value) :: rest else (k, v) :: setProp key value rest

/-- The value `object[key]` of an enumerable property, looked up on the
object and then along its prototype chain. -/
def lookupChain (key : String) (own : Props) : List Props → Option JSValue
  | [] => getProp key own
  | layer :: protos =>
      match getProp key own with
      | some value => some value
      | none => lookupChain key layer protos

mutual
/-- The exception the conversion `String(value)` ends with, if it throws. The
conversion of an object calls its `toString`. Without an enumerable property
of that name it is that of `Object.prototype`, which returns. A property
`toString` that holds a function is outside the embedding (the function would
run). One that holds no function is skipped for `valueOf`, and as the
`valueOf` of `Object.prototype` returns the object itself, the conversion
throws a `TypeError`. The conversion of an array converts its items. -/
def JSValue.conversionError : JSValue → Option JSError
  | .array items => JSValue.joinError items
  | .object own protos =>
      match lookupChain "toString" own protos with
      | none => none
      | some (.func _) => some .unmodelled
      | some _ =>
        match lookupChain "valueOf" own protos with
        | some (.func _) => some .unmodelled
        | _ => some .typeError
  | _ => none
termination_by structural x => x
/-- The exception `join` ends with on the items of an array, if it throws. -/
def JSValue.joinError : List JSValue → Option JSError
  | [] => none
  | item :: rest =>
      match JSValue.conversionError item with
      | some e => some e
      | none => JSValue.joinError rest
termination_by structural x => x
end

/-! ## JavaScript strings -/

/-- The characters `String.prototype.trim` removes: ECMAScript white space and
line terminators. -/
def isJSWhiteSpace (c : Char) : Bool :=
  let n := c.toNat
  (0x09 ≤ n && n ≤ 0x0D) || n == 0x20 || n == 0xA0 || n == 0x1680 ||
  (0x2000 ≤ n && n ≤ 0x200A) || n == 0x2028 || n == 0x2029 || n == 0x202F ||
  n == 0x205F || n == 0x3000 || n == 0xFEFF

/-- Drop the leading white space of a character list. -/
def trimStart : List Char → List Char
  | [] => []
  | c :: cs => if isJSWhiteSpace c then trimStart cs else c :: cs

/-- The method `s.trim()`. -/
def jsTrim (s : String) : String :=
  String.mk (trimStart (trimStart s.data).reverse).reverse

/-- The test `key.startsWith("@")`. -/
def startsWithAt (key : String) : Bool :=
  match key.data with
  | c :: _ => c == '@'
  | [] => false

/-- The call `key.substring(1)`. -/
def substring1 (key : String) : String :=
  String.mk (key.data.drop 1)

/-! ## The DOM tree -/

/-- A DOM node: a text node, or an element with its tag name, its attribute
list (name and value, in order) and its child nodes. -/
inductive Node where
  | text (data : String)
  | element (nodeName : String) (attributes : List (String × String)) (childNodes : List Node)

/-- The property `node.nodeName`. -/
def Node.nodeName : Node → String
  | .text _ => "#text"
  | .element name _ _ => name

/-- The attribute list `element.attributes` (empty on a text node, which has none). -/
def Node.attributes : Node → List (String × String)
  | .text _ => []
  | .element _ attrs _ => attrs

/-- The child nodes of a node. -/
def Node.childNodes : Node → List Node
  | .text _ => []
  | .element _ _ cs => cs

/-- Keep the elements of a node list. -/
def elementsOf : List Node → List Node
  | [] => []
  | .text _ :: rest => elementsOf rest
  | .element n a c :: rest => .element n a c :: elementsOf rest

/-- The collection `element.children`: the child nodes that are elements. -/
def Node.children (node : Node) : List Node :=
  elementsOf node.childNodes

mutual
/-- The property `node.textContent`: the text of all text nodes below the
node, in document order. -/
def Node.textContent : Node → String
  | .text data => data
  | .element _ _ cs => Node.textContentList cs
termination_by structural x => x
/-- The concatenated text content of a list of nodes. -/
def Node.textContentList : List Node → String
  | [] => ""
  | c :: cs => Node.textContent c ++ Node.textContentList cs
termination_by structural x => x
end

/-- The call `element.appendChild(child)`. -/
def Node.appendChild : Node → Node → Node
  | .text data, _ => .text data
  | .element name attrs cs, child => .element name attrs (cs ++ [child])

/-- Set an attribute in an attribute list: an attribute of the same name is
replaced where it stands, a new name is appended. -/
def setAttr (name value : String) : List (String × String) → List (String × String)
  | [] => [(name, value)]
  | (n, v) :: rest => if n = name then (name, value) :: rest else (n, v) :: setAttr name value rest

/-- The call `element.setAttributeNode(node)` for an attribute node with the
given name and value. -/
def Node.setAttributeNode : Node → String → String → Node
  | .text data, _, _ => .text data
  | .element n attrs cs, name, value => .element n (setAttr name value attrs) cs

/-- What differs between browsers and versions of the DOM standard: the names
the DOM accepts, the parser, and the escaping of the serialiser. -/
structure Dom where
  /-- The names `createElement` accepts; any other name throws. -/
  validElementName : String → Bool
  /-- The names `createAttribute` accepts; any other name throws. -/
  validAttributeName : String → Bool
  /-- The non-empty names `createDocument(null, name)` accepts for the
  document element; any other non-empty name throws. -/
  validRootName : String → Bool
  /-- The document element of `new DOMParser().parseFromString(xml, "text/xml")`.
  The call never throws: for text that is not well-formed it returns an error
  document. -/
  parseFromString : String → Node
  /-- How `XMLSerializer` writes the data of a text node. -/
  escapeText : String → String
  /-- How `XMLSerializer` writes the value of an attribute, between the quotes. -/
  escapeAttribute : String → String

/-- The document element of `document.implementation.createDocument(null, rootName)`:
none for the empty name, for which the document is created empty. -/
def Dom.createDocument (D : Dom) (rootName : String) : Except JSError (Option Node) :=
  if rootName = "" then .ok none
  else if D.validRootName rootName then .ok (some (.element rootName [] []))
  else .error .domException

/-! ## Serialisation -/

/-- The serialised attribute list: each attribute as ` name="value"`. -/
def serializeAttributes (D : Dom) : List (String × String) → String
  | [] => ""
  | (n, v) :: rest =>
      " " ++ n ++ "=\"" ++ D.escapeAttribute v ++ "\"" ++ serializeAttributes D rest

mutual
/-- The XML serialisation of a node: an element without child nodes is
written as an empty-element tag. -/
def serializeNode (D : Dom) : Node → String
  | .text data => D.escapeText data
  | .element name attrs [] => "<" ++ name ++ serializeAttributes D attrs ++ "/>"
  | .element name attrs (c :: cs) =>
      "<" ++ name ++ serializeAttributes D attrs ++ ">" ++ serializeNodes D (c :: cs) ++
        "</" ++ name ++ ">"
termination_by structural x => x
/-- The serialisation of a node list. -/
def serializeNodes (D : Dom) : List Node → String
  | [] => ""
  | c :: cs => serializeNode D c ++ serializeNodes D cs
termination_by structural x => x
end

/-- The call `new XMLSerializer().serializeToString(dom)` on a document with
the given document element. -/
def serializeToString (D : Dom) : Option Node → String
  | none => ""
  | some root => serializeNode D root

/-! ## `marshal` -/

/-- The constant `DOC_DECLARATION`. -/
def DOC_DECLARATION : String :=
  "<?xml version=\"1.0\" encoding=\"UTF-8\" standalone=\"yes\"?>"

/-- The names of a property list. -/
def keysOf (props : Props) : List String :=
  props.map Prod.fst

/-- Line 83, `element.appendChild(element.ownerDocument.createTextNode(object))`:
the text node holds the string form of the value. -/
def appendText (object : JSValue) : Option Node → Except JSError (Option Node)
  | none => .error .typeError
  | some element => .ok (some (element.appendChild (.text object.toJSString)))

/-- Lines 91 to 93: create the attribute named `key.substring(1).trim()`, give
it the string form of the value, set it on the element. -/
def setAttribute (D : Dom) (key : String) (value : JSValue) : Option Node → Except JSError (Option Node)
  | none => .error .typeError
  | some element =>
      if D.validAttributeName (jsTrim (substring1 key)) then
        match value.conversionError with
        | some e => .error e
        | none => .ok (some (element.setAttributeNode (jsTrim (substring1 key)) value.toJSString))
      else .error .domException

/-- Lines 97 to 99: create an element named after the key, append it to the
element, and fill it by the recursive call `fill`. -/
def newChild (D : Dom) (key : String) (fill : Option Node → Except JSError (Option Node)) :
    Option Node → Except JSError (Option Node)
  | none => .error .typeError
  | some element =>
      if D.validElementName key then
        match fill (some (.element key [] [])) with
        | .error e => .error e
        | .ok none => .ok (some element)
        | .ok (some node) => .ok (some (element.appendChild node))
      else .error .domException

mutual
/-- The private function `marshal (object, element)`. The element is passed
and returned instead of mutated; it is `none` when the variable holds `null`
(the document element of a document created with an empty root name), in
which case any access to it throws a `TypeError`. -/
def marshal (D : Dom) : JSValue → Option Node → Except JSError (Option Node)
  | .str s, element => appendText (.str s) element
  | .num n, element => appendText (.num n) element
  | .bool b, element => appendText (.bool b) element
  | .undefined, element => .ok element
  | .null, element => .ok element
  | .func _, element => .ok element
  | .array items, element => marshalIndexed D 0 items element
  | .object own protos, element =>
      match marshalProps D [] own element with
      | .error e => .error e
      | .ok element1 =>
        match marshalInherited D (keysOf own) protos element1 with
        | .error e => .error e
        | .ok element2 => marshalChain D protos element2
termination_by structural x => x
/-- The outer loop `for (; object != null; object = Object.getPrototypeOf(object))`
from its second round on: `object` walks the prototype chain. -/
def marshalChain (D : Dom) : List Props → Option Node → Except JSError (Option Node)
  | [], element => .ok element
  | own :: protos, element =>
      match marshalProps D [] own element with
      | .error e => .error e
      | .ok element1 =>
        match marshalInherited D (keysOf own) protos element1 with
        | .error e => .error e
        | .ok element2 => marshalChain D protos element2
termination_by structural x => x
/-- The part of `for (const key in object)` that visits inherited
properties: every enumerable property along the prototype chain whose name
is not shadowed by a nearer object (`seen`). -/
def marshalInherited (D : Dom) (seen : List String) : List Props → Option Node → Except JSError (Option Node)
  | [], element => .ok element
  | own :: protos, element =>
      match marshalProps D seen own element with
      | .error e => .error e
      | .ok element1 => marshalInherited D (seen ++ keysOf own) protos element1
termination_by structural x => x
/-- The loop `for (const key in object)` over the properties of one object of
the chain, skipping the names in `seen`. -/
def marshalProps (D : Dom) (seen : List String) : Props → Option Node → Except JSError (Option Node)
  | [], element => .ok element
  | entry :: rest, element =>
      if entry.1 ∈ seen then marshalProps D seen rest element
      else
        match marshalEntry D entry element with
        | .error e => .error e
        | .ok element1 => marshalProps D seen rest element1
termination_by structural x => x
/-- The body of the loop over the keys (lines 87 to 101), for one key and its
value `object[key]`. -/
def marshalEntry (D : Dom) : String × JSValue → Option Node → Except JSError (Option Node)
  | (key, value), element =>
      if value.isNullish || value.isFunction then .ok element
      else if startsWithAt key then setAttribute D key value element
      else
        match value with
        | .array items => marshalItems D key items element
        | single => newChild D key (marshal D single) element
termination_by structural x => x
/-- The loop `for (const object of values)` of lines 96 to 100. -/
def marshalItems (D : Dom) (key : String) : List JSValue → Option Node → Except JSError (Option Node)
  | [], element => .ok element
  | item :: rest, element =>
      match newChild D key (marshal D item) element with
      | .error e => .error e
      | .ok element1 => marshalItems D key rest element1
termination_by structural x => x
/-- The loop `for (const key in object)` over an array that reached the
object branch (an array that is an item of an array): the keys are the
indices, the loop body is that of `marshalEntry`. -/
def marshalIndexed (D : Dom) (index : Nat) : List JSValue → Option Node → Except JSError (Option Node)
  | [], element => .ok element
  | value :: rest, element =>
      match
        (if value.isNullish || value.isFunction then .ok element
         else if startsWithAt (toString index) then setAttribute D (toString index) value element
         else
           match value with
           | .array items => marshalItems D (toString index) items element
           | single => newChild D (toString index) (marshal D single) element) with
      | .error e => .error e
      | .ok element1 => marshalIndexed D (index + 1) rest element1
termination_by structural x => x
end

/-- The method `XmlMarshaller.marshal (object, rootName)`. -/
def XmlMarshaller.marshal (D : Dom) (object : JSValue) (rootName : String) : Except JSError String :=
  if object.isNullish || object.isFunction || object.isArray then .error .typeError
  else
    match D.createDocument rootName with
    | .error e => .error e
    | .ok documentElement =>
      match MarshalXml.marshal D object documentElement with
      | .error e => .error e
      | .ok dom => .ok (DOC_DECLARATION ++ serializeToString D dom)

/-! ## `unmarshal` -/

/-- The names of the properties an object created by `{}` inherits from
`Object.prototype`; the operator `in` finds them. -/
def objectPrototypeNames : List String :=
  ["constructor", "__defineGetter__", "__defineSetter__", "hasOwnProperty",
   "__lookupGetter__", "__lookupSetter__", "isPrototypeOf", "propertyIsEnumerable",
   "toString", "valueOf", "__proto__", "toLocaleString"]

/-- A built-in function of the given name. -/
def nativeFunction (name : String) : JSValue :=
  .func ("function " ++ name ++ "() \x7b [native code] \x7d")

/-- The value `object[key]` of a property inherited from `Object.prototype`
(all built-in functions; `constructor` is the function `Object`). -/
def objectPrototypeGet (key : String) : JSValue :=
  if key = "constructor" then nativeFunction "Object" else nativeFunction key

/-- Lines 121 to 123: every attribute becomes the property `"@" + name.trim()`. -/
def unmarshalAttributes : List (String × String) → Props → Props
  | [], object => object
  | (name, value) :: rest, object =>
      unmarshalAttributes rest (setProp ("@" ++ jsTrim name) (.str value) object)

/-- Lines 129 to 135: fold the value decoded from a child named `key` into the
object. `key in object` holds for an own property and for a name inherited
from `Object.prototype`. -/
def foldChild (key : String) (value : JSValue) (object : Props) : Except JSError Props :=
  match getProp key object with
  | some (.array items) => .ok (setProp key (.array (items ++ [value])) object)
  | some existingValue => .ok (setProp key (.array [existingValue, value]) object)
  | none =>
      if key = "__proto__" then .error .unmodelled
      else if key ∈ objectPrototypeNames then
        .ok (setProp key (.array [objectPrototypeGet key, value]) object)
      else .ok (setProp key value object)

mutual
/-- The private function `unmarshal (element)`. A text node has no
`attributes`, so that reading their length throws; the function is only
called on elements. -/
def unmarshal : Node → Except JSError JSValue
  | .text _ => .error .typeError
  | .element name attrs childNodes =>
      if attrs.length = 0 ∧ (elementsOf childNodes).length = 0 then
        .ok (.str (Node.textContent (.element name attrs childNodes)))
      else
        match unmarshalChildren childNodes (unmarshalAttributes attrs []) with
        | .error e => .error e
        | .ok object => .ok (.object object [])
termination_by structural x => x
/-- The loop `for (let child of element.children)`, lines 125 to 136: text
nodes are not among the children. -/
def unmarshalChildren : List Node → Props → Except JSError Props
  | [], object => .ok object
  | child :: rest, object =>
      match child with
      | .text _ => unmarshalChildren rest object
      | .element key a c =>
          match unmarshal (.element key a c) with
          | .error e => .error e
          | .ok value =>
            match foldChild key value object with
            | .error e => .error e
            | .ok object1 => unmarshalChildren rest object1
termination_by structural x => x
end

/-- The assignment `object.type = value` of line 61. On an ordinary object it
sets the own property; `unmarshal` returns nothing but objects and strings, and
on a string the assignment throws (module code is strict). -/
def assignType (value : JSValue) : JSValue → Except JSError JSValue
  | .object own protos => .ok (.object (setProp "type" value own) protos)
  | .str _ => .error .typeError
  | _ => .error .unmodelled

/-- The method `XmlMarshaller.unmarshal (xml)`. -/
def XmlMarshaller.unmarshal (D : Dom) (xml : String) : Except JSError JSValue :=
  let root := D.parseFromString xml
  match (if root.attributes.length = 0 ∧ root.children.length = 0 then .ok (.object [] [])
         else MarshalXml.unmarshal root) with
  | .error e => .error e
  | .ok object => assignType (.str root.nodeName) object

/-! ## A reference DOM

One `Dom` that follows the standards, used to run the marshaller on concrete
inputs: names are checked against the `Name` production of XML 1.0, and the
parser reads documents made of an optional XML declaration and one element
tree of elements, attributes, character data and references. Comments,
CDATA sections, processing instructions and document type declarations are
outside it and reported as errors. -/

/-- The production `NameStartChar` of XML 1.0. -/
def isNameStartChar (c : Char) : Bool :=
  let n := c.toNat
  c == ':' || c == '_' || (0x41 ≤ n && n ≤ 0x5A) || (0x61 ≤ n && n ≤ 0x7A) ||
  (0xC0 ≤ n && n ≤ 0xD6) || (0xD8 ≤ n && n ≤ 0xF6) || (0xF8 ≤ n && n ≤ 0x2FF) ||
  (0x370 ≤ n && n ≤ 0x37D) || (0x37F ≤ n && n ≤ 0x1FFF) || (0x200C ≤ n && n ≤ 0x200D) ||
  (0x2070 ≤ n && n ≤ 0x218F) || (0x2C00 ≤ n && n ≤ 0x2FEF) || (0x3001 ≤ n && n ≤ 0xD7FF) ||
  (0xF900 ≤ n && n ≤ 0xFDCF) || (0xFDF0 ≤ n && n ≤ 0xFFFD) || (0x10000 ≤ n && n ≤ 0xEFFFF)

/-- The production `NameChar` of XML 1.0. -/
def isNameChar (c : Char) : Bool :=
  let n := c.toNat
  isNameStartChar c || c == '-' || c == '.' || (0x30 ≤ n && n ≤ 0x39) || n == 0xB7 ||
  (0x300 ≤ n && n ≤ 0x36F) || (0x203F ≤ n && n ≤ 0x2040)

/-- The production `Name` of XML 1.0. -/
def isXmlName (s : String) : Bool :=
  match s.data with
  | [] => false
  | c :: cs => isNameStartChar c && cs.all isNameChar

/-- The production `Char` of XML 1.0. -/
def isXmlChar (c : Char) : Bool :=
  let n := c.toNat
  n == 0x9 || n == 0xA || n == 0xD || (0x20 ≤ n && n ≤ 0xD7FF) ||
  (0xE000 ≤ n && n ≤ 0xFFFD) || (0x10000 ≤ n && n ≤ 0x10FFFF)

/-- The production `S` of XML 1.0, one character of it. -/
def isXmlSpace (c : Char) : Bool :=
  c == ' ' || c == '\t' || c == '\n' || c == '\r'

/-- Skip white space. -/
def skipSpace : List Char → List Char
  | [] => []
  | c :: cs => if isXmlSpace c then skipSpace cs else c :: cs

/-- Read the name characters at the head of the input. -/
def takeNameChars : List Char → List Char × List Char
  | [] => ([], [])
  | c :: cs =>
      if isNameChar c then ((takeNameChars cs).1.cons c, (takeNameChars cs).2)
      else ([], c :: cs)

/-- Read a name. -/
def takeName : List Char → Option (String × List Char)
  | [] => none
  | c :: cs =>
      if isNameStartChar c then some (String.mk (c :: (takeNameChars cs).1), (takeNameChars cs).2)
      else none

/-- Normalise the line ends of the input: a carriage return, with the line
feed after it if there is one, is read as one line feed. -/
def normalizeLineEnds : List Char → List Char
  | [] => []
  | '\r' :: '\n' :: cs => '\n' :: normalizeLineEnds cs
  | '\r' :: cs => '\n' :: normalizeLineEnds cs
  | c :: cs => c :: normalizeLineEnds cs

/-- Read a reference after its ampersand: one of the five predefined
entities. -/
def takeReference : List Char → Option (Char × List Char)
  | 'l' :: 't' :: ';' :: cs => some ('<', cs)
  | 'g' :: 't' :: ';' :: cs => some ('>', cs)
  | 'a' :: 'm' :: 'p' :: ';' :: cs => some ('&', cs)
  | 'q' :: 'u' :: 'o' :: 't' :: ';' :: cs => some ('"', cs)
  | 'a' :: 'p' :: 'o' :: 's' :: ';' :: cs => some ('\x27', cs)
  | _ => none

/-- Read an attribute value up to its closing quote; white space characters
are normalised to spaces. -/
def takeAttValue (quote : Char) : Nat → List Char → Option (List Char × List Char)
  | 0, _ => none
  | _ + 1, [] => none
  | fuel + 1, c :: cs =>
      if c = quote then some ([], cs)
      else if c = '<' then none
      else if c = '&' then
        match takeReference cs with
        | none => none
        | some (r, rest) =>
          match takeAttValue quote fuel rest with
          | none => none
          | some (v, rest1) => some (r :: v, rest1)
      else if isXmlChar c then
        match takeAttValue quote fuel cs with
        | none => none
        | some (v, rest1) => some ((if isXmlSpace c then ' ' else c) :: v, rest1)
      else none

/-- Read the attributes of a start tag, up to its closing `>` or `/>`. -/
def takeAttributes : Nat → List Char → Option (List (String × String) × List Char)
  | 0, _ => none
  | fuel + 1, input =>
      match skipSpace input with
      | '>' :: rest => some ([], '>' :: rest)
      | '/' :: rest => some ([], '/' :: rest)
      | rest =>
        if (input.head?.map isXmlSpace) = some true then
          match takeName rest with
          | none => none
          | some (name, r1) =>
            match skipSpace r1 with
            | '=' :: r2 =>
              match skipSpace r2 with
              | q :: r3 =>
                if q = '"' ∨ q = '\x27' then
                  match takeAttValue q fuel r3 with
                  | none => none
                  | some (value, r4) =>
                    match takeAttributes fuel r4 with
                    | none => none
                    | some (attrs, r5) =>
                      if name ∈ attrs.map Prod.fst then none
                      else some ((name, String.mk value) :: attrs, r5)
                else none
              | [] => none
            | _ => none
        else none

/-- Read character data up to the next `<`. -/
def takeText : Nat → List Char → Option (List Char × List Char)
  | 0, _ => none
  | _ + 1, [] => none
  | fuel + 1, c :: cs =>
      if c = '<' then some ([], c :: cs)
      else if c = '&' then
        match takeReference cs with
        | none => none
        | some (r, rest) =>
          match takeText fuel rest with
          | none => none
          | some (data, rest1) => some (r :: data, rest1)
      else if isXmlChar c then
        match takeText fuel cs with
        | none => none
        | some (data, rest1) => some (c :: data, rest1)
      else none

mutual
/-- Read an element, from its start tag to its end tag. -/
def parseElement : Nat → List Char → Option (Node × List Char)
  | 0, _ => none
  | fuel + 1, input =>
      match input with
      | '<' :: cs =>
        match takeName cs with
        | none => none
        | some (name, r1) =>
          match takeAttributes fuel r1 with
          | some (attrs, '/' :: '>' :: r3) => some (.element name attrs [], r3)
          | some (attrs, '>' :: r3) =>
            match parseContent fuel r3 with
            | none => none
            | some (childNodes, r4) =>
              match takeName r4 with
              | none => none
              | some (endName, r5) =>
                match skipSpace r5 with
                | '>' :: r6 => if endName = name then some (.element name attrs childNodes, r6) else none
                | _ => none
          | _ => none
      | _ => none
termination_by structural x => x
/-- Read the content of an element, up to and including the `</` of its end
tag. -/
def parseContent : Nat → List Char → Option (List Node × List Char)
  | 0, _ => none
  | fuel + 1, input =>
      match input with
      | '<' :: '/' :: rest => some ([], rest)
      | '<' :: cs =>
        match parseElement fuel ('<' :: cs) with
        | none => none
        | some (child, rest) =>
          match parseContent fuel rest with
          | none => none
          | some (nodes, r) => some (child :: nodes, r)
      | cs =>
        match takeText fuel cs with
        | none => none
        | some (data, rest) =>
          match parseContent fuel rest with
          | none => none
          | some (nodes, r) => some (.text (String.mk data) :: nodes, r)
termination_by structural x => x
end

/-- Skip to the end `?>` of the XML declaration. -/
def skipToDeclarationEnd : List Char → Option (List Char)
  | [] => none
  | '?' :: '>' :: cs => some cs
  | _ :: cs => skipToDeclarationEnd cs

/-- Skip the XML declaration, if the document starts with one. -/
def skipDeclaration : List Char → Option (List Char)
  | '<' :: '?' :: 'x' :: 'm' :: 'l' :: cs => skipToDeclarationEnd cs
  | '<' :: '?' :: _ => none
  | cs => some cs

/-- The XML parser of the reference DOM: the document element of a
well-formed document, nothing for any other text. -/
def parseXml (xml : String) : Option Node :=
  match skipDeclaration (normalizeLineEnds xml.data) with
  | none => none
  | some body =>
    match parseElement (xml.length + 1) (skipSpace body) with
    | none => none
    | some (root, rest) => if skipSpace rest = [] then some root else none

/-- Escape one character of a text node. -/
def escapeTextChar (c : Char) : List Char :=
  if c = '&' then "&amp;".data
  else if c = '<' then "&lt;".data
  else if c = '>' then "&gt;".data
  else [c]

/-- Escape one character of an attribute value. -/
def escapeAttrChar (c : Char) : List Char :=
  if c = '&' then "&amp;".data
  else if c = '"' then "&quot;".data
  else if c = '<' then "&lt;".data
  else if c = '>' then "&gt;".data
  else [c]

/-- The serialised data of a text node in the reference DOM: the characters
`&`, `<` and `>` are written as references. -/
def escapeText (s : String) : String :=
  String.mk (s.data.flatMap escapeTextChar)

/-- The serialised value of an attribute in the reference DOM: the characters
`&`, `"`, `<` and `>` are written as references. -/
def escapeAttr (s : String) : String :=
  String.mk (s.data.flatMap escapeAttrChar)

/-- The reference DOM. For text that is not well-formed its parser returns the
error document of the HTML standard, whose document element is named
`parsererror`. -/
def referenceDom : Dom where
  validElementName := isXmlName
  validAttributeName := isXmlName
  validRootName := fun name => isXmlName name && !name.data.contains ':'
  parseFromString := fun xml =>
    match parseXml xml with
    | some root => root
    | none => .element "parsererror" [] []
  escapeText := escapeText
  escapeAttribute := escapeAttr

/-! ## Definitions for the statements

What the theorems below are stated with: the values and trees a statement
is about, the outcome the specification gives, and the properties carried
through the inductions. -/

mutual
/-- Every value `marshal` converts to a string for an attribute, at any depth
of the value, converts without an exception. -/
def JSValue.attributesConvert : JSValue → Bool
  | .array items => JSValue.itemsAttributesConvert items
  | .object own protos =>
      JSValue.propsAttributesConvert own && JSValue.chainAttributesConvert protos
  | _ => true
termination_by structural x => x
/-- The same of the items of an array. -/
def JSValue.itemsAttributesConvert : List JSValue → Bool
  | [] => true
  | item :: rest => JSValue.attributesConvert item && JSValue.itemsAttributesConvert rest
termination_by structural x => x
/-- The same of the properties of an object. -/
def JSValue.propsAttributesConvert : Props → Bool
  | [] => true
  | entry :: rest => JSValue.entryAttributesConvert entry && JSValue.propsAttributesConvert rest
termination_by structural x => x
/-- The same of one property: an `@`-prefixed one is converted, any other is
marshalled in turn. -/
def JSValue.entryAttributesConvert : String × JSValue → Bool
  | (key, value) =>
      if startsWithAt key then value.conversionError.isNone else JSValue.attributesConvert value
termination_by structural x => x
/-- The same of the objects along a prototype chain. -/
def JSValue.chainAttributesConvert : List Props → Bool
  | [] => true
  | own :: protos => JSValue.propsAttributesConvert own && JSValue.chainAttributesConvert protos
termination_by structural x => x
end

/-- An outcome of marshalling into an element: the element is returned, or
the DOM rejected a name, or, for a value not `clean`, another exception was
thrown. Never is the element lost. -/
def Settles (clean : Bool) (r : Except JSError (Option Node)) : Prop :=
  (∃ element, r = .ok (some element)) ∨ r = .error .domException ∨
    (clean = false ∧ ∃ e, r = .error e)

/-- The attribute list the specification gives a record of primitives: one
attribute per `@`-prefixed field, named by the field name without its `@`,
trimmed, and holding the string form of the value. -/
def flatAttributes (fields : Props) : List (String × String) :=
  (fields.filter fun p => startsWithAt p.1).map fun p => (jsTrim (substring1 p.1), p.2.toJSString)

/-- The child list the specification gives a record of primitives: one
element per field without `@`, named by the field and holding the string
form of the value as its text. -/
def flatChildren (fields : Props) : List Node :=
  (fields.filter fun p => !startsWithAt p.1).map fun p => .element p.1 [] [.text p.2.toJSString]

/-- A record without the fields `marshal` skips: those whose value is `null`,
`undefined` or a function. -/
def withoutOmitted (fields : Props) : Props :=
  fields.filter fun p => !(p.2.isNullish || p.2.isFunction)

mutual
/-- The trees the embedding of `unmarshal` covers: no element below the node
is named `__proto__`. -/
def Node.decodable : Node → Bool
  | .text _ => true
  | .element _ _ cs => Node.decodableList cs
termination_by structural x => x
/-- The node lists the embedding of `unmarshal` covers. -/
def Node.decodableList : List Node → Bool
  | [] => true
  | .text _ :: rest => Node.decodableList rest
  | .element name attrs cs :: rest =>
      name != "__proto__" && Node.decodable (.element name attrs cs) && Node.decodableList rest
termination_by structural x => x
end

/-- The values `unmarshal` returns: a string, or an object created by `{}`. -/
def JSValue.isDecoded : JSValue → Bool
  | .str _ => true
  | .object _ [] => true
  | _ => false

/-- The value the specification gives the field of a tag name, from the
decoded values of the children of that name in document order: the value
itself for a single child, the list of the values for several. -/
def foldedValue : List JSValue → JSValue
  | [value] => value
  | values => .array values

/-- One step of the folding, on the current value of the field. -/
def foldStep (existing : Option JSValue) (value : JSValue) : JSValue :=
  match existing with
  | some (.array items) => .array (items ++ [value])
  | some existingValue => .array [existingValue, value]
  | none => value

/-- Put a text in front of a normalised node list. -/
def mergeText (data : String) : List Node → List Node
  | .text next :: rest => .text (data ++ next) :: rest
  | rest => if data = "" then rest else .text data :: rest

mutual
/-- The method `node.normalize()`: below the node, empty text nodes are
removed and adjacent text nodes are merged. -/
def Node.normalize : Node → Node
  | .text data => .text data
  | .element name attrs cs => .element name attrs (Node.normalizeList cs)
termination_by structural x => x
/-- The normalised form of a list of child nodes. -/
def Node.normalizeList : List Node → List Node
  | [] => []
  | .text data :: rest => mergeText data (Node.normalizeList rest)
  | .element name attrs cs :: rest =>
      Node.normalize (.element name attrs cs) :: Node.normalizeList rest
termination_by structural x => x
end

mutual
/-- The values a field, or an item of a list, may hold for the round trip: a
string, or a plain record with at least one field whose fields round-trip. -/
def JSValue.roundTrips (D : Dom) : JSValue → Bool
  | .str _ => true
  | .object own [] => !own.isEmpty && fieldsRoundTrip D own
  | _ => false
termination_by structural x => x
/-- The fields of a record that round-trips. The field names are distinct.
An `@`-prefixed field holds a string, and its name after the `@` is trimmed
and accepted by the DOM as an attribute name. Any other field has a name the
DOM accepts as an element name, not inherited from `Object.prototype`, and
holds a string, a record, or a list of at least two of these. -/
def fieldsRoundTrip (D : Dom) : Props → Bool
  | [] => true
  | (key, value) :: rest =>
      (if startsWithAt key then
          (match value with
            | .str _ => true
            | _ => false) &&
          jsTrim (substring1 key) == substring1 key && D.validAttributeName (substring1 key)
        else
          D.validElementName key && !(objectPrototypeNames.contains key) &&
          (match value with
            | .array items => decide (2 ≤ items.length) && itemsRoundTrip D items
            | single => single.roundTrips D)) &&
      !((keysOf rest).contains key) && fieldsRoundTrip D rest
termination_by structural x => x
/-- The items of a list that round-trips. -/
def itemsRoundTrip (D : Dom) : List JSValue → Bool
  | [] => true
  | item :: rest => item.roundTrips D && itemsRoundTrip D rest
termination_by structural x => x
end

mutual
/-- The element `marshal` builds under the name `key` for a value: a text for
a primitive, the attributes and children of its fields for a record. -/
def nodeOf (key : String) : JSValue → Node
  | .object own _ => .element key (flatAttributes own) (childrenOf own)
  | value => .element key [] [.text value.toJSString]
termination_by structural x => x
/-- The child elements `marshal` builds for the fields of a record. -/
def childrenOf : Props → List Node
  | [] => []
  | (key, value) :: rest =>
      (if startsWithAt key then []
        else
          match value with
          | .array items => nodesOf key items
          | single => [nodeOf key single]) ++ childrenOf rest
termination_by structural x => x
/-- The sibling elements `marshal` builds for the items of a list. -/
def nodesOf (key : String) : List JSValue → List Node
  | [] => []
  | item :: rest => nodeOf key item :: nodesOf key rest
termination_by structural x => x
end

/-- The `@`-prefixed fields of a record. -/
def attributeFields (own : Props) : Props :=
  own.filter fun p => startsWithAt p.1

mutual
/-- A value with, in every record, the `@`-prefixed fields moved before the
others: the order in which `unmarshal` rebuilds the fields. -/
def attributesFirst : JSValue → JSValue
  | .object own protos => .object (attributeFields own ++ elementFields own) protos
  | .array items => .array (attributesFirstItems items)
  | value => value
termination_by structural x => x
/-- The fields without `@` of a record, their values reordered. -/
def elementFields : Props → Props
  | [] => []
  | (key, value) :: rest =>
      if startsWithAt key then elementFields rest
      else (key, attributesFirst value) :: elementFields rest
termination_by structural x => x
/-- The items of a list, reordered. -/
def attributesFirstItems : List JSValue → List JSValue
  | [] => []
  | item :: rest => attributesFirst item :: attributesFirstItems rest
termination_by structural x => x
end

mutual
/-- Structural equality of values: equal primitives, lists with structurally
equal items in the same order, objects with as many own properties, each
property of the first found in the second with a structurally equal value. -/
def structEq : JSValue → JSValue → Bool
  | .undefined, .undefined => true
  | .null, .null => true
  | .bool a, .bool b => a == b
  | .num a, .num b => a == b
  | .str a, .str b => a == b
  | .func a, .func b => a == b
  | .array xs, .array ys => structEqItems xs ys
  | .object own protos, .object own1 protos1 =>
      own.length == own1.length && structEqProps own own1 && structEqChain protos protos1
  | _, _ => false
termination_by structural x => x
/-- Item by item. -/
def structEqItems : List JSValue → List JSValue → Bool
  | [], [] => true
  | x :: xs, y :: ys => structEq x y && structEqItems xs ys
  | _, _ => false
termination_by structural x => x
/-- Every property of the first list is in the second, with a structurally
equal value. -/
def structEqProps : Props → Props → Bool
  | [], _ => true
  | (key, value) :: rest, other =>
      (match getProp key other with
        | some value1 => structEq value value1
        | none => false) && structEqProps rest other
termination_by structural x => x
/-- Prototype chains, object by object. -/
def structEqChain : List Props → List Props → Bool
  | [], [] => true
  | own :: protos, own1 :: protos1 =>
      own.length == own1.length && structEqProps own own1 && structEqChain protos protos1
  | _, _ => false
termination_by structural x => x
end

/-- A record without its field `type`. -/
def removeType : JSValue → JSValue
  | .object own protos => .object (own.filter fun p => p.1 != "type") protos
  | value => value

mutual
/-- Every list in the value, at any depth, has at least two items. -/
def JSValue.listsFolded : JSValue → Bool
  | .array items => decide (2 ≤ items.length) && JSValue.itemsListsFolded items
  | .object own protos => JSValue.propsListsFolded own && JSValue.chainListsFolded protos
  | _ => true
termination_by structural x => x
/-- The same of the items of a list. -/
def JSValue.itemsListsFolded : List JSValue → Bool
  | [] => true
  | item :: rest => JSValue.listsFolded item && JSValue.itemsListsFolded rest
termination_by structural x => x
/-- The same of the values of the properties of an object. -/
def JSValue.propsListsFolded : Props → Bool
  | [] => true
  | (_, value) :: rest => JSValue.listsFolded value && JSValue.propsListsFolded rest
termination_by structural x => x
/-- The same of the objects along a prototype chain. -/
def JSValue.chainListsFolded : List Props → Bool
  | [] => true
  | own :: protos => JSValue.propsListsFolded own && JSValue.chainListsFolded protos
termination_by structural x => x
end

/-- What `fieldsRoundTrip` asks of one field. -/
def FieldOk (D : Dom) (p : String × JSValue) : Prop :=
  if startsWithAt p.1 = true then
    (∃ s, p.2 = .str s) ∧ jsTrim (substring1 p.1) = substring1 p.1 ∧
      D.validAttributeName (substring1 p.1) = true
  else
    D.validElementName p.1 = true ∧ p.1 ∉ objectPrototypeNames ∧
      ((∃ items, p.2 = .array items ∧ 2 ≤ items.length ∧ ∀ x ∈ items, x.roundTrips D = true) ∨
        (p.2.isArray = false ∧ p.2.roundTrips D = true))

/-- What the induction over values carries for the marshalling side. -/
def MarshalsToNode (D : Dom) (value : JSValue) : Prop :=
  (value.roundTrips D = true →
    ∀ key, marshal D value (some (.element key [] [])) = .ok (some (nodeOf key value))) ∧
  ∀ items, value = .array items → ∀ x ∈ items, x.roundTrips D = true →
    ∀ key, marshal D x (some (.element key [] [])) = .ok (some (nodeOf key x))

/-- What the induction over values carries for the decoding side. -/
def UnmarshalsFromNode (D : Dom) (value : JSValue) : Prop :=
  (value.roundTrips D = true →
    ∀ key, unmarshal (nodeOf key value) = .ok (attributesFirst value)) ∧
  ∀ items, value = .array items → ∀ x ∈ items, x.roundTrips D = true →
    ∀ key, unmarshal (nodeOf key x) = .ok (attributesFirst x)

/-- What the induction over values carries for structural equality. -/
def StructEqReordered (D : Dom) (value : JSValue) : Prop :=
  (value.roundTrips D = true → structEq (attributesFirst value) value = true) ∧
  ∀ items, value = .array items → (∀ x ∈ items, x.roundTrips D = true) →
    structEqItems (attributesFirstItems items) items = true

/-! ## Outcomes of `marshal` -/

theorem Settles.bind {c1 c2 : Bool} {r : Except JSError (Option Node)}
    {f : Option Node → Except JSError (Option Node)} :
    Settles c1 r → (∀ element, Settles c2 (f (some element))) →
    Settles (c1 && c2) (match r with
      | .error e => .error e
      | .ok element1 => f element1) := by
  intro hr hf
  rcases hr with ⟨element, rfl⟩ | rfl | ⟨hc, e, rfl⟩
  · rcases hf element with h | h | ⟨hc, h⟩
    · exact Or.inl h
    · exact Or.inr (Or.inl h)
    · exact Or.inr (Or.inr ⟨by simp [hc], h⟩)
  · exact Or.inr (Or.inl rfl)
  · exact Or.inr (Or.inr ⟨by simp [hc], e, rfl⟩)

theorem Settles.mono {c1 c2 : Bool} {r : Except JSError (Option Node)} (h : Settles c1 r)
    (hc : c2 = true → c1 = true) : Settles c2 r := by
  rcases h with h | h | ⟨hclean, h⟩
  · exact Or.inl h
  · exact Or.inr (Or.inl h)
  · refine Or.inr (Or.inr ⟨?_, h⟩)
    cases c2
    · rfl
    · rw [hc rfl] at hclean; cases hclean

theorem settles_ok (clean : Bool) (element : Node) : Settles clean (.ok (some element)) :=
  Or.inl ⟨element, rfl⟩

theorem appendText_settles (clean : Bool) (object : JSValue) (element : Node) :
    Settles clean (appendText object (some element)) :=
  Or.inl ⟨_, rfl⟩

theorem setAttribute_settles (D : Dom) (key : String) (value : JSValue) (element : Node) :
    Settles value.conversionError.isNone (setAttribute D key value (some element)) := by
  simp only [setAttribute]
  split
  · cases hconv : value.conversionError with
    | none => exact Or.inl ⟨_, rfl⟩
    | some e => exact Or.inr (Or.inr ⟨rfl, e, rfl⟩)
  · exact Or.inr (Or.inl rfl)

theorem newChild_settles (D : Dom) (clean : Bool) (key : String)
    (fill : Option Node → Except JSError (Option Node))
    (hfill : ∀ node, Settles clean (fill (some node))) (element : Node) :
    Settles clean (newChild D key fill (some element)) := by
  simp only [newChild]
  split
  · rcases hfill (.element key [] []) with ⟨node, h⟩ | h | ⟨hc, e, h⟩
    · rw [h]; exact Or.inl ⟨_, rfl⟩
    · rw [h]; exact Or.inr (Or.inl rfl)
    · rw [h]; exact Or.inr (Or.inr ⟨hc, e, rfl⟩)
  · exact Or.inr (Or.inl rfl)

/-! ## Induction over values -/

mutual
/-- Induction over values: a property holds of every value if it holds of the
primitive values, of an array whose items have it, and of an object all of
whose property values, own and inherited, have it. -/
theorem jsValue_induction {P : JSValue → Prop}
    (hundefined : P .undefined) (hnull : P .null) (hbool : ∀ b, P (.bool b)) (hnum : ∀ n, P (.num n))
    (hstr : ∀ s, P (.str s)) (hfunc : ∀ f, P (.func f))
    (harray : ∀ items, (∀ x ∈ items, P x) → P (.array items))
    (hobject : ∀ own protos, (∀ e ∈ own, P e.2) → (∀ layer ∈ protos, ∀ e ∈ layer, P e.2) →
      P (.object own protos)) :
    ∀ v : JSValue, P v
  | .undefined => hundefined
  | .null => hnull
  | .bool b => hbool b
  | .num n => hnum n
  | .str s => hstr s
  | .func f => hfunc f
  | .array items => harray items (jsValue_inductionItems hundefined hnull hbool hnum hstr hfunc harray hobject items)
  | .object own protos =>
      hobject own protos (jsValue_inductionProps hundefined hnull hbool hnum hstr hfunc harray hobject own)
        (jsValue_inductionChain hundefined hnull hbool hnum hstr hfunc harray hobject protos)
theorem jsValue_inductionItems {P : JSValue → Prop}
    (hundefined : P .undefined) (hnull : P .null) (hbool : ∀ b, P (.bool b)) (hnum : ∀ n, P (.num n))
    (hstr : ∀ s, P (.str s)) (hfunc : ∀ f, P (.func f))
    (harray : ∀ items, (∀ x ∈ items, P x) → P (.array items))
    (hobject : ∀ own protos, (∀ e ∈ own, P e.2) → (∀ layer ∈ protos, ∀ e ∈ layer, P e.2) →
      P (.object own protos)) :
    ∀ items : List JSValue, ∀ x ∈ items, P x
  | [], _, h => absurd h (List.not_mem_nil _)
  | y :: ys, x, h =>
      (List.mem_cons.1 h).elim (fun e => e ▸ jsValue_induction hundefined hnull hbool hnum hstr hfunc harray hobject y)
        (fun m => jsValue_inductionItems hundefined hnull hbool hnum hstr hfunc harray hobject ys x m)
theorem jsValue_inductionProps {P : JSValue → Prop}
    (hundefined : P .undefined) (hnull : P .null) (hbool : ∀ b, P (.bool b)) (hnum : ∀ n, P (.num n))
    (hstr : ∀ s, P (.str s)) (hfunc : ∀ f, P (.func f))
    (harray : ∀ items, (∀ x ∈ items, P x) → P (.array items))
    (hobject : ∀ own protos, (∀ e ∈ own, P e.2) → (∀ layer ∈ protos, ∀ e ∈ layer, P e.2) →
      P (.object own protos)) :
    ∀ props : List (String × JSValue), ∀ e ∈ props, P e.2
  | [], _, h => absurd h (List.not_mem_nil _)
  | (_, v) :: rest, x, h =>
      (List.mem_cons.1 h).elim (fun e => e ▸ jsValue_induction hundefined hnull hbool hnum hstr hfunc harray hobject v)
        (fun m => jsValue_inductionProps hundefined hnull hbool hnum hstr hfunc harray hobject rest x m)
theorem jsValue_inductionChain {P : JSValue → Prop}
    (hundefined : P .undefined) (hnull : P .null) (hbool : ∀ b, P (.bool b)) (hnum : ∀ n, P (.num n))
    (hstr : ∀ s, P (.str s)) (hfunc : ∀ f, P (.func f))
    (harray : ∀ items, (∀ x ∈ items, P x) → P (.array items))
    (hobject : ∀ own protos, (∀ e ∈ own, P e.2) → (∀ layer ∈ protos, ∀ e ∈ layer, P e.2) →
      P (.object own protos)) :
    ∀ protos : List (List (String × JSValue)), ∀ layer ∈ protos, ∀ e ∈ layer, P e.2
  | [], _, h => absurd h (List.not_mem_nil _)
  | own :: rest, layer, h =>
      (List.mem_cons.1 h).elim (fun e => e ▸ jsValue_inductionProps hundefined hnull hbool hnum hstr hfunc harray hobject own)
        (fun m => jsValue_inductionChain hundefined hnull hbool hnum hstr hfunc harray hobject rest layer m)
end

/-! ## The loops of `marshal`, unfolded -/

/-- The loop body `marshalEntry`, unfolded. -/
theorem marshalEntry_eq (D : Dom) (key : String) (value : JSValue) (element : Option Node) :
    marshalEntry D (key, value) element =
      if (value.isNullish || value.isFunction) = true then .ok element
      else if startsWithAt key = true then setAttribute D key value element
      else
        match value with
        | .array items => marshalItems D key items element
        | single => newChild D key (marshal D single) element := by
  cases value <;> rfl

/-- The loop body of `marshalIndexed` is `marshalEntry` at the index key. -/
theorem marshalIndexed_cons (D : Dom) (index : Nat) (value : JSValue) (rest : List JSValue)
    (element : Option Node) :
    marshalIndexed D index (value :: rest) element =
      match marshalEntry D (toString index, value) element with
      | .error e => .error e
      | .ok element1 => marshalIndexed D (index + 1) rest element1 := by
  cases value <;> rfl

theorem digitChar_ne_at (n : Nat) : Nat.digitChar n ≠ '@' := by
  by_cases h : n < 16
  · interval_cases n <;> decide
  · unfold Nat.digitChar
    rw [if_neg (by omega), if_neg (by omega), if_neg (by omega), if_neg (by omega),
      if_neg (by omega), if_neg (by omega), if_neg (by omega), if_neg (by omega),
      if_neg (by omega), if_neg (by omega), if_neg (by omega), if_neg (by omega),
      if_neg (by omega), if_neg (by omega), if_neg (by omega), if_neg (by omega)]
    decide

theorem toDigitsCore_ne_at (fuel : Nat) :
    ∀ (n : Nat) (ds : List Char), (∀ c ∈ ds, c ≠ '@') →
      ∀ c ∈ Nat.toDigitsCore 10 fuel n ds, c ≠ '@' := by
  induction fuel with
  | zero => intro n ds hds; simpa only [Nat.toDigitsCore] using hds
  | succ fuel ih =>
      intro n ds hds
      have hcons : ∀ c ∈ Nat.digitChar (n % 10) :: ds, c ≠ '@' := by
        intro c hc
        rcases List.mem_cons.1 hc with rfl | hmem
        · exact digitChar_ne_at _
        · exact hds c hmem
      simp only [Nat.toDigitsCore]
      split
      · exact hcons
      · exact ih _ _ hcons

/-- An array index does not start with `@`. -/
theorem startsWithAt_index (index : Nat) : startsWithAt (toString index) = false := by
  have hdata : (toString index).data = Nat.toDigits 10 index := rfl
  unfold startsWithAt
  rw [hdata]
  cases hd : Nat.toDigits 10 index with
  | nil => rfl
  | cons c cs =>
      have hc : c ≠ '@' :=
        toDigitsCore_ne_at (index + 1) index [] (fun c hc => by cases hc) c
          (by rw [show Nat.toDigitsCore 10 (index + 1) index [] = Nat.toDigits 10 index from rfl, hd]
              exact List.mem_cons_self _ _)
      simp [hc]

theorem marshalProps_settles (D : Dom) (seen : List String) (props : Props)
    (h : ∀ p ∈ props, ∀ element,
      Settles (JSValue.entryAttributesConvert p) (marshalEntry D p (some element))) :
    ∀ element, Settles (JSValue.propsAttributesConvert props)
      (marshalProps D seen props (some element)) := by
  induction props with
  | nil => intro element; simp only [marshalProps]; exact settles_ok _ _
  | cons entry rest ih =>
      intro element
      have hrest := ih (fun p hp => h p (List.mem_cons_of_mem _ hp))
      simp only [marshalProps, JSValue.propsAttributesConvert]
      split
      · exact (hrest element).mono (fun hc => by simp only [Bool.and_eq_true] at hc; exact hc.2)
      · exact (h entry (List.mem_cons_self _ _) element).bind hrest

theorem marshalInherited_settles (D : Dom) (protos : List Props)
    (h : ∀ layer ∈ protos, ∀ p ∈ layer, ∀ element,
      Settles (JSValue.entryAttributesConvert p) (marshalEntry D p (some element))) :
    ∀ seen element, Settles (JSValue.chainAttributesConvert protos)
      (marshalInherited D seen protos (some element)) := by
  induction protos with
  | nil => intro seen element; simp only [marshalInherited]; exact settles_ok _ _
  | cons own rest ih =>
      intro seen element
      simp only [marshalInherited, JSValue.chainAttributesConvert]
      exact (marshalProps_settles D seen own (h own (List.mem_cons_self _ _)) element).bind
        (ih (fun layer hl => h layer (List.mem_cons_of_mem _ hl)) _)

theorem marshalChain_settles (D : Dom) (protos : List Props)
    (h : ∀ layer ∈ protos, ∀ p ∈ layer, ∀ element,
      Settles (JSValue.entryAttributesConvert p) (marshalEntry D p (some element))) :
    ∀ element, Settles (JSValue.chainAttributesConvert protos)
      (marshalChain D protos (some element)) := by
  induction protos with
  | nil => intro element; simp only [marshalChain]; exact settles_ok _ _
  | cons own rest ih =>
      intro element
      simp only [marshalChain]
      have hrest : ∀ layer ∈ rest, ∀ p ∈ layer, ∀ element,
          Settles (JSValue.entryAttributesConvert p) (marshalEntry D p (some element)) :=
        fun layer hl => h layer (List.mem_cons_of_mem _ hl)
      refine Settles.mono ((marshalProps_settles D [] own (h own (List.mem_cons_self _ _)) element).bind
        fun element1 => (marshalInherited_settles D rest hrest _ element1).bind (ih hrest)) ?_
      intro hc
      simp only [JSValue.chainAttributesConvert, Bool.and_eq_true] at hc
      simp only [Bool.and_eq_true]
      exact ⟨hc.1, hc.2, hc.2⟩

theorem marshalItems_settles (D : Dom) (key : String) (items : List JSValue)
    (h : ∀ x ∈ items, ∀ element, Settles x.attributesConvert (marshal D x (some element))) :
    ∀ element, Settles (JSValue.itemsAttributesConvert items)
      (marshalItems D key items (some element)) := by
  induction items with
  | nil => intro element; simp only [marshalItems]; exact settles_ok _ _
  | cons item rest ih =>
      intro element
      simp only [marshalItems, JSValue.itemsAttributesConvert]
      exact (newChild_settles D _ key _ (h item (List.mem_cons_self _ _)) element).bind
        (ih (fun x hx => h x (List.mem_cons_of_mem _ hx)))

theorem marshalIndexed_settles (D : Dom) (items : List JSValue)
    (h : ∀ x ∈ items, ∀ key element, startsWithAt key = false →
      Settles x.attributesConvert (marshalEntry D (key, x) (some element))) :
    ∀ index element, Settles (JSValue.itemsAttributesConvert items)
      (marshalIndexed D index items (some element)) := by
  induction items with
  | nil => intro index element; simp only [marshalIndexed]; exact settles_ok _ _
  | cons value rest ih =>
      intro index element
      rw [marshalIndexed_cons]
      simp only [JSValue.itemsAttributesConvert]
      exact (h value (List.mem_cons_self _ _) _ element (startsWithAt_index index)).bind
        (ih (fun x hx => h x (List.mem_cons_of_mem _ hx)) _)

/-- The outcome of the loop body on one property. -/
theorem marshalEntry_settles (D : Dom) (key : String) (value : JSValue) (element : Node)
    (hmarshal : ∀ node, Settles value.attributesConvert (marshal D value (some node)))
    (hitems : ∀ items, value = .array items → ∀ node,
      Settles value.attributesConvert (marshalItems D key items (some node))) :
    Settles (JSValue.entryAttributesConvert (key, value)) (marshalEntry D (key, value) (some element)) := by
  rw [marshalEntry_eq]
  by_cases hskip : (value.isNullish || value.isFunction) = true
  · rw [if_pos hskip]
    exact settles_ok _ _
  · rw [if_neg hskip]
    by_cases hat : startsWithAt key = true
    · simp only [JSValue.entryAttributesConvert, hat, if_true]
      exact setAttribute_settles D key value element
    · simp only [JSValue.entryAttributesConvert, hat, Bool.false_eq_true, if_false]
      split
      · next items => exact hitems items rfl element
      · exact newChild_settles D _ key _ hmarshal element

/-- Marshalling into an element returns the element or fails on a name the
DOM rejects; another exception can only come from the conversion of an
attribute value to a string. -/
theorem marshal_settles (D : Dom) (object : JSValue) :
    (∀ element, Settles object.attributesConvert (marshal D object (some element))) ∧
      ∀ key element, Settles (JSValue.entryAttributesConvert (key, object))
        (marshalEntry D (key, object) (some element)) := by
  induction object using jsValue_induction with
  | hundefined =>
      exact ⟨fun _ => settles_ok _ _, fun key element =>
        marshalEntry_settles D key _ element (fun _ => settles_ok _ _) (fun _ h => by cases h)⟩
  | hnull =>
      exact ⟨fun _ => settles_ok _ _, fun key element =>
        marshalEntry_settles D key _ element (fun _ => settles_ok _ _) (fun _ h => by cases h)⟩
  | hbool b =>
      exact ⟨fun _ => appendText_settles _ _ _, fun key element =>
        marshalEntry_settles D key _ element (fun _ => appendText_settles _ _ _)
          (fun _ h => by cases h)⟩
  | hnum n =>
      exact ⟨fun _ => appendText_settles _ _ _, fun key element =>
        marshalEntry_settles D key _ element (fun _ => appendText_settles _ _ _)
          (fun _ h => by cases h)⟩
  | hstr s =>
      exact ⟨fun _ => appendText_settles _ _ _, fun key element =>
        marshalEntry_settles D key _ element (fun _ => appendText_settles _ _ _)
          (fun _ h => by cases h)⟩
  | hfunc f =>
      exact ⟨fun _ => settles_ok _ _, fun key element =>
        marshalEntry_settles D key _ element (fun _ => settles_ok _ _) (fun _ h => by cases h)⟩
  | harray items ih =>
      have hmarshal : ∀ element, Settles (JSValue.array items).attributesConvert
          (marshal D (.array items) (some element)) := by
        intro element
        simp only [marshal, JSValue.attributesConvert]
        exact marshalIndexed_settles D items (fun x hx key element hat => by
          have := (ih x hx).2 key element
          simpa only [JSValue.entryAttributesConvert, hat, Bool.false_eq_true, if_false] using this)
          0 element
      refine ⟨hmarshal, fun key element =>
        marshalEntry_settles D key _ element hmarshal (fun items1 h node => ?_)⟩
      cases h
      simp only [JSValue.attributesConvert]
      exact marshalItems_settles D key items (fun x hx => (ih x hx).1) node
  | hobject own protos ihOwn ihProtos =>
      have hmarshal : ∀ element, Settles (JSValue.object own protos).attributesConvert
          (marshal D (.object own protos) (some element)) := by
        intro element
        simp only [marshal]
        have hown : ∀ p ∈ own, ∀ element,
            Settles (JSValue.entryAttributesConvert p) (marshalEntry D p (some element)) :=
          fun p hp => (ihOwn p hp).2 p.1
        have hprotos : ∀ layer ∈ protos, ∀ p ∈ layer, ∀ element,
            Settles (JSValue.entryAttributesConvert p) (marshalEntry D p (some element)) :=
          fun layer hl p hp => (ihProtos layer hl p hp).2 p.1
        refine Settles.mono ((marshalProps_settles D [] own hown element).bind fun element1 =>
          (marshalInherited_settles D protos hprotos _ element1).bind
            (marshalChain_settles D protos hprotos)) ?_
        intro hc
        simp only [JSValue.attributesConvert, Bool.and_eq_true] at hc
        simp only [Bool.and_eq_true]
        exact ⟨hc.1, hc.2, hc.2⟩
      exact ⟨hmarshal, fun key element =>
        marshalEntry_settles D key _ element hmarshal (fun _ h => by cases h)⟩

/-! ## C2: the guard of `XmlMarshaller.marshal` -/

/-- C2, as stated, fails: a record is neither `null`, a function nor an array,
yet `XmlMarshaller.marshal` returns no text for the record with the one field
`"a b"`: the DOM rejects the element name and the call ends with its
exception, which is not a `TypeError`. -/
theorem marshal_invalid_field_name_throws :
    ((JSValue.object [("a b", .num "1")] []).isNullish ||
        (JSValue.object [("a b", .num "1")] []).isFunction ||
        (JSValue.object [("a b", .num "1")] []).isArray) = false ∧
      XmlMarshaller.marshal referenceDom (.object [("a b", .num "1")] []) "r" = .error .domException :=
  ⟨rfl, rfl⟩

/-- C2, amended: for every non-empty root name and every value whose attribute
values convert to strings without an exception (`JSValue.attributesConvert`),
`XmlMarshaller.marshal` fails with a `TypeError` if and only if the top-level
value is `null`/`undefined`, a function or an array, and then returns no text;
for every other value it returns text, or fails with the exception of the DOM
for a name it rejects. -/
theorem marshal_typeError_iff (D : Dom) (object : JSValue) (rootName : String)
    (hroot : rootName ≠ "") (hconv : object.attributesConvert = true) :
    (XmlMarshaller.marshal D object rootName = .error .typeError ↔
      (object.isNullish || object.isFunction || object.isArray) = true) ∧
    ((object.isNullish || object.isFunction || object.isArray) = false →
      (∃ text, XmlMarshaller.marshal D object rootName = .ok text) ∨
        XmlMarshaller.marshal D object rootName = .error .domException) := by
  have key : (object.isNullish || object.isFunction || object.isArray) = false →
      (∃ text, XmlMarshaller.marshal D object rootName = .ok text) ∨
        XmlMarshaller.marshal D object rootName = .error .domException := by
    intro hguard
    by_cases hvalid : D.validRootName rootName = true
    · simp only [XmlMarshaller.marshal, hguard, Bool.false_eq_true, if_false, Dom.createDocument,
        hroot, hvalid, if_true]
      rcases (marshal_settles D object).1 (.element rootName [] []) with ⟨element, h⟩ | h | ⟨hc, _⟩
      · rw [h]; exact Or.inl ⟨_, rfl⟩
      · rw [h]; exact Or.inr rfl
      · rw [hconv] at hc; cases hc
    · simp only [XmlMarshaller.marshal, hguard, Bool.false_eq_true, if_false, Dom.createDocument,
        hroot, hvalid, or_true]
  refine ⟨⟨fun h => ?_, fun h => ?_⟩, key⟩
  · by_contra hguard
    rw [Bool.not_eq_true] at hguard
    rcases key hguard with ⟨text, h2⟩ | h2
    · rw [h2] at h; cases h
    · rw [h2] at h; cases h
  · simp only [XmlMarshaller.marshal, h, if_true]

theorem marshal_typeError_iff_witness :
    "root" ≠ "" ∧ (JSValue.array [.num "1", .num "2"]).attributesConvert = true ∧
    ((XmlMarshaller.marshal referenceDom (.array [.num "1", .num "2"]) "root" = .error .typeError ↔
      ((JSValue.array [.num "1", .num "2"]).isNullish || (JSValue.array [.num "1", .num "2"]).isFunction ||
        (JSValue.array [.num "1", .num "2"]).isArray) = true) ∧
    (((JSValue.array [.num "1", .num "2"]).isNullish || (JSValue.array [.num "1", .num "2"]).isFunction ||
        (JSValue.array [.num "1", .num "2"]).isArray) = false →
      (∃ text, XmlMarshaller.marshal referenceDom (.array [.num "1", .num "2"]) "root" = .ok text) ∨
        XmlMarshaller.marshal referenceDom (.array [.num "1", .num "2"]) "root" = .error .domException)) :=
  ⟨by decide, rfl, marshal_typeError_iff referenceDom (.array [.num "1", .num "2"]) "root" (by decide) rfl⟩

/-! ## C3: the document of a record of primitives -/

theorem setAttr_of_not_mem (name value : String) (attrs : List (String × String))
    (h : name ∉ attrs.map Prod.fst) : setAttr name value attrs = attrs ++ [(name, value)] := by
  induction attrs with
  | nil => rfl
  | cons a rest ih =>
      obtain ⟨n, v⟩ := a
      simp only [List.map_cons, List.mem_cons, not_or] at h
      simp only [setAttr, if_neg (Ne.symm h.1), ih h.2, List.cons_append]

/-- The loop body on a primitive value: an attribute is set or a child with
one text node is appended. -/
theorem marshalEntry_primitive (D : Dom) (key : String) (value : JSValue)
    (hprim : value.isPrimitive = true) (element : Node) :
    marshalEntry D (key, value) (some element) =
      if startsWithAt key then
        if D.validAttributeName (jsTrim (substring1 key)) then
          .ok (some (element.setAttributeNode (jsTrim (substring1 key)) value.toJSString))
        else .error .domException
      else
        if D.validElementName key then
          .ok (some (element.appendChild (.element key [] [.text value.toJSString])))
        else .error .domException := by
  cases value <;> simp only [JSValue.isPrimitive, Bool.false_eq_true] at hprim <;>
    simp only [marshalEntry, JSValue.isNullish, JSValue.isFunction, Bool.or_self, Bool.false_eq_true,
      if_false, setAttribute, newChild, marshal, appendText, Node.appendChild, List.nil_append,
      JSValue.conversionError]

theorem marshalProps_flat (D : Dom) (name : String) (fields : Props)
    (hprim : ∀ p ∈ fields, p.2.isPrimitive = true)
    (hattr : ∀ p ∈ fields, startsWithAt p.1 = true → D.validAttributeName (jsTrim (substring1 p.1)) = true)
    (helem : ∀ p ∈ fields, startsWithAt p.1 = false → D.validElementName p.1 = true) :
    ∀ (attrs : List (String × String)) (cs : List Node),
      (attrs.map Prod.fst ++ (flatAttributes fields).map Prod.fst).Nodup →
      marshalProps D [] fields (some (.element name attrs cs)) =
        .ok (some (.element name (attrs ++ flatAttributes fields) (cs ++ flatChildren fields))) := by
  induction fields with
  | nil =>
      intro attrs cs _
      simp [marshalProps, flatAttributes, flatChildren]
  | cons entry rest ih =>
      intro attrs cs hnodup
      obtain ⟨key, value⟩ := entry
      have ih := ih (fun p hp => hprim p (List.mem_cons_of_mem _ hp))
        (fun p hp => hattr p (List.mem_cons_of_mem _ hp))
        (fun p hp => helem p (List.mem_cons_of_mem _ hp))
      simp only [marshalProps, List.not_mem_nil, if_false]
      rw [marshalEntry_primitive D key value (hprim _ (List.mem_cons_self _ _))]
      by_cases hat : startsWithAt key = true
      · have hvalid := hattr _ (List.mem_cons_self _ _) hat
        have hflat : flatAttributes ((key, value) :: rest) =
            (jsTrim (substring1 key), value.toJSString) :: flatAttributes rest := by
          simp [flatAttributes, List.filter_cons, hat]
        have hkids : flatChildren ((key, value) :: rest) = flatChildren rest := by
          simp [flatChildren, List.filter_cons, hat]
        rw [hflat] at hnodup
        simp only [List.map_cons] at hnodup
        have hnotin : jsTrim (substring1 key) ∉ attrs.map Prod.fst := by
          intro hmem
          have := List.nodup_append.1 hnodup
          exact this.2.2 hmem (List.mem_cons_self _ _)
        simp only [hat, hvalid, if_true, Node.setAttributeNode, setAttr_of_not_mem _ _ _ hnotin]
        rw [ih, hflat, hkids]
        · simp
        · simpa [List.nodup_append, List.nodup_cons, and_assoc, not_or] using hnodup
      · rw [Bool.not_eq_true] at hat
        have hvalid := helem _ (List.mem_cons_self _ _) hat
        have hflat : flatAttributes ((key, value) :: rest) = flatAttributes rest := by
          simp [flatAttributes, List.filter_cons, hat]
        have hkids : flatChildren ((key, value) :: rest) =
            .element key [] [.text value.toJSString] :: flatChildren rest := by
          simp [flatChildren, List.filter_cons, hat]
        rw [hflat] at hnodup
        simp only [hat, hvalid, if_true, Bool.false_eq_true, if_false, Node.appendChild]
        rw [ih _ _ hnodup, hflat, hkids]
        simp

/-- C3, as stated, fails: the record with the two fields `"@a"` and `"@ a"`,
both primitives, has two `@`-prefixed fields, but its document element carries
one attribute: both names trim to `a`, and the second value replaces the first. -/
theorem marshal_trimmed_names_collide :
    XmlMarshaller.marshal referenceDom (.object [("@a", .str "1"), ("@ a", .str "2")] []) "root" =
        .ok (DOC_DECLARATION ++ "<root a=\"2\"/>") ∧
      (flatAttributes [("@a", .str "1"), ("@ a", .str "2")]).length = 2 :=
  ⟨rfl, rfl⟩

/-- C3, amended: for every record whose fields all hold primitives, if the DOM
accepts the root name and the name of every field (for an `@`-prefixed field
its name without the `@`, trimmed) and the attribute names are distinct, then
`XmlMarshaller.marshal` returns exactly the header followed by the
serialisation of one element named `rootName` that carries one attribute per
`@`-prefixed field and one child element per other field, in field order. -/
theorem marshal_flat_record (D : Dom) (fields : Props) (rootName : String)
    (hprim : ∀ p ∈ fields, p.2.isPrimitive = true)
    (hroot : rootName ≠ "" ∧ D.validRootName rootName = true)
    (hattr : ∀ p ∈ fields, startsWithAt p.1 = true → D.validAttributeName (jsTrim (substring1 p.1)) = true)
    (helem : ∀ p ∈ fields, startsWithAt p.1 = false → D.validElementName p.1 = true)
    (hdistinct : ((flatAttributes fields).map Prod.fst).Nodup) :
    XmlMarshaller.marshal D (.object fields []) rootName =
      .ok (DOC_DECLARATION ++
        serializeNode D (.element rootName (flatAttributes fields) (flatChildren fields))) := by
  have h := marshalProps_flat D rootName fields hprim hattr helem [] [] (by simpa using hdistinct)
  simp only [XmlMarshaller.marshal, JSValue.isNullish, JSValue.isFunction, JSValue.isArray,
    Bool.or_self, Bool.false_eq_true, if_false, Dom.createDocument, hroot.1, hroot.2, if_true,
    marshal, h, marshalInherited, marshalChain, serializeToString, List.nil_append]

theorem marshal_flat_record_witness :
    (∀ p ∈ [("@id", JSValue.num "5"), ("name", JSValue.str "a")], p.2.isPrimitive = true) ∧
    ("root" ≠ "" ∧ referenceDom.validRootName "root" = true) ∧
    (∀ p ∈ [("@id", JSValue.num "5"), ("name", JSValue.str "a")],
      startsWithAt p.1 = true → referenceDom.validAttributeName (jsTrim (substring1 p.1)) = true) ∧
    (∀ p ∈ [("@id", JSValue.num "5"), ("name", JSValue.str "a")],
      startsWithAt p.1 = false → referenceDom.validElementName p.1 = true) ∧
    ((flatAttributes [("@id", JSValue.num "5"), ("name", JSValue.str "a")]).map Prod.fst).Nodup ∧
    XmlMarshaller.marshal referenceDom (.object [("@id", .num "5"), ("name", .str "a")] []) "root" =
      .ok (DOC_DECLARATION ++ serializeNode referenceDom (.element "root"
        (flatAttributes [("@id", .num "5"), ("name", .str "a")])
        (flatChildren [("@id", .num "5"), ("name", .str "a")]))) ∧
    DOC_DECLARATION ++ serializeNode referenceDom (.element "root"
        (flatAttributes [("@id", .num "5"), ("name", .str "a")])
        (flatChildren [("@id", .num "5"), ("name", .str "a")])) =
      "<?xml version=\"1.0\" encoding=\"UTF-8\" standalone=\"yes\"?><root id=\"5\"><name>a</name></root>" :=
  ⟨by decide, by decide, by decide, by decide, by decide,
    marshal_flat_record referenceDom [("@id", .num "5"), ("name", .str "a")] "root"
      (by decide) (by decide) (by decide) (by decide) (by decide), by decide⟩

/-! ## C9: omitted fields -/

/-- Marshalling a plain record is the loop over its own properties. -/
theorem marshal_plain (D : Dom) (fields : Props) (element : Option Node) :
    marshal D (.object fields []) element = marshalProps D [] fields element := by
  simp only [marshal, marshalInherited, marshalChain]
  cases marshalProps D [] fields element <;> rfl

theorem marshalEntry_omitted (D : Dom) (p : String × JSValue)
    (h : (p.2.isNullish || p.2.isFunction) = true) (element : Option Node) :
    marshalEntry D p element = .ok element := by
  obtain ⟨key, value⟩ := p
  rw [marshalEntry_eq, if_pos h]

theorem marshalProps_withoutOmitted (D : Dom) (fields : Props) :
    ∀ element, marshalProps D [] (withoutOmitted fields) element = marshalProps D [] fields element := by
  induction fields with
  | nil => intro element; rfl
  | cons p rest ih =>
      intro element
      by_cases h : (p.2.isNullish || p.2.isFunction) = true
      · have hfilter : withoutOmitted (p :: rest) = withoutOmitted rest :=
          List.filter_cons_of_neg (by rw [h]; decide)
        rw [hfilter, ih]
        simp only [marshalProps, List.not_mem_nil, if_false, marshalEntry_omitted D p h]
      · have hfilter : withoutOmitted (p :: rest) = p :: withoutOmitted rest :=
          List.filter_cons_of_pos (by rw [Bool.not_eq_true] at h; rw [h]; rfl)
        rw [hfilter]
        simp only [marshalProps, List.not_mem_nil, if_false]
        cases marshalEntry D p element with
        | error e => rfl
        | ok element1 => exact ih element1

/-- C9: `marshal` omits every field of a record whose value is `null`,
`undefined` or a function. Into every element, and as a document under every
root name, the record marshals to what the same record without those fields
marshals to, so that nothing is emitted for them. Wherever the loop meets
such a field, own or inherited, its body leaves the element as it is. -/
theorem marshal_omits_nullish_fields (D : Dom) (fields : Props) :
    (∀ element, marshal D (.object (withoutOmitted fields) []) element =
      marshal D (.object fields []) element) ∧
    (∀ rootName, XmlMarshaller.marshal D (.object (withoutOmitted fields) []) rootName =
      XmlMarshaller.marshal D (.object fields []) rootName) ∧
    ∀ key element, marshalEntry D (key, .null) element = .ok element ∧
      marshalEntry D (key, .undefined) element = .ok element ∧
      ∀ source, marshalEntry D (key, .func source) element = .ok element := by
  have h : ∀ element, marshal D (.object (withoutOmitted fields) []) element =
      marshal D (.object fields []) element := by
    intro element
    rw [marshal_plain, marshal_plain, marshalProps_withoutOmitted]
  refine ⟨h, fun rootName => ?_, fun key element => ⟨?_, ?_, fun source => ?_⟩⟩
  · simp only [XmlMarshaller.marshal, JSValue.isNullish, JSValue.isFunction, JSValue.isArray, h]
  · exact marshalEntry_omitted D (key, .null) rfl element
  · exact marshalEntry_omitted D (key, .undefined) rfl element
  · exact marshalEntry_omitted D (key, .func source) rfl element

/-! ## C10: attribute names -/

theorem mem_setAttr_names (name value : String) (attrs : List (String × String)) (n : String) :
    n ∈ (setAttr name value attrs).map Prod.fst ↔ n ∈ attrs.map Prod.fst ∨ n = name := by
  induction attrs with
  | nil => simp [setAttr]
  | cons a rest ih =>
      obtain ⟨k, v⟩ := a
      simp only [setAttr]
      split
      · next hk =>
          subst hk
          simp only [List.map_cons, List.mem_cons]
          tauto
      · simp only [List.map_cons, List.mem_cons, ih]; tauto

theorem newChild_element (D : Dom) (key : String) (fill : Option Node → Except JSError (Option Node))
    (name : String) (attrs : List (String × String)) (cs : List Node) (result : Node)
    (h : newChild D key fill (some (.element name attrs cs)) = .ok (some result)) :
    ∃ cs1, result = .element name attrs cs1 := by
  simp only [newChild] at h
  split at h
  · split at h
    · cases h
    · cases h; exact ⟨_, rfl⟩
    · cases h; exact ⟨_, rfl⟩
  · cases h

theorem marshalItems_element (D : Dom) (key : String) (name : String) (attrs : List (String × String))
    (items : List JSValue) :
    ∀ (cs : List Node) (result : Node),
      marshalItems D key items (some (.element name attrs cs)) = .ok (some result) →
      ∃ cs1, result = .element name attrs cs1 := by
  induction items with
  | nil =>
      intro cs result h
      simp only [marshalItems] at h
      cases h; exact ⟨_, rfl⟩
  | cons item rest ih =>
      intro cs result h
      simp only [marshalItems] at h
      rcases newChild_settles D _ key (marshal D item) (fun node => (marshal_settles D item).1 node)
        (.element name attrs cs) with ⟨element1, h1⟩ | h1 | ⟨_, e, h1⟩
      · rw [h1] at h
        obtain ⟨cs1, rfl⟩ := newChild_element D key _ name attrs cs element1 h1
        exact ih cs1 result h
      · rw [h1] at h; cases h
      · rw [h1] at h; cases h

/-- The loop body leaves an element an element of the same name, and adds at
most one attribute name: that of an `@`-prefixed key whose value is not skipped. -/
theorem marshalEntry_attributes (D : Dom) (p : String × JSValue) (name : String)
    (attrs : List (String × String)) (cs : List Node) (result : Node)
    (h : marshalEntry D p (some (.element name attrs cs)) = .ok (some result)) :
    ∃ attrs1 cs1, result = .element name attrs1 cs1 ∧
      ∀ n, n ∈ attrs1.map Prod.fst ↔ n ∈ attrs.map Prod.fst ∨
        (startsWithAt p.1 = true ∧ (p.2.isNullish || p.2.isFunction) = false ∧
          n = jsTrim (substring1 p.1)) := by
  obtain ⟨key, value⟩ := p
  rw [marshalEntry_eq] at h
  by_cases hskip : (value.isNullish || value.isFunction) = true
  · rw [if_pos hskip] at h
    cases h
    exact ⟨attrs, cs, rfl, fun n => by simp [hskip]⟩
  · rw [if_neg hskip] at h
    rw [Bool.not_eq_true] at hskip
    by_cases hat : startsWithAt key = true
    · rw [if_pos hat] at h
      simp only [setAttribute] at h
      split at h
      · split at h
        · cases h
        · cases h
          refine ⟨_, cs, rfl, fun n => ?_⟩
          rw [mem_setAttr_names]
          simp [hat, hskip]
      · cases h
    · rw [if_neg hat] at h
      have hsame : ∃ cs1, result = .element name attrs cs1 := by
        split at h
        · exact marshalItems_element D key name attrs _ cs result h
        · exact newChild_element D key _ name attrs cs result h
      obtain ⟨cs1, rfl⟩ := hsame
      exact ⟨attrs, cs1, rfl, fun n => by simp [hat]⟩

theorem marshalProps_attributes (D : Dom) (name : String) (fields : Props) :
    ∀ (attrs : List (String × String)) (cs : List Node) (result : Node),
      marshalProps D [] fields (some (.element name attrs cs)) = .ok (some result) →
      ∃ attrs1 cs1, result = .element name attrs1 cs1 ∧
        ∀ n, n ∈ attrs1.map Prod.fst ↔ n ∈ attrs.map Prod.fst ∨
          ∃ p ∈ fields, startsWithAt p.1 = true ∧ (p.2.isNullish || p.2.isFunction) = false ∧
            n = jsTrim (substring1 p.1) := by
  induction fields with
  | nil =>
      intro attrs cs result h
      simp only [marshalProps] at h
      cases h
      exact ⟨attrs, cs, rfl, fun n => by simp⟩
  | cons p rest ih =>
      intro attrs cs result h
      simp only [marshalProps, List.not_mem_nil, if_false] at h
      rcases (marshal_settles D p.2).2 p.1 (.element name attrs cs) with
        ⟨element1, h1⟩ | h1 | ⟨_, e, h1⟩
      · rw [h1] at h
        obtain ⟨attrs1, cs1, rfl, hnames1⟩ := marshalEntry_attributes D p name attrs cs element1 h1
        obtain ⟨attrs2, cs2, rfl, hnames2⟩ := ih attrs1 cs1 result h
        refine ⟨attrs2, cs2, rfl, fun n => ?_⟩
        rw [hnames2, hnames1]
        simp only [List.mem_cons, exists_eq_or_imp]
        tauto
      · rw [h1] at h; cases h
      · rw [h1] at h; cases h

/-- C10: the attribute names `marshal` emits for a record are the names of its
`@`-prefixed fields with the leading `@` removed and the surrounding white
space trimmed. When `marshal` has filled an element from a record, the
element carries, next to the attributes it had, exactly the attributes named
so after the `@`-prefixed fields whose value is not skipped. -/
theorem marshal_attribute_names (D : Dom) (fields : Props) (name : String)
    (attrs : List (String × String)) (cs : List Node) (result : Node)
    (h : marshal D (.object fields []) (some (.element name attrs cs)) = .ok (some result)) :
    ∀ n, n ∈ result.attributes.map Prod.fst ↔ n ∈ attrs.map Prod.fst ∨
      ∃ p ∈ fields, startsWithAt p.1 = true ∧ (p.2.isNullish || p.2.isFunction) = false ∧
        n = jsTrim (substring1 p.1) := by
  rw [marshal_plain] at h
  obtain ⟨attrs1, cs1, rfl, hnames⟩ := marshalProps_attributes D name fields attrs cs result h
  exact hnames

theorem marshal_attribute_names_witness :
    marshal referenceDom (.object [("@ foo ", .str "x")] []) (some (.element "r" [] [])) =
        .ok (some (.element "r" [("foo", "x")] [])) ∧
    ∀ n, n ∈ (Node.element "r" [("foo", "x")] []).attributes.map Prod.fst ↔
      n ∈ ([] : List (String × String)).map Prod.fst ∨
      ∃ p ∈ [("@ foo ", JSValue.str "x")], startsWithAt p.1 = true ∧
        (p.2.isNullish || p.2.isFunction) = false ∧ n = jsTrim (substring1 p.1) :=
  ⟨rfl, marshal_attribute_names referenceDom [("@ foo ", .str "x")] "r" [] [] _ rfl⟩

/-! ## Outcomes of `unmarshal` -/

mutual
/-- Induction over DOM trees: a property holds of every node if it holds of
the text nodes and of an element whose child nodes have it. -/
theorem node_induction {P : Node → Prop} (htext : ∀ data, P (.text data))
    (helement : ∀ name attrs cs, (∀ c ∈ cs, P c) → P (.element name attrs cs)) :
    ∀ node : Node, P node
  | .text data => htext data
  | .element name attrs cs => helement name attrs cs (node_inductionList htext helement cs)
theorem node_inductionList {P : Node → Prop} (htext : ∀ data, P (.text data))
    (helement : ∀ name attrs cs, (∀ c ∈ cs, P c) → P (.element name attrs cs)) :
    ∀ cs : List Node, ∀ c ∈ cs, P c
  | [], _, h => absurd h (List.not_mem_nil _)
  | d :: ds, c, h =>
      (List.mem_cons.1 h).elim (fun e => e ▸ node_induction htext helement d)
        (fun m => node_inductionList htext helement ds c m)
end

theorem foldChild_ok (key : String) (value : JSValue) (object : Props) (hkey : key ≠ "__proto__") :
    ∃ object1, foldChild key value object = .ok object1 := by
  unfold foldChild
  split
  · exact ⟨_, rfl⟩
  · exact ⟨_, rfl⟩
  · rw [if_neg hkey]
    split <;> exact ⟨_, rfl⟩

theorem unmarshalChildren_ok (cs : List Node)
    (ih : ∀ c ∈ cs, ∀ name attrs cs1, c = .element name attrs cs1 → c.decodable = true →
      ∃ value, unmarshal c = .ok value ∧ value.isDecoded = true)
    (hcs : Node.decodableList cs = true) :
    ∀ object, ∃ object1, unmarshalChildren cs object = .ok object1 := by
  induction cs with
  | nil => intro object; exact ⟨object, by simp only [unmarshalChildren]⟩
  | cons c rest ihrest =>
      intro object
      cases c with
      | text data =>
          simp only [Node.decodableList] at hcs
          simp only [unmarshalChildren]
          exact ihrest (fun c hc => ih c (List.mem_cons_of_mem _ hc)) hcs object
      | element key a cs1 =>
          simp only [Node.decodableList, Bool.and_eq_true, bne_iff_ne, ne_eq] at hcs
          obtain ⟨value, hvalue, _⟩ := ih _ (List.mem_cons_self _ _) key a cs1 rfl hcs.1.2
          obtain ⟨object1, hfold⟩ := foldChild_ok key value object hcs.1.1
          simp only [unmarshalChildren, hvalue, hfold]
          exact ihrest (fun c hc => ih c (List.mem_cons_of_mem _ hc)) hcs.2 object1

/-- On an element without a descendant named `__proto__`, `unmarshal` returns
a value: a string or an object. -/
theorem unmarshal_ok (node : Node) :
    ∀ name attrs cs, node = .element name attrs cs → node.decodable = true →
      ∃ value, unmarshal node = .ok value ∧ value.isDecoded = true := by
  induction node using node_induction with
  | htext data => intro name attrs cs h; cases h
  | helement name attrs cs ih =>
      intro _ _ _ _ hdec
      simp only [Node.decodable] at hdec
      simp only [unmarshal]
      split
      · exact ⟨_, rfl, rfl⟩
      · obtain ⟨object1, h1⟩ := unmarshalChildren_ok cs ih hdec (unmarshalAttributes attrs [])
        rw [h1]
        exact ⟨_, rfl, rfl⟩

theorem getProp_setProp_self (key : String) (value : JSValue) (object : Props) :
    getProp key (setProp key value object) = some value := by
  induction object with
  | nil => simp [setProp, getProp]
  | cons p rest ih =>
      obtain ⟨k, v⟩ := p
      simp only [setProp]
      split
      · simp [getProp]
      · next hk => simp [getProp, hk, ih]

theorem getProp_setProp_of_ne (key other : String) (value : JSValue) (object : Props)
    (h : other ≠ key) : getProp other (setProp key value object) = getProp other object := by
  induction object with
  | nil => simp [setProp, getProp, Ne.symm h]
  | cons p rest ih =>
      obtain ⟨k, v⟩ := p
      simp only [setProp]
      split
      · next hk => subst hk; simp [getProp, Ne.symm h]
      · simp only [getProp, ih]

/-! ## C5: a document element without attributes and children -/

/-- C5: for every document whose root element has no attribute and no child
element, `XmlMarshaller.unmarshal` returns the record with the single field
`type`, holding the root tag name, whatever text the root element contains. -/
theorem unmarshal_bare_root (D : Dom) (xml : String)
    (hattrs : (D.parseFromString xml).attributes = [])
    (hchildren : (D.parseFromString xml).children = []) :
    XmlMarshaller.unmarshal D xml =
      .ok (.object [("type", .str (D.parseFromString xml).nodeName)] []) := by
  simp [XmlMarshaller.unmarshal, hattrs, hchildren, assignType, setProp]

theorem unmarshal_bare_root_witness :
    (referenceDom.parseFromString "<root>some text</root>").attributes = [] ∧
    (referenceDom.parseFromString "<root>some text</root>").children = [] ∧
    XmlMarshaller.unmarshal referenceDom "<root>some text</root>" =
      .ok (.object [("type", .str (referenceDom.parseFromString "<root>some text</root>").nodeName)] []) ∧
    (referenceDom.parseFromString "<root>some text</root>").nodeName = "root" ∧
    XmlMarshaller.unmarshal referenceDom "<root/>" = .ok (.object [("type", .str "root")] []) :=
  ⟨rfl, rfl, unmarshal_bare_root referenceDom "<root>some text</root>" rfl rfl, rfl,
    unmarshal_bare_root referenceDom "<root/>" rfl rfl⟩

/-! ## C6: text that is not well-formed -/

/-- C6, as stated, fails: the text `<root><a></a>` is not well-formed (the
parser of the reference DOM finds no document in it), yet
`XmlMarshaller.unmarshal` does not fail: it returns the record decoded from
the error document of the parser. -/
theorem unmarshal_malformed_returns :
    parseXml "<root><a></a>" = none ∧
      XmlMarshaller.unmarshal referenceDom "<root><a></a>" =
        .ok (.object [("type", .str "parsererror")] []) :=
  ⟨rfl, rfl⟩

/-- The method `unmarshal` on a document element: a record with the field
`type`. -/
theorem unmarshal_returns_record (D : Dom) (xml : String)
    (hdec : (D.parseFromString xml).decodable = true) :
    ∃ own, XmlMarshaller.unmarshal D xml = .ok (.object own []) ∧
      getProp "type" own = some (.str (D.parseFromString xml).nodeName) := by
  by_cases hbare : (D.parseFromString xml).attributes.length = 0 ∧
      (D.parseFromString xml).children.length = 0
  · simp only [XmlMarshaller.unmarshal, if_pos hbare, assignType]
    exact ⟨_, rfl, getProp_setProp_self _ _ _⟩
  · simp only [XmlMarshaller.unmarshal, if_neg hbare]
    cases hroot : D.parseFromString xml with
    | text data =>
        simp [hroot, Node.attributes, Node.children, Node.childNodes, elementsOf] at hbare
    | element name attrs cs =>
        rw [hroot] at hdec hbare
        simp only [Node.decodable] at hdec
        simp only [Node.attributes, Node.children, Node.childNodes] at hbare
        simp only [unmarshal, if_neg hbare]
        obtain ⟨object1, h1⟩ := unmarshalChildren_ok cs
          (fun c _ n a k hc hcdec => unmarshal_ok c n a k hc hcdec) hdec (unmarshalAttributes attrs [])
        rw [h1]
        exact ⟨_, rfl, getProp_setProp_self _ _ _⟩

/-- C6, amended: `XmlMarshaller.unmarshal` has no parse error. `DOMParser`
hands it a document for every text, an error document when the text is not
well-formed, and for every text, well-formed or not, `unmarshal` returns a
record, decoded from that document (as far as the embedding covers the
document: no element below its root is named `__proto__`). -/
theorem unmarshal_never_fails_to_parse (D : Dom) (xml : String)
    (hdec : (D.parseFromString xml).decodable = true) :
    ∃ own, XmlMarshaller.unmarshal D xml = .ok (.object own []) := by
  obtain ⟨own, h, _⟩ := unmarshal_returns_record D xml hdec
  exact ⟨own, h⟩

theorem unmarshal_never_fails_to_parse_witness :
    (referenceDom.parseFromString "<root><a></a>").decodable = true ∧
      ∃ own, XmlMarshaller.unmarshal referenceDom "<root><a></a>" = .ok (.object own []) :=
  ⟨rfl, unmarshal_never_fails_to_parse referenceDom "<root><a></a>" rfl⟩

/-! ## C8: the field `type` -/

/-- C8: the field `type` of the record `XmlMarshaller.unmarshal` returns holds
the tag name of the document's root element, for every document (that the
embedding covers: no element below the root is named `__proto__`), also when
the root has a child element named `type`. -/
theorem unmarshal_type_is_root_name (D : Dom) (xml : String)
    (hdec : (D.parseFromString xml).decodable = true) :
    ∃ own, XmlMarshaller.unmarshal D xml = .ok (.object own []) ∧
      getProp "type" own = some (.str (D.parseFromString xml).nodeName) :=
  unmarshal_returns_record D xml hdec

theorem unmarshal_type_is_root_name_witness :
    (referenceDom.parseFromString "<root><type>x</type><b>y</b></root>").decodable = true ∧
    (referenceDom.parseFromString "<root><type>x</type><b>y</b></root>").nodeName = "root" ∧
    ∃ own, XmlMarshaller.unmarshal referenceDom "<root><type>x</type><b>y</b></root>" =
        .ok (.object own []) ∧
      getProp "type" own =
        some (.str (referenceDom.parseFromString "<root><type>x</type><b>y</b></root>").nodeName) :=
  ⟨rfl, rfl, unmarshal_type_is_root_name referenceDom "<root><type>x</type><b>y</b></root>" rfl⟩

/-! ## C4: the fields of a decoded document -/

theorem getProp_foldChild_self (key : String) (value : JSValue) (object object1 : Props)
    (hkey : key ∉ objectPrototypeNames) (h : foldChild key value object = .ok object1) :
    getProp key object1 = some (foldStep (getProp key object) value) := by
  unfold foldChild at h
  split at h
  · next items hget => cases h; rw [hget, getProp_setProp_self]; rfl
  · next existing hnot hget =>
      cases h
      rw [hget, getProp_setProp_self]
      cases existing <;> first | rfl | exact absurd rfl (hnot _)
  · next hget =>
      by_cases hproto : key = "__proto__"
      · rw [if_pos hproto] at h; cases h
      · rw [if_neg hproto, if_neg hkey] at h
        cases h
        rw [hget, getProp_setProp_self]; rfl

theorem getProp_foldChild_of_ne (key other : String) (value : JSValue) (object object1 : Props)
    (hne : other ≠ key) (h : foldChild key value object = .ok object1) :
    getProp other object1 = getProp other object := by
  unfold foldChild at h
  split at h
  · cases h; exact getProp_setProp_of_ne _ _ _ _ hne
  · cases h; exact getProp_setProp_of_ne _ _ _ _ hne
  · by_cases hproto : key = "__proto__"
    · rw [if_pos hproto] at h; cases h
    · rw [if_neg hproto] at h
      split at h <;> cases h <;> exact getProp_setProp_of_ne _ _ _ _ hne

/-- The loop over the children, seen from one field: the field takes, step by
step, the decoded values of the children named after it. -/
theorem getProp_unmarshalChildren (key : String) (hkey : key ∉ objectPrototypeNames) (cs : List Node) :
    ∀ object object1, unmarshalChildren cs object = .ok object1 →
      ∃ values, List.Forall₂ (fun c v => unmarshal c = .ok v)
          ((elementsOf cs).filter fun c => c.nodeName = key) values ∧
        getProp key object1 = values.foldl (fun cur v => some (foldStep cur v)) (getProp key object) := by
  induction cs with
  | nil =>
      intro object object1 h
      simp only [unmarshalChildren] at h
      cases h
      exact ⟨[], by simp [elementsOf], rfl⟩
  | cons c rest ih =>
      intro object object1 h
      cases c with
      | text data =>
          simp only [unmarshalChildren] at h
          simpa only [elementsOf] using ih object object1 h
      | element name attrs cs1 =>
          simp only [unmarshalChildren] at h
          cases hvalue : unmarshal (.element name attrs cs1) with
          | error e => simp only [hvalue] at h; cases h
          | ok value =>
              simp only [hvalue] at h
              cases hfold : foldChild name value object with
              | error e => simp only [hfold] at h; cases h
              | ok object2 =>
                  simp only [hfold] at h
                  obtain ⟨values, hvalues, hget⟩ := ih object2 object1 h
                  by_cases hname : name = key
                  · subst hname
                    refine ⟨value :: values, ?_, ?_⟩
                    · simp only [elementsOf, List.filter_cons, Node.nodeName, decide_True, if_true]
                      exact List.Forall₂.cons hvalue hvalues
                    · rw [hget, getProp_foldChild_self name value object object2 hkey hfold]
                      rfl
                  · refine ⟨values, ?_, ?_⟩
                    · simpa only [elementsOf, List.filter_cons, Node.nodeName, hname, decide_False,
                        Bool.false_eq_true, if_false] using hvalues
                    · rw [hget, getProp_foldChild_of_ne name key value object object2
                        (fun h => hname h.symm) hfold]

/-- Folding decoded values, none of which is an array, into a fresh field
gives the value of the specification. -/
theorem foldl_foldStep (values : List JSValue) (hvalues : ∀ v ∈ values, v.isArray = false)
    (hne : values ≠ []) :
    values.foldl (fun cur v => some (foldStep cur v)) none = some (foldedValue values) := by
  have hpush : ∀ (rest items : List JSValue),
      rest.foldl (fun cur v => some (foldStep cur v)) (some (.array items)) =
        some (.array (items ++ rest)) := by
    intro rest
    induction rest with
    | nil => intro items; simp
    | cons r rest ih =>
        intro items
        have hstep : foldStep (some (.array items)) r = .array (items ++ [r]) := rfl
        rw [List.foldl_cons, hstep, ih, List.append_assoc, List.singleton_append]
  match values, hvalues, hne with
  | [v], _, _ => rfl
  | v :: w :: rest, hvalues, _ =>
      have hv : v.isArray = false := hvalues v (List.mem_cons_self _ _)
      have hstep : foldStep (some v) w = .array [v, w] := by
        cases v <;> first | rfl | simp [JSValue.isArray] at hv
      have hfirst : foldStep none v = v := rfl
      simp only [List.foldl_cons, hfirst, hstep, hpush]
      rfl

theorem at_append_data (s : String) : ("@" ++ s).data = '@' :: s.data := by
  simp [String.data_append]

theorem startsWithAt_at_append (s : String) : startsWithAt ("@" ++ s) = true := by
  simp [startsWithAt, at_append_data]

theorem at_append_injective {s t : String} (h : "@" ++ s = "@" ++ t) : s = t := by
  have hdata := congrArg String.data h
  rw [at_append_data, at_append_data] at hdata
  exact String.ext (List.cons.inj hdata).2

theorem getProp_unmarshalAttributes_of_ne (key : String) (attrs : List (String × String))
    (h : ∀ a ∈ attrs, key ≠ "@" ++ jsTrim a.1) :
    ∀ object, getProp key (unmarshalAttributes attrs object) = getProp key object := by
  induction attrs with
  | nil => intro object; rfl
  | cons a rest ih =>
      intro object
      obtain ⟨name, value⟩ := a
      simp only [unmarshalAttributes]
      rw [ih (fun b hb => h b (List.mem_cons_of_mem _ hb)),
        getProp_setProp_of_ne _ _ _ _ (h (name, value) (List.mem_cons_self _ _))]

theorem getProp_unmarshalAttributes (attrs : List (String × String))
    (hdistinct : (attrs.map fun a => jsTrim a.1).Nodup) :
    ∀ object, ∀ a ∈ attrs,
      getProp ("@" ++ jsTrim a.1) (unmarshalAttributes attrs object) = some (.str a.2) := by
  induction attrs with
  | nil => intro object a ha; cases ha
  | cons b rest ih =>
      intro object a ha
      obtain ⟨name, value⟩ := b
      simp only [List.map_cons, List.nodup_cons] at hdistinct
      simp only [unmarshalAttributes]
      rcases List.mem_cons.1 ha with rfl | hmem
      · rw [getProp_unmarshalAttributes_of_ne, getProp_setProp_self]
        intro c hc heq
        exact hdistinct.1 (List.mem_map.2 ⟨c, hc, (at_append_injective heq).symm⟩)
      · exact ih hdistinct.2 _ a hmem

theorem getProp_unmarshalChildren_of_ne (key : String) (cs : List Node)
    (h : ∀ c ∈ elementsOf cs, c.nodeName ≠ key) :
    ∀ object object1, unmarshalChildren cs object = .ok object1 →
      getProp key object1 = getProp key object := by
  induction cs with
  | nil => intro object object1 hrun; simp only [unmarshalChildren] at hrun; cases hrun; rfl
  | cons c rest ih =>
      intro object object1 hrun
      cases c with
      | text data =>
          simp only [unmarshalChildren] at hrun
          exact ih (by simpa only [elementsOf] using h) object object1 hrun
      | element name attrs cs1 =>
          simp only [unmarshalChildren] at hrun
          simp only [elementsOf, List.mem_cons, forall_eq_or_imp, Node.nodeName] at h
          cases hvalue : unmarshal (.element name attrs cs1) with
          | error e => simp only [hvalue] at hrun; cases hrun
          | ok value =>
              simp only [hvalue] at hrun
              cases hfold : foldChild name value object with
              | error e => simp only [hfold] at hrun; cases hrun
              | ok object2 =>
                  simp only [hfold] at hrun
                  rw [ih h.2 object2 object1 hrun,
                    getProp_foldChild_of_ne name key value object object2 (Ne.symm h.1) hfold]

theorem unmarshal_isDecoded (node : Node) (value : JSValue) (h : unmarshal node = .ok value) :
    value.isDecoded = true := by
  cases node with
  | text data => simp only [unmarshal] at h; cases h
  | element name attrs cs =>
      simp only [unmarshal] at h
      split at h
      · cases h; rfl
      · split at h
        · cases h
        · cases h; rfl

theorem isArray_of_isDecoded (value : JSValue) (h : value.isDecoded = true) : value.isArray = false := by
  cases value <;> first | rfl | simp [JSValue.isDecoded] at h

theorem mem_elementsOf_nodeName {cs : List Node} {key : String}
    (h : key ∈ (elementsOf cs).map Node.nodeName) :
    (elementsOf cs).filter (fun c => c.nodeName = key) ≠ [] := by
  obtain ⟨c, hc, hname⟩ := List.mem_map.1 h
  intro hnil
  have : c ∈ (elementsOf cs).filter (fun c => c.nodeName = key) :=
    List.mem_filter.2 ⟨hc, by simpa using hname⟩
  rw [hnil] at this
  cases this

theorem forall₂_exists_left {α β : Type} {R : α → β → Prop} {xs : List α} {ys : List β}
    (h : List.Forall₂ R xs ys) : ∀ y ∈ ys, ∃ x ∈ xs, R x y := by
  induction h with
  | nil => intro y hy; cases hy
  | cons hr _ ih =>
      intro y hy
      rcases List.mem_cons.1 hy with rfl | hmem
      · exact ⟨_, List.mem_cons_self _ _, hr⟩
      · obtain ⟨x, hx, hxy⟩ := ih y hmem
        exact ⟨x, List.mem_cons_of_mem _ hx, hxy⟩

/-- C4, as stated, fails: the root of `<root><type>x</type></root>` has one
child, of tag name `type`, and the decoded record does not hold the value `x`
of that child under `type`: the field holds the root tag name. -/
theorem unmarshal_type_child_overwritten :
    XmlMarshaller.unmarshal referenceDom "<root><type>x</type></root>" =
      .ok (.object [("type", .str "root")] []) :=
  rfl

/-- C4, amended: for every document whose root has at least one attribute or
child element (attribute names distinct, no element below the root named
`__proto__`, the tag names of the children of the root not among the names
inherited from `Object.prototype`), `XmlMarshaller.unmarshal` returns a record
that holds the field `"@" + name` with the value of every root attribute, for
every tag name other than `type` among the children of the root the decoded
value of the one child of that name, or the list, in document order, of the
decoded values of the several children of that name, the field `type` with
the root tag name, and no other field. -/
theorem unmarshal_document_fields (D : Dom) (xml : String)
    (hnonbare : (D.parseFromString xml).attributes ≠ [] ∨ (D.parseFromString xml).children ≠ [])
    (hdec : (D.parseFromString xml).decodable = true)
    (hattrs : ((D.parseFromString xml).attributes.map fun a => jsTrim a.1).Nodup)
    (hnames : ∀ c ∈ (D.parseFromString xml).children,
      c.nodeName ∉ objectPrototypeNames ∧ startsWithAt c.nodeName = false) :
    ∃ own, XmlMarshaller.unmarshal D xml = .ok (.object own []) ∧
      (∀ a ∈ (D.parseFromString xml).attributes,
        getProp ("@" ++ jsTrim a.1) own = some (.str a.2)) ∧
      (∀ key, key ≠ "type" → key ∈ (D.parseFromString xml).children.map Node.nodeName →
        ∃ values, List.Forall₂ (fun c v => unmarshal c = .ok v)
            ((D.parseFromString xml).children.filter fun c => c.nodeName = key) values ∧
          getProp key own = some (foldedValue values)) ∧
      getProp "type" own = some (.str (D.parseFromString xml).nodeName) ∧
      (∀ key, (getProp key own).isSome = true → key = "type" ∨
        (∃ a ∈ (D.parseFromString xml).attributes, key = "@" ++ jsTrim a.1) ∨
        key ∈ (D.parseFromString xml).children.map Node.nodeName) := by
  cases hroot : D.parseFromString xml with
  | text data => simp [hroot, Node.attributes, Node.children, Node.childNodes, elementsOf] at hnonbare
  | element name attrs cs =>
      rw [hroot] at hnonbare hdec hattrs hnames
      simp only [Node.attributes, Node.children, Node.childNodes, Node.decodable] at *
      have hbare : ¬(attrs.length = 0 ∧ (elementsOf cs).length = 0) := by
        simp only [List.length_eq_zero]
        tauto
      obtain ⟨object1, hrun⟩ := unmarshalChildren_ok cs
        (fun c _ n a k hc hcdec => unmarshal_ok c n a k hc hcdec) hdec (unmarshalAttributes attrs [])
      have hattrkey : ∀ key, startsWithAt key = false → ∀ a ∈ attrs, key ≠ "@" ++ jsTrim a.1 := by
        intro key hkey a _ heq
        rw [heq, startsWithAt_at_append] at hkey
        cases hkey
      refine ⟨setProp "type" (.str name) object1, ?_, ?_, ?_, ?_, ?_⟩
      · simp only [XmlMarshaller.unmarshal, hroot, Node.attributes, Node.children, Node.childNodes,
          if_neg hbare, unmarshal, hrun, assignType, Node.nodeName]
      · intro a ha
        have hne : "@" ++ jsTrim a.1 ≠ "type" := by
          intro heq
          have := startsWithAt_at_append (jsTrim a.1)
          rw [heq] at this
          cases this
        rw [getProp_setProp_of_ne _ _ _ _ hne,
          getProp_unmarshalChildren_of_ne _ cs _ _ _ hrun, getProp_unmarshalAttributes attrs hattrs _ a ha]
        intro c hc heq
        have := (hnames c hc).2
        rw [heq, startsWithAt_at_append] at this
        cases this
      · intro key hkey hmem
        obtain ⟨c, hc, hcname⟩ := List.mem_map.1 hmem
        have hck := hnames c hc
        rw [hcname] at hck
        obtain ⟨values, hvalues, hget⟩ := getProp_unmarshalChildren key hck.1 cs _ _ hrun
        refine ⟨values, hvalues, ?_⟩
        rw [getProp_setProp_of_ne _ _ _ _ hkey, hget,
          getProp_unmarshalAttributes_of_ne key attrs (hattrkey key hck.2)]
        have hvne : values ≠ [] := by
          intro hnil
          rw [hnil] at hvalues
          exact mem_elementsOf_nodeName hmem (List.forall₂_nil_right_iff.1 hvalues)
        refine foldl_foldStep values (fun v hv => ?_) hvne
        obtain ⟨c1, _, hc1⟩ := forall₂_exists_left hvalues v hv
        exact isArray_of_isDecoded v (unmarshal_isDecoded _ v hc1)
      · exact getProp_setProp_self _ _ _
      · intro key hsome
        by_contra hcon
        simp only [not_or, not_exists, not_and] at hcon
        rw [getProp_setProp_of_ne _ _ _ _ hcon.1,
          getProp_unmarshalChildren_of_ne key cs
            (fun c hc heq => hcon.2.2 (List.mem_map.2 ⟨c, hc, heq⟩)) _ _ hrun,
          getProp_unmarshalAttributes_of_ne key attrs (fun a ha => hcon.2.1 a ha)] at hsome
        simp [getProp] at hsome

theorem unmarshal_document_fields_witness :
    ((referenceDom.parseFromString "<root a=\"1\"><b>x</b><b>y</b></root>").attributes ≠ [] ∨
      (referenceDom.parseFromString "<root a=\"1\"><b>x</b><b>y</b></root>").children ≠ []) ∧
    (referenceDom.parseFromString "<root a=\"1\"><b>x</b><b>y</b></root>").decodable = true ∧
    ((referenceDom.parseFromString "<root a=\"1\"><b>x</b><b>y</b></root>").attributes.map
      fun a => jsTrim a.1).Nodup ∧
    (∀ c ∈ (referenceDom.parseFromString "<root a=\"1\"><b>x</b><b>y</b></root>").children,
      c.nodeName ∉ objectPrototypeNames ∧ startsWithAt c.nodeName = false) ∧
    (∃ own, XmlMarshaller.unmarshal referenceDom "<root a=\"1\"><b>x</b><b>y</b></root>" =
        .ok (.object own []) ∧
      (∀ a ∈ (referenceDom.parseFromString "<root a=\"1\"><b>x</b><b>y</b></root>").attributes,
        getProp ("@" ++ jsTrim a.1) own = some (.str a.2)) ∧
      (∀ key, key ≠ "type" →
        key ∈ (referenceDom.parseFromString "<root a=\"1\"><b>x</b><b>y</b></root>").children.map
          Node.nodeName →
        ∃ values, List.Forall₂ (fun c v => unmarshal c = .ok v)
            ((referenceDom.parseFromString "<root a=\"1\"><b>x</b><b>y</b></root>").children.filter
              fun c => c.nodeName = key) values ∧
          getProp key own = some (foldedValue values)) ∧
      getProp "type" own =
        some (.str (referenceDom.parseFromString "<root a=\"1\"><b>x</b><b>y</b></root>").nodeName) ∧
      (∀ key, (getProp key own).isSome = true → key = "type" ∨
        (∃ a ∈ (referenceDom.parseFromString "<root a=\"1\"><b>x</b><b>y</b></root>").attributes,
          key = "@" ++ jsTrim a.1) ∨
        key ∈ (referenceDom.parseFromString "<root a=\"1\"><b>x</b><b>y</b></root>").children.map
          Node.nodeName)) ∧
    XmlMarshaller.unmarshal referenceDom "<root a=\"1\"><b>x</b><b>y</b></root>" =
      .ok (.object [("@a", .str "1"), ("b", .array [.str "x", .str "y"]), ("type", .str "root")] []) :=
  ⟨Or.inl (by decide), rfl, by decide, by decide,
    unmarshal_document_fields referenceDom "<root a=\"1\"><b>x</b><b>y</b></root>"
      (Or.inl (by decide)) rfl (by decide) (by decide), rfl⟩

/-! ## Normalised trees

An XML parser returns a normalised tree: no empty text node, no two
adjacent text nodes. `Node.normalize` is the method `normalize()` of the DOM;
`unmarshal` does not tell a tree from its normalised form. -/

theorem elementsOf_mergeText (data : String) (nodes : List Node) :
    elementsOf (mergeText data nodes) = elementsOf nodes := by
  unfold mergeText
  split
  · simp only [elementsOf]
  · split
    · rfl
    · simp only [elementsOf]

theorem textContentList_mergeText (data : String) (nodes : List Node) :
    Node.textContentList (mergeText data nodes) = data ++ Node.textContentList nodes := by
  unfold mergeText
  split
  · simp only [Node.textContentList, Node.textContent, String.append_assoc]
  · split
    · next h => simp [h]
    · simp only [Node.textContentList, Node.textContent]

theorem unmarshalChildren_mergeText (data : String) (nodes : List Node) (object : Props) :
    unmarshalChildren (mergeText data nodes) object = unmarshalChildren nodes object := by
  unfold mergeText
  split
  · simp only [unmarshalChildren]
  · split
    · rfl
    · simp only [unmarshalChildren]

theorem textContentList_normalizeList (cs : List Node)
    (ih : ∀ c ∈ cs, c.normalize.textContent = c.textContent) :
    Node.textContentList (Node.normalizeList cs) = Node.textContentList cs := by
  induction cs with
  | nil => simp only [Node.normalizeList]
  | cons c rest ihrest =>
      have hrest := ihrest (fun c hc => ih c (List.mem_cons_of_mem _ hc))
      cases c with
      | text data =>
          simp only [Node.normalizeList, textContentList_mergeText, hrest, Node.textContentList,
            Node.textContent]
      | element name attrs cs1 =>
          have hc := ih _ (List.mem_cons_self _ _)
          simp only [Node.normalize] at hc
          simp only [Node.normalizeList, Node.normalize, Node.textContentList, hrest, hc]

theorem textContent_normalize (node : Node) : node.normalize.textContent = node.textContent := by
  induction node using node_induction with
  | htext data => rfl
  | helement name attrs cs ih =>
      simp only [Node.normalize, Node.textContent]
      exact textContentList_normalizeList cs ih

theorem length_elementsOf_normalizeList (cs : List Node) :
    (elementsOf (Node.normalizeList cs)).length = (elementsOf cs).length := by
  induction cs with
  | nil => simp only [Node.normalizeList]
  | cons c rest ih =>
      cases c with
      | text data => simp only [Node.normalizeList, elementsOf_mergeText, elementsOf, ih]
      | element name attrs cs1 =>
          simp only [Node.normalizeList, Node.normalize, elementsOf, List.length_cons, ih]

theorem unmarshalChildren_normalizeList (cs : List Node)
    (ih : ∀ c ∈ cs, unmarshal c.normalize = unmarshal c) :
    ∀ object, unmarshalChildren (Node.normalizeList cs) object = unmarshalChildren cs object := by
  induction cs with
  | nil => intro object; simp only [Node.normalizeList]
  | cons c rest ihrest =>
      intro object
      have hrest := ihrest (fun c hc => ih c (List.mem_cons_of_mem _ hc))
      cases c with
      | text data =>
          simp only [Node.normalizeList, unmarshalChildren_mergeText, hrest, unmarshalChildren]
      | element name attrs cs1 =>
          have hc := ih _ (List.mem_cons_self _ _)
          simp only [Node.normalize] at hc
          simp only [Node.normalizeList, Node.normalize, unmarshalChildren, hc, hrest]

/-- The function `unmarshal` decodes a tree and its normalised form to the
same value. -/
theorem unmarshal_normalize (node : Node) : unmarshal node.normalize = unmarshal node := by
  induction node using node_induction with
  | htext data => rfl
  | helement name attrs cs ih =>
      have htext := textContent_normalize (.element name attrs cs)
      simp only [Node.normalize] at htext
      simp only [Node.normalize, unmarshal, length_elementsOf_normalizeList, htext,
        unmarshalChildren_normalizeList cs ih]

/-! ## C1 and C7: the round trip -/

theorem itemsRoundTrip_mem (D : Dom) (items : List JSValue) (h : itemsRoundTrip D items = true) :
    ∀ x ∈ items, x.roundTrips D = true := by
  induction items with
  | nil => intro x hx; cases hx
  | cons item rest ih =>
      simp only [itemsRoundTrip, Bool.and_eq_true] at h
      intro x hx
      rcases List.mem_cons.1 hx with rfl | hmem
      · exact h.1
      · exact ih h.2 x hmem

theorem fieldsRoundTrip_cons (D : Dom) (key : String) (value : JSValue) (rest : Props)
    (h : fieldsRoundTrip D ((key, value) :: rest) = true) :
    FieldOk D (key, value) ∧ key ∉ keysOf rest ∧ fieldsRoundTrip D rest = true := by
  unfold FieldOk
  by_cases hat : startsWithAt key = true
  · cases value <;>
      simp only [fieldsRoundTrip, hat, if_true, Bool.and_eq_true, Bool.false_and, Bool.false_eq_true,
        false_and, beq_iff_eq, Bool.not_eq_true', List.contains_eq_any_beq, List.any_eq_false,
        Bool.true_and] at h
    next s =>
      refine ⟨by simp only [hat, if_true]; exact ⟨⟨s, rfl⟩, h.1.1.1, h.1.1.2⟩, ?_, h.2⟩
      intro hmem
      exact absurd rfl (h.1.2 key hmem)
  · have hat1 : startsWithAt key = false := by simpa using hat
    have hkeys : ∀ (b : Bool), (b && !((keysOf rest).contains key) && fieldsRoundTrip D rest) = true →
        key ∉ keysOf rest ∧ fieldsRoundTrip D rest = true := by
      intro b hb
      simp only [Bool.and_eq_true, Bool.not_eq_true', List.contains_eq_any_beq, List.any_eq_false,
        beq_iff_eq] at hb
      exact ⟨fun hmem => absurd rfl (hb.1.2 key hmem), hb.2⟩
    have hfield : ∀ (c : Bool), (D.validElementName key && !(objectPrototypeNames.contains key) && c) = true →
        D.validElementName key = true ∧ key ∉ objectPrototypeNames ∧ c = true := by
      intro c hc
      simp only [Bool.and_eq_true, Bool.not_eq_true', List.contains_eq_any_beq, List.any_eq_false,
        beq_iff_eq] at hc
      exact ⟨hc.1.1, fun hmem => absurd rfl (hc.1.2 key hmem), hc.2⟩
    cases value <;> simp only [fieldsRoundTrip, hat1, Bool.false_eq_true, if_false] at h <;>
      simp only [hat1, Bool.false_eq_true, if_false]
    all_goals
      have h1 := hkeys _ h
      refine ⟨?_, h1⟩
      have h2 : (_ && _) = true := (Bool.and_eq_true _ _ ▸ (Bool.and_eq_true _ _ ▸ h).1).1
      have h3 := hfield _ h2
      refine ⟨h3.1, h3.2.1, ?_⟩
      first
        | exact Or.inr ⟨rfl, h3.2.2⟩
        | (simp only [Bool.and_eq_true, decide_eq_true_eq] at h3
           exact Or.inl ⟨_, rfl, h3.2.2.1, itemsRoundTrip_mem D _ h3.2.2.2⟩)

theorem fieldsRoundTrip_forall (D : Dom) (own : Props) (h : fieldsRoundTrip D own = true) :
    (∀ p ∈ own, FieldOk D p) ∧ (keysOf own).Nodup := by
  induction own with
  | nil => exact ⟨fun p hp => (by cases hp), List.nodup_nil⟩
  | cons p rest ih =>
      obtain ⟨key, value⟩ := p
      obtain ⟨hfield, hkey, hrest⟩ := fieldsRoundTrip_cons D key value rest h
      obtain ⟨hall, hnodup⟩ := ih hrest
      refine ⟨fun q hq => ?_, List.nodup_cons.2 ⟨hkey, hnodup⟩⟩
      rcases List.mem_cons.1 hq with rfl | hmem
      · exact hfield
      · exact hall q hmem

theorem eq_at_append_substring1 (key : String) (h : startsWithAt key = true) :
    key = "@" ++ substring1 key := by
  apply String.ext
  rw [at_append_data]
  unfold startsWithAt at h
  unfold substring1
  cases hdata : key.data with
  | nil => rw [hdata] at h; cases h
  | cons c cs =>
      rw [hdata] at h
      simp only [beq_iff_eq] at h
      simp [h]

/-- The attribute names of a record that round-trips are distinct. -/
theorem flatAttributes_nodup (D : Dom) (own : Props) (hall : ∀ p ∈ own, FieldOk D p)
    (hnodup : (keysOf own).Nodup) : ((flatAttributes own).map Prod.fst).Nodup := by
  induction own with
  | nil => simp [flatAttributes]
  | cons p rest ih =>
      obtain ⟨key, value⟩ := p
      simp only [keysOf, List.map_cons, List.nodup_cons] at hnodup
      have hrest := ih (fun q hq => hall q (List.mem_cons_of_mem _ hq)) hnodup.2
      by_cases hat : startsWithAt key = true
      · have hflat : flatAttributes ((key, value) :: rest) =
            (jsTrim (substring1 key), value.toJSString) :: flatAttributes rest := by
          simp [flatAttributes, List.filter_cons, hat]
        rw [hflat, List.map_cons, List.nodup_cons]
        refine ⟨fun hmem => hnodup.1 ?_, hrest⟩
        obtain ⟨a, ha, haname⟩ := List.mem_map.1 hmem
        unfold flatAttributes at ha
        obtain ⟨q, hqf, hqa⟩ := List.mem_map.1 ha
        obtain ⟨hq, hqat⟩ := List.mem_filter.1 hqf
        have hname : jsTrim (substring1 q.1) = jsTrim (substring1 key) := by
          have := haname
          rw [← hqa] at this
          exact this
        have hqok := hall q (List.mem_cons_of_mem _ hq)
        have hkok := hall (key, value) (List.mem_cons_self _ _)
        unfold FieldOk at hqok hkok
        rw [if_pos hqat] at hqok
        rw [if_pos hat] at hkok
        have hkeyeq : key = q.1 := by
          rw [eq_at_append_substring1 key hat, eq_at_append_substring1 q.1 hqat, ← hkok.2.1,
            ← hqok.2.1, hname]
        rw [hkeyeq]
        exact List.mem_map.2 ⟨q, hq, rfl⟩
      · have hflat : flatAttributes ((key, value) :: rest) = flatAttributes rest := by
          simp [flatAttributes, List.filter_cons, hat]
        rw [hflat]
        exact hrest

theorem marshalItems_nodes (D : Dom) (key : String) (hvalid : D.validElementName key = true)
    (name : String) (attrs : List (String × String)) (items : List JSValue)
    (h : ∀ x ∈ items, marshal D x (some (.element key [] [])) = .ok (some (nodeOf key x))) :
    ∀ cs, marshalItems D key items (some (.element name attrs cs)) =
      .ok (some (.element name attrs (cs ++ nodesOf key items))) := by
  induction items with
  | nil => intro cs; simp only [marshalItems, nodesOf, List.append_nil]
  | cons item rest ih =>
      intro cs
      simp only [marshalItems, newChild, hvalid, if_true, h item (List.mem_cons_self _ _),
        Node.appendChild, ih (fun x hx => h x (List.mem_cons_of_mem _ hx)), nodesOf,
        List.append_assoc, List.singleton_append]

theorem marshalProps_nodes (D : Dom) (name : String) (own : Props)
    (ih : ∀ p ∈ own, MarshalsToNode D p.2) (hall : ∀ p ∈ own, FieldOk D p) :
    ∀ (attrs : List (String × String)) (cs : List Node),
      (attrs.map Prod.fst ++ (flatAttributes own).map Prod.fst).Nodup →
      marshalProps D [] own (some (.element name attrs cs)) =
        .ok (some (.element name (attrs ++ flatAttributes own) (cs ++ childrenOf own))) := by
  induction own with
  | nil =>
      intro attrs cs _
      simp [marshalProps, flatAttributes, childrenOf]
  | cons p rest ihrest =>
      intro attrs cs hnodup
      obtain ⟨key, value⟩ := p
      have ihrest := ihrest (fun q hq => ih q (List.mem_cons_of_mem _ hq))
        (fun q hq => hall q (List.mem_cons_of_mem _ hq))
      have hok := hall (key, value) (List.mem_cons_self _ _)
      have hval := ih (key, value) (List.mem_cons_self _ _)
      unfold FieldOk at hok
      simp only [marshalProps, List.not_mem_nil, if_false]
      by_cases hat : startsWithAt key = true
      · rw [if_pos hat] at hok
        obtain ⟨⟨s, hs⟩, htrim, hvalid⟩ := hok
        simp only at hs htrim hvalid
        subst hs
        have hflat : flatAttributes ((key, .str s) :: rest) =
            (substring1 key, s) :: flatAttributes rest := by
          simp [flatAttributes, List.filter_cons, hat, htrim, JSValue.toJSString]
        have hkids : childrenOf ((key, .str s) :: rest) = childrenOf rest := by
          simp [childrenOf, hat]
        rw [hflat] at hnodup
        simp only [List.map_cons] at hnodup
        have hnotin : substring1 key ∉ attrs.map Prod.fst := by
          intro hmem
          exact (List.nodup_append.1 hnodup).2.2 hmem (List.mem_cons_self _ _)
        rw [marshalEntry_eq]
        simp only [JSValue.isNullish, JSValue.isFunction, Bool.or_self, Bool.false_eq_true, if_false,
          hat, if_true, setAttribute, htrim, hvalid, Node.setAttributeNode, JSValue.toJSString,
          JSValue.conversionError, setAttr_of_not_mem _ _ _ hnotin]
        rw [ihrest, hflat, hkids]
        · simp
        · simpa [List.nodup_append, List.nodup_cons, and_assoc, not_or] using hnodup
      · rw [if_neg hat] at hok
        have hat1 : startsWithAt key = false := by simpa using hat
        obtain ⟨hvalid, _, hvalue⟩ := hok
        simp only at hvalid hvalue
        have hflat : flatAttributes ((key, value) :: rest) = flatAttributes rest := by
          simp [flatAttributes, List.filter_cons, hat]
        rw [hflat] at hnodup
        rw [marshalEntry_eq]
        rcases hvalue with ⟨items, hitems, _, hrt⟩ | ⟨hnotarray, hrt⟩
        · subst hitems
          have hkids : childrenOf ((key, .array items) :: rest) =
              nodesOf key items ++ childrenOf rest := by
            simp [childrenOf, hat1]
          simp only [JSValue.isNullish, JSValue.isFunction, Bool.or_self, Bool.false_eq_true, if_false,
            hat1]
          rw [marshalItems_nodes D key hvalid name attrs items
            (fun x hx => hval.2 items rfl x hx (hrt x hx) key)]
          simp only [ihrest _ _ hnodup, hflat, hkids, List.append_assoc]
        · have hkids : childrenOf ((key, value) :: rest) = nodeOf key value :: childrenOf rest := by
            cases value <;> first
              | (simp [JSValue.isArray] at hnotarray; done)
              | simp [childrenOf, hat1]
          have hskip : (value.isNullish || value.isFunction) = false := by
            cases value <;> first | rfl | simp [JSValue.roundTrips] at hrt
          have hentry : (match value with
              | .array items => marshalItems D key items (some (.element name attrs cs))
              | single => newChild D key (marshal D single) (some (.element name attrs cs))) =
              .ok (some (.element name attrs (cs ++ [nodeOf key value]))) := by
            cases value <;> first
              | (simp [JSValue.isArray] at hnotarray; done)
              | simp only [newChild, hvalid, if_true, hval.1 hrt key, Node.appendChild]
          simp only [hskip, Bool.false_eq_true, if_false, hat1, hentry, ihrest _ _ hnodup, hflat,
            hkids, List.append_assoc, List.singleton_append]

/-- Marshalling a value that round-trips into a fresh element named `key`
builds the element `nodeOf key value`. -/
theorem marshal_nodeOf (D : Dom) (value : JSValue) : MarshalsToNode D value := by
  induction value using jsValue_induction with
  | hundefined => exact ⟨fun h => by simp [JSValue.roundTrips] at h, fun _ h => by cases h⟩
  | hnull => exact ⟨fun h => by simp [JSValue.roundTrips] at h, fun _ h => by cases h⟩
  | hbool b => exact ⟨fun h => by simp [JSValue.roundTrips] at h, fun _ h => by cases h⟩
  | hnum n => exact ⟨fun h => by simp [JSValue.roundTrips] at h, fun _ h => by cases h⟩
  | hstr s =>
      refine ⟨fun _ key => ?_, fun _ h => by cases h⟩
      simp only [marshal, appendText, Node.appendChild, nodeOf, List.nil_append]
  | hfunc f => exact ⟨fun h => by simp [JSValue.roundTrips] at h, fun _ h => by cases h⟩
  | harray items ih =>
      refine ⟨fun h => by simp [JSValue.roundTrips] at h, fun items1 h x hx hrt key => ?_⟩
      cases h
      exact (ih x hx).1 hrt key
  | hobject own protos ihOwn _ =>
      refine ⟨fun hrt key => ?_, fun _ h => by cases h⟩
      cases protos with
      | cons layer more => simp [JSValue.roundTrips] at hrt
      | nil =>
          simp only [JSValue.roundTrips, Bool.and_eq_true] at hrt
          obtain ⟨hall, hnodup⟩ := fieldsRoundTrip_forall D own hrt.2
          rw [marshal_plain, marshalProps_nodes D key own ihOwn hall [] []
            (by simpa using flatAttributes_nodup D own hall hnodup)]
          simp only [nodeOf, List.nil_append]

theorem getProp_of_not_mem (key : String) (object : Props) (h : key ∉ keysOf object) :
    getProp key object = none := by
  induction object with
  | nil => rfl
  | cons p rest ih =>
      obtain ⟨k, v⟩ := p
      simp only [keysOf, List.map_cons, List.mem_cons, not_or] at h
      simp only [getProp, if_neg (Ne.symm h.1)]
      exact ih h.2

theorem setProp_of_not_mem (key : String) (value : JSValue) (object : Props)
    (h : key ∉ keysOf object) : setProp key value object = object ++ [(key, value)] := by
  induction object with
  | nil => rfl
  | cons p rest ih =>
      obtain ⟨k, v⟩ := p
      simp only [keysOf, List.map_cons, List.mem_cons, not_or] at h
      simp only [setProp, if_neg (Ne.symm h.1), List.cons_append]
      rw [ih h.2]

theorem getProp_append_self (key : String) (value : JSValue) (object : Props)
    (h : key ∉ keysOf object) : getProp key (object ++ [(key, value)]) = some value := by
  rw [← setProp_of_not_mem key value object h, getProp_setProp_self]

theorem setProp_append_self (key : String) (value other : JSValue) (object : Props)
    (h : key ∉ keysOf object) :
    setProp key other (object ++ [(key, value)]) = object ++ [(key, other)] := by
  induction object with
  | nil => simp [setProp]
  | cons p rest ih =>
      obtain ⟨k, v⟩ := p
      simp only [keysOf, List.map_cons, List.mem_cons, not_or] at h
      simp only [List.cons_append, setProp, if_neg (Ne.symm h.1), List.append_eq]
      rw [ih h.2]

theorem unmarshalChildren_append (front back : List Node) :
    ∀ object, unmarshalChildren (front ++ back) object =
      match unmarshalChildren front object with
      | .error e => .error e
      | .ok object1 => unmarshalChildren back object1 := by
  induction front with
  | nil => intro object; simp only [List.nil_append, unmarshalChildren]
  | cons c rest ih =>
      intro object
      cases c with
      | text data => simp only [List.cons_append, unmarshalChildren, List.append_eq, ih]
      | element name attrs cs =>
          simp only [List.cons_append, unmarshalChildren, List.append_eq]
          cases unmarshal (.element name attrs cs) with
          | error e => rfl
          | ok value =>
              simp only
              cases foldChild name value object with
              | error e => rfl
              | ok object1 => simp only [ih]

theorem nodeOf_element (key : String) (value : JSValue) :
    ∃ attrs cs, nodeOf key value = .element key attrs cs := by
  cases value <;> simp only [nodeOf] <;> exact ⟨_, _, rfl⟩

theorem nodesOf_cons_append (key : String) (item : JSValue) (more : List JSValue) (rest : List Node) :
    nodesOf key (item :: more) ++ rest = nodeOf key item :: (nodesOf key more ++ rest) := by
  simp only [nodesOf, List.cons_append]

/-- One round of the loop over the children, on the element built for a value. -/
theorem unmarshalChildren_cons_nodeOf (key : String) (value decoded : JSValue) (rest : List Node)
    (object object1 : Props) (hdecoded : unmarshal (nodeOf key value) = .ok decoded)
    (hfold : foldChild key decoded object = .ok object1) :
    unmarshalChildren (nodeOf key value :: rest) object = unmarshalChildren rest object1 := by
  obtain ⟨attrs, cs, hnode⟩ := nodeOf_element key value
  rw [hnode] at hdecoded ⊢
  simp only [unmarshalChildren, hdecoded, hfold]

/-- Decoding one child whose tag name is new to the object adds the field. -/
theorem unmarshalChildren_new (key : String) (value decoded : JSValue) (rest : List Node)
    (object : Props) (hdecoded : unmarshal (nodeOf key value) = .ok decoded)
    (hkey : key ∉ keysOf object) (hproto : key ∉ objectPrototypeNames) :
    unmarshalChildren (nodeOf key value :: rest) object =
      unmarshalChildren rest (object ++ [(key, decoded)]) := by
  have hne : key ≠ "__proto__" := fun h => hproto (by rw [h]; decide)
  apply unmarshalChildren_cons_nodeOf key value decoded rest object _ hdecoded
  simp only [foldChild, getProp_of_not_mem key object hkey, if_neg hne, if_neg hproto,
    setProp_of_not_mem key decoded object hkey]

/-- Decoding further children of a tag name whose field holds a list appends
to the list. -/
theorem unmarshalChildren_push (key : String) (items : List JSValue) (object : Props)
    (hkey : key ∉ keysOf object)
    (h : ∀ x ∈ items, unmarshal (nodeOf key x) = .ok (attributesFirst x)) :
    ∀ (acc : List JSValue) (rest : List Node),
      unmarshalChildren (nodesOf key items ++ rest) (object ++ [(key, .array acc)]) =
        unmarshalChildren rest (object ++ [(key, .array (acc ++ attributesFirstItems items))]) := by
  induction items with
  | nil => intro acc rest; simp only [nodesOf, attributesFirstItems, List.nil_append, List.append_nil]
  | cons item more ih =>
      intro acc rest
      have hfold : foldChild key (attributesFirst item) (object ++ [(key, .array acc)]) =
          .ok (object ++ [(key, .array (acc ++ [attributesFirst item]))]) := by
        simp only [foldChild, getProp_append_self key _ object hkey,
          setProp_append_self key _ _ object hkey]
      rw [nodesOf_cons_append,
        unmarshalChildren_cons_nodeOf key item _ _ _ _ (h item (List.mem_cons_self _ _)) hfold,
        ih (fun x hx => h x (List.mem_cons_of_mem _ hx))]
      simp only [attributesFirstItems, List.append_assoc, List.singleton_append]

/-- Decoding the sibling elements of a list of at least two items adds the
field holding the list of the decoded items. -/
theorem unmarshalChildren_list (key : String) (items : List JSValue) (rest : List Node)
    (object : Props) (hkey : key ∉ keysOf object) (hproto : key ∉ objectPrototypeNames)
    (hlen : 2 ≤ items.length)
    (h : ∀ x ∈ items, unmarshal (nodeOf key x) = .ok (attributesFirst x))
    (hdecoded : ∀ x ∈ items, (attributesFirst x).isArray = false) :
    unmarshalChildren (nodesOf key items ++ rest) object =
      unmarshalChildren rest (object ++ [(key, .array (attributesFirstItems items))]) := by
  match items, hlen, h, hdecoded with
  | first :: second :: more, _, h, hdecoded =>
      have hfirst := h first (List.mem_cons_self _ _)
      have hsecond := h second (List.mem_cons_of_mem _ (List.mem_cons_self _ _))
      have hnotarray := hdecoded first (List.mem_cons_self _ _)
      have hstep : foldChild key (attributesFirst second) (object ++ [(key, attributesFirst first)]) =
          .ok (object ++ [(key, .array [attributesFirst first, attributesFirst second])]) := by
        simp only [foldChild, getProp_append_self key _ object hkey]
        cases hfa : attributesFirst first <;>
          first
            | (rw [hfa] at hnotarray; simp [JSValue.isArray] at hnotarray; done)
            | simp only [setProp_append_self key _ _ object hkey]
      rw [nodesOf_cons_append, unmarshalChildren_new key first _ _ object hfirst hkey hproto,
        nodesOf_cons_append, unmarshalChildren_cons_nodeOf key second _ _ _ _ hsecond hstep,
        unmarshalChildren_push key more object hkey
          (fun x hx => h x (List.mem_cons_of_mem _ (List.mem_cons_of_mem _ hx)))]
      simp only [attributesFirstItems, List.cons_append, List.nil_append]

theorem isArray_attributesFirst (D : Dom) (value : JSValue) (h : value.roundTrips D = true) :
    (attributesFirst value).isArray = false := by
  cases value <;> first | rfl | simp [JSValue.roundTrips] at h

theorem unmarshalAttributes_flat (D : Dom) (own : Props) (hall : ∀ p ∈ own, FieldOk D p) :
    ∀ object, (keysOf object ++ keysOf own).Nodup →
      unmarshalAttributes (flatAttributes own) object = object ++ attributeFields own := by
  induction own with
  | nil => intro object _; simp [flatAttributes, attributeFields, unmarshalAttributes]
  | cons p rest ih =>
      intro object hnodup
      obtain ⟨key, value⟩ := p
      have ih := ih (fun q hq => hall q (List.mem_cons_of_mem _ hq))
      have hok := hall (key, value) (List.mem_cons_self _ _)
      unfold FieldOk at hok
      have hkey : key ∉ keysOf object := by
        intro hmem
        exact (List.nodup_append.1 hnodup).2.2 hmem (List.mem_cons_self _ _)
      by_cases hat : startsWithAt key = true
      · rw [if_pos hat] at hok
        obtain ⟨⟨s, hs⟩, htrim, _⟩ := hok
        simp only at hs htrim
        subst hs
        have hflat : flatAttributes ((key, .str s) :: rest) =
            (substring1 key, s) :: flatAttributes rest := by
          simp [flatAttributes, List.filter_cons, hat, htrim, JSValue.toJSString]
        have hfields : attributeFields ((key, .str s) :: rest) =
            (key, .str s) :: attributeFields rest := by
          simp [attributeFields, List.filter_cons, hat]
        rw [hflat, hfields]
        simp only [unmarshalAttributes, htrim, ← eq_at_append_substring1 key hat,
          setProp_of_not_mem key _ object hkey]
        rw [ih]
        · simp
        · simpa [keysOf, List.nodup_append, List.nodup_cons, and_assoc, not_or, and_comm,
            and_left_comm, eq_comm] using hnodup
      · have hflat : flatAttributes ((key, value) :: rest) = flatAttributes rest := by
          simp [flatAttributes, List.filter_cons, hat]
        have hfields : attributeFields ((key, value) :: rest) = attributeFields rest := by
          simp [attributeFields, List.filter_cons, hat]
        rw [hflat, hfields]
        apply ih
        simp only [keysOf, List.map_cons] at hnodup ⊢
        exact (List.nodup_append.2 ⟨(List.nodup_append.1 hnodup).1,
          (List.nodup_cons.1 (List.nodup_append.1 hnodup).2.1).2,
          fun a ha hb => (List.nodup_append.1 hnodup).2.2 ha (List.mem_cons_of_mem _ hb)⟩)

theorem startsWithAt_of_mem_attributeFields (own : Props) (key : String)
    (h : key ∈ keysOf (attributeFields own)) : startsWithAt key = true := by
  obtain ⟨p, hp, rfl⟩ := List.mem_map.1 h
  exact (List.mem_filter.1 hp).2

theorem unmarshalChildren_childrenOf (D : Dom) (own : Props)
    (ih : ∀ p ∈ own, UnmarshalsFromNode D p.2) (hall : ∀ p ∈ own, FieldOk D p)
    (hnodup : (keysOf own).Nodup) :
    ∀ object, (∀ p ∈ own, startsWithAt p.1 = false → p.1 ∉ keysOf object) →
      unmarshalChildren (childrenOf own) object = .ok (object ++ elementFields own) := by
  induction own with
  | nil => intro object _; simp [childrenOf, elementFields, unmarshalChildren]
  | cons p rest ihrest =>
      intro object hfresh
      obtain ⟨key, value⟩ := p
      simp only [keysOf, List.map_cons, List.nodup_cons] at hnodup
      have ihrest := ihrest (fun q hq => ih q (List.mem_cons_of_mem _ hq))
        (fun q hq => hall q (List.mem_cons_of_mem _ hq)) hnodup.2
      have hok := hall (key, value) (List.mem_cons_self _ _)
      have hval := ih (key, value) (List.mem_cons_self _ _)
      have hfreshrest : ∀ q ∈ rest, startsWithAt q.1 = false → q.1 ∉ keysOf object :=
        fun q hq => hfresh q (List.mem_cons_of_mem _ hq)
      unfold FieldOk at hok
      by_cases hat : startsWithAt key = true
      · have hkids : childrenOf ((key, value) :: rest) = childrenOf rest := by
          cases value <;> simp [childrenOf, hat]
        have hfields : elementFields ((key, value) :: rest) = elementFields rest := by
          cases value <;> simp [elementFields, hat]
        rw [hkids, hfields]
        exact ihrest object hfreshrest
      · rw [if_neg hat] at hok
        have hat1 : startsWithAt key = false := by simpa using hat
        have hkey : key ∉ keysOf object := hfresh (key, value) (List.mem_cons_self _ _) hat1
        obtain ⟨_, hproto, hvalue⟩ := hok
        simp only at hproto hvalue
        have hfields : elementFields ((key, value) :: rest) =
            (key, attributesFirst value) :: elementFields rest := by
          cases value <;> simp [elementFields, hat1]
        have hfreshnext : ∀ other, ∀ q ∈ rest, startsWithAt q.1 = false →
            q.1 ∉ keysOf (object ++ [(key, other)]) := by
          intro other q hq hqat hmem
          simp only [keysOf, List.map_append, List.map_cons, List.map_nil, List.mem_append,
            List.mem_singleton] at hmem
          rcases hmem with hmem | hmem
          · exact hfreshrest q hq hqat hmem
          · exact hnodup.1 (hmem ▸ List.mem_map.2 ⟨q, hq, rfl⟩)
        rw [hfields]
        rcases hvalue with ⟨items, hitems, hlen, hrt⟩ | ⟨hnotarray, hrt⟩
        · subst hitems
          have hkids : childrenOf ((key, .array items) :: rest) =
              nodesOf key items ++ childrenOf rest := by
            simp [childrenOf, hat1]
          rw [hkids, unmarshalChildren_list key items _ object hkey hproto hlen
            (fun x hx => hval.2 items rfl x hx (hrt x hx) key)
            (fun x hx => isArray_attributesFirst D x (hrt x hx)),
            ihrest _ (hfreshnext _)]
          simp [attributesFirst]
        · have hkids : childrenOf ((key, value) :: rest) = nodeOf key value :: childrenOf rest := by
            cases value <;> first
              | (simp [JSValue.isArray] at hnotarray; done)
              | simp [childrenOf, hat1]
          rw [hkids, unmarshalChildren_new key value _ _ object (hval.1 hrt key) hkey hproto,
            ihrest _ (hfreshnext _)]
          simp

theorem elementsOf_nodesOf (key : String) (items : List JSValue) :
    elementsOf (nodesOf key items) = nodesOf key items := by
  induction items with
  | nil => simp only [nodesOf, elementsOf]
  | cons item rest ih =>
      obtain ⟨attrs, cs, hnode⟩ := nodeOf_element key item
      simp only [nodesOf, hnode, elementsOf, ih]

/-- A record that round-trips and has a field marshals to an element with an
attribute or a child element. -/
theorem not_bare_of_fields (D : Dom) (own : Props) (hall : ∀ p ∈ own, FieldOk D p)
    (hne : own ≠ []) :
    ¬((flatAttributes own).length = 0 ∧ (elementsOf (childrenOf own)).length = 0) := by
  match own, hall, hne with
  | (key, value) :: rest, hall, _ =>
      have hok := hall (key, value) (List.mem_cons_self _ _)
      unfold FieldOk at hok
      by_cases hat : startsWithAt key = true
      · intro h
        have hflat : flatAttributes ((key, value) :: rest) =
            (jsTrim (substring1 key), value.toJSString) :: flatAttributes rest := by
          simp [flatAttributes, List.filter_cons, hat]
        rw [hflat] at h
        simp at h
      · rw [if_neg hat] at hok
        have hat1 : startsWithAt key = false := by simpa using hat
        obtain ⟨_, _, hvalue⟩ := hok
        simp only at hvalue
        intro h
        rcases hvalue with ⟨items, hitems, hlen, _⟩ | ⟨hnotarray, _⟩
        · subst hitems
          match items, hlen with
          | first :: more, _ =>
              obtain ⟨attrs, cs, hnode⟩ := nodeOf_element key first
              have hkids : childrenOf ((key, .array (first :: more)) :: rest) =
                  .element key attrs cs :: (nodesOf key more ++ childrenOf rest) := by
                simp [childrenOf, hat1, nodesOf, hnode]
              rw [hkids] at h
              simp [elementsOf] at h
        · obtain ⟨attrs, cs, hnode⟩ := nodeOf_element key value
          have hkids : childrenOf ((key, value) :: rest) =
              .element key attrs cs :: childrenOf rest := by
            rw [← hnode]
            cases value <;> first
              | (simp [JSValue.isArray] at hnotarray; done)
              | simp [childrenOf, hat1]
          rw [hkids] at h
          simp [elementsOf] at h

/-- Decoding the element built for a record with at least one field. -/
theorem unmarshal_nodeOf_record (D : Dom) (own : Props) (key : String)
    (ih : ∀ p ∈ own, UnmarshalsFromNode D p.2) (hall : ∀ p ∈ own, FieldOk D p)
    (hnodup : (keysOf own).Nodup) (hne : own ≠ []) :
    unmarshal (nodeOf key (.object own [])) =
      .ok (.object (attributeFields own ++ elementFields own) []) := by
  have hbare := not_bare_of_fields D own hall hne
  simp only [nodeOf, unmarshal, if_neg hbare]
  rw [unmarshalAttributes_flat D own hall [] (by simpa [keysOf] using hnodup),
    List.nil_append, unmarshalChildren_childrenOf D own ih hall hnodup]
  intro p _ hpat hmem
  rw [startsWithAt_of_mem_attributeFields own p.1 hmem] at hpat
  cases hpat

/-- Decoding the element built for a value that round-trips gives the value
back, the `@`-prefixed fields of every record first. -/
theorem unmarshal_nodeOf (D : Dom) (value : JSValue) : UnmarshalsFromNode D value := by
  induction value using jsValue_induction with
  | hundefined => exact ⟨fun h => by simp [JSValue.roundTrips] at h, fun _ h => by cases h⟩
  | hnull => exact ⟨fun h => by simp [JSValue.roundTrips] at h, fun _ h => by cases h⟩
  | hbool b => exact ⟨fun h => by simp [JSValue.roundTrips] at h, fun _ h => by cases h⟩
  | hnum n => exact ⟨fun h => by simp [JSValue.roundTrips] at h, fun _ h => by cases h⟩
  | hstr s =>
      refine ⟨fun _ key => ?_, fun _ h => by cases h⟩
      simp [nodeOf, unmarshal, elementsOf, Node.textContent, Node.textContentList,
        JSValue.toJSString, attributesFirst]
  | hfunc f => exact ⟨fun h => by simp [JSValue.roundTrips] at h, fun _ h => by cases h⟩
  | harray items ih =>
      refine ⟨fun h => by simp [JSValue.roundTrips] at h, fun items1 h x hx hrt key => ?_⟩
      cases h
      exact (ih x hx).1 hrt key
  | hobject own protos ihOwn _ =>
      refine ⟨fun hrt key => ?_, fun _ h => by cases h⟩
      cases protos with
      | cons layer more => simp [JSValue.roundTrips] at hrt
      | nil =>
          simp only [JSValue.roundTrips, Bool.and_eq_true, Bool.not_eq_true', List.isEmpty_eq_false] at hrt
          obtain ⟨hall, hnodup⟩ := fieldsRoundTrip_forall D own hrt.2
          rw [unmarshal_nodeOf_record D own key ihOwn hall hnodup hrt.1]
          simp only [attributesFirst]

theorem keysOf_attributesFirst_subset (own : Props) (key : String)
    (h : key ∈ keysOf (attributeFields own ++ elementFields own)) : key ∈ keysOf own := by
  simp only [keysOf, List.map_append, List.mem_append] at h
  rcases h with h | h
  · obtain ⟨p, hp, rfl⟩ := List.mem_map.1 h
    exact List.mem_map.2 ⟨p, (List.mem_filter.1 hp).1, rfl⟩
  · induction own with
    | nil => simp [elementFields] at h
    | cons p rest ih =>
        obtain ⟨k, v⟩ := p
        by_cases hat : startsWithAt k = true
        · have hfields : elementFields ((k, v) :: rest) = elementFields rest := by
            cases v <;> simp [elementFields, hat]
          rw [hfields] at h
          exact List.mem_cons_of_mem _ (ih h)
        · have hfields : elementFields ((k, v) :: rest) =
              (k, attributesFirst v) :: elementFields rest := by
            cases v <;> simp [elementFields, hat]
          rw [hfields, List.map_cons, List.mem_cons] at h
          rcases h with rfl | h
          · exact List.mem_cons_self _ _
          · exact List.mem_cons_of_mem _ (ih h)

/-- The round trip on the fields of a record: `XmlMarshaller.marshal` returns
the serialised element built for the record, and, when the parser reads that
text back as the normalised element, `XmlMarshaller.unmarshal` returns the
fields, the `@`-prefixed ones first, followed by the field `type`. -/
theorem roundTrip_fields (D : Dom) (fields : Props) (rootName : String)
    (hall : ∀ p ∈ fields, FieldOk D p) (hnodup : (keysOf fields).Nodup)
    (htype : "type" ∉ keysOf fields)
    (hroot : rootName ≠ "" ∧ D.validRootName rootName = true)
    (hparse : D.parseFromString
        (DOC_DECLARATION ++ serializeNode D (nodeOf rootName (.object fields []))) =
      (nodeOf rootName (.object fields [])).normalize) :
    marshal D (.object fields []) (some (.element rootName [] [])) =
        .ok (some (nodeOf rootName (.object fields []))) ∧
    XmlMarshaller.marshal D (.object fields []) rootName =
        .ok (DOC_DECLARATION ++ serializeNode D (nodeOf rootName (.object fields []))) ∧
    XmlMarshaller.unmarshal D
        (DOC_DECLARATION ++ serializeNode D (nodeOf rootName (.object fields []))) =
      .ok (.object (attributeFields fields ++ elementFields fields ++ [("type", .str rootName)]) []) := by
  have hm : marshal D (.object fields []) (some (.element rootName [] [])) =
      .ok (some (nodeOf rootName (.object fields []))) := by
    rw [marshal_plain, marshalProps_nodes D rootName fields (fun p _ => marshal_nodeOf D p.2) hall [] []
      (by simpa using flatAttributes_nodup D fields hall hnodup)]
    simp only [nodeOf, List.nil_append]
  refine ⟨hm, ?_, ?_⟩
  · simp only [XmlMarshaller.marshal, JSValue.isNullish, JSValue.isFunction, JSValue.isArray,
      Bool.or_self, Bool.false_eq_true, if_false, Dom.createDocument, hroot.1, hroot.2, if_true, hm,
      serializeToString]
  · have htypenew : "type" ∉ keysOf (attributeFields fields ++ elementFields fields) :=
      fun h => htype (keysOf_attributesFirst_subset fields "type" h)
    simp only [XmlMarshaller.unmarshal, hparse]
    by_cases hempty : fields = []
    · subst hempty
      simp [nodeOf, flatAttributes, childrenOf, Node.normalize, Node.normalizeList, Node.attributes,
        Node.children, Node.childNodes, elementsOf, assignType, setProp, attributeFields,
        elementFields, Node.nodeName]
    · have hbare := not_bare_of_fields D fields hall hempty
      have hdecode := unmarshal_nodeOf_record D fields rootName
        (fun p _ => unmarshal_nodeOf D p.2) hall hnodup hempty
      rw [← unmarshal_normalize] at hdecode
      have hcond : ¬((nodeOf rootName (.object fields [])).normalize.attributes.length = 0 ∧
          (nodeOf rootName (.object fields [])).normalize.children.length = 0) := by
        simpa only [nodeOf, Node.normalize, Node.attributes, Node.children, Node.childNodes,
          length_elementsOf_normalizeList] using hbare
      rw [if_neg hcond, hdecode]
      simp only [assignType, setProp_of_not_mem _ _ _ htypenew, nodeOf, Node.normalize,
        Node.nodeName]

/-! ### Structural equality with the reordered value -/

theorem getProp_of_mem (own : Props) (hnodup : (keysOf own).Nodup) (key : String) (value : JSValue)
    (h : (key, value) ∈ own) : getProp key own = some value := by
  induction own with
  | nil => cases h
  | cons p rest ih =>
      obtain ⟨k, v⟩ := p
      simp only [keysOf, List.map_cons, List.nodup_cons] at hnodup
      rcases List.mem_cons.1 h with heq | hmem
      · cases heq
        simp only [getProp, if_true]
      · have hne : k ≠ key := fun hk => hnodup.1 (hk ▸ List.mem_map.2 ⟨(key, value), hmem, rfl⟩)
        simp only [getProp, if_neg hne]
        exact ih hnodup.2 hmem

theorem structEqProps_of_forall (props other : Props)
    (h : ∀ q ∈ props, ∃ w, getProp q.1 other = some w ∧ structEq q.2 w = true) :
    structEqProps props other = true := by
  induction props with
  | nil => simp only [structEqProps]
  | cons p rest ih =>
      obtain ⟨k, v⟩ := p
      obtain ⟨w, hget, heq⟩ := h (k, v) (List.mem_cons_self _ _)
      simp only at hget heq
      simp only [structEqProps, hget, heq, Bool.true_and]
      exact ih (fun q hq => h q (List.mem_cons_of_mem _ hq))

theorem length_attributesFirst (own : Props) :
    (attributeFields own ++ elementFields own).length = own.length := by
  induction own with
  | nil => simp [attributeFields, elementFields]
  | cons p rest ih =>
      obtain ⟨k, v⟩ := p
      simp only [List.length_append, attributeFields] at ih ⊢
      by_cases hat : startsWithAt k = true
      · have hfields : elementFields ((k, v) :: rest) = elementFields rest := by
          cases v <;> simp [elementFields, hat]
        rw [hfields, List.filter_cons_of_pos (by simpa using hat)]
        simp only [List.length_cons]
        omega
      · have hfields : elementFields ((k, v) :: rest) =
            (k, attributesFirst v) :: elementFields rest := by
          cases v <;> simp [elementFields, hat]
        rw [hfields, List.filter_cons_of_neg (by simpa using hat)]
        simp only [List.length_cons]
        omega

theorem mem_elementFields (own : Props) (q : String × JSValue) (h : q ∈ elementFields own) :
    ∃ v, (q.1, v) ∈ own ∧ startsWithAt q.1 = false ∧ q.2 = attributesFirst v := by
  induction own with
  | nil => simp [elementFields] at h
  | cons p rest ih =>
      obtain ⟨k, v⟩ := p
      by_cases hat : startsWithAt k = true
      · have hfields : elementFields ((k, v) :: rest) = elementFields rest := by
          cases v <;> simp [elementFields, hat]
        rw [hfields] at h
        obtain ⟨w, hw, hrest⟩ := ih h
        exact ⟨w, List.mem_cons_of_mem _ hw, hrest⟩
      · have hfields : elementFields ((k, v) :: rest) =
            (k, attributesFirst v) :: elementFields rest := by
          cases v <;> simp [elementFields, hat]
        rw [hfields] at h
        rcases List.mem_cons.1 h with rfl | hmem
        · exact ⟨v, List.mem_cons_self _ _, by simpa using hat, rfl⟩
        · obtain ⟨w, hw, hrest⟩ := ih hmem
          exact ⟨w, List.mem_cons_of_mem _ hw, hrest⟩

theorem structEq_fields (D : Dom) (own : Props) (ih : ∀ p ∈ own, StructEqReordered D p.2)
    (hall : ∀ p ∈ own, FieldOk D p) (hnodup : (keysOf own).Nodup) :
    structEq (.object (attributeFields own ++ elementFields own) []) (.object own []) = true := by
  have hprops : structEqProps (attributeFields own ++ elementFields own) own = true := by
    apply structEqProps_of_forall
    intro q hq
    rcases List.mem_append.1 hq with hattr | helem
    · obtain ⟨hmem, hat⟩ := List.mem_filter.1 hattr
      have hok := hall q hmem
      unfold FieldOk at hok
      rw [if_pos hat] at hok
      obtain ⟨⟨s, hs⟩, _⟩ := hok
      refine ⟨q.2, getProp_of_mem own hnodup q.1 q.2 hmem, ?_⟩
      rw [hs]
      simp [structEq]
    · obtain ⟨v, hmem, hat, hq2⟩ := mem_elementFields own q helem
      have hok := hall (q.1, v) hmem
      have hval := ih (q.1, v) hmem
      unfold FieldOk at hok
      rw [if_neg (by simp [hat])] at hok
      refine ⟨v, getProp_of_mem own hnodup q.1 v hmem, ?_⟩
      rw [hq2]
      rcases hok.2.2 with ⟨items, hitems, _, hrt⟩ | ⟨_, hrt⟩
      · simp only at hitems
        subst hitems
        simp only [attributesFirst, structEq]
        exact hval.2 items rfl hrt
      · exact hval.1 hrt
  simp only [structEq, length_attributesFirst, beq_self_eq_true, hprops, structEqChain, Bool.and_self]

/-- A value that round-trips is structurally equal to its reordered form. -/
theorem structEq_attributesFirst (D : Dom) (value : JSValue) : StructEqReordered D value := by
  induction value using jsValue_induction with
  | hundefined => exact ⟨fun h => by simp [JSValue.roundTrips] at h, fun _ h => by cases h⟩
  | hnull => exact ⟨fun h => by simp [JSValue.roundTrips] at h, fun _ h => by cases h⟩
  | hbool b => exact ⟨fun h => by simp [JSValue.roundTrips] at h, fun _ h => by cases h⟩
  | hnum n => exact ⟨fun h => by simp [JSValue.roundTrips] at h, fun _ h => by cases h⟩
  | hstr s => exact ⟨fun _ => by simp [attributesFirst, structEq], fun _ h => by cases h⟩
  | hfunc f => exact ⟨fun h => by simp [JSValue.roundTrips] at h, fun _ h => by cases h⟩
  | harray items ih =>
      refine ⟨fun h => by simp [JSValue.roundTrips] at h, fun items1 h hrt => ?_⟩
      cases h
      induction items with
      | nil => simp only [attributesFirstItems, structEqItems]
      | cons item rest ihrest =>
          simp only [attributesFirstItems, structEqItems, Bool.and_eq_true]
          exact ⟨(ih item (List.mem_cons_self _ _)).1 (hrt item (List.mem_cons_self _ _)),
            ihrest (fun x hx => ih x (List.mem_cons_of_mem _ hx))
              (fun x hx => hrt x (List.mem_cons_of_mem _ hx))⟩
  | hobject own protos ihOwn _ =>
      refine ⟨fun hrt => ?_, fun _ h => by cases h⟩
      cases protos with
      | cons layer more => simp [JSValue.roundTrips] at hrt
      | nil =>
          simp only [JSValue.roundTrips, Bool.and_eq_true] at hrt
          obtain ⟨hall, hnodup⟩ := fieldsRoundTrip_forall D own hrt.2
          simp only [attributesFirst]
          exact structEq_fields D own ihOwn hall hnodup

theorem removeType_append_type (own : Props) (value : JSValue) (h : "type" ∉ keysOf own) :
    removeType (.object (own ++ [("type", value)]) []) = .object own [] := by
  simp only [removeType, List.filter_append, JSValue.object.injEq, and_true]
  have hkeep : own.filter (fun p => p.1 != "type") = own := by
    apply List.filter_eq_self.2
    intro p hp
    simp only [bne_iff_ne, ne_eq]
    intro heq
    exact h (heq ▸ List.mem_map.2 ⟨p, hp, rfl⟩)
  rw [hkeep]
  simp

/-! ### C1 -/

/-- C1, as stated, fails: the record with the one field `a` holding the number
5 is acyclic, has no `null` field and no list, but after marshalling and
unmarshalling the field holds the string `"5"`, which is not structurally
equal to the number. -/
theorem roundTrip_number_becomes_string :
    XmlMarshaller.marshal referenceDom (.object [("a", .num "5")] []) "r" =
        .ok (DOC_DECLARATION ++ "<r><a>5</a></r>") ∧
    XmlMarshaller.unmarshal referenceDom (DOC_DECLARATION ++ "<r><a>5</a></r>") =
        .ok (.object [("a", .str "5"), ("type", .str "r")] []) ∧
    structEq (removeType (.object [("a", .str "5"), ("type", .str "r")] []))
        (.object [("a", .num "5")] []) = false :=
  ⟨rfl, rfl, rfl⟩

/-- C1, amended: the round trip holds for every record whose fields
round-trip (`fieldsRoundTrip`: strings, records with at least one field, and
lists of at least two of these, under distinct names that the DOM accepts,
an attribute name being trimmed, an element name not being inherited from
`Object.prototype`) and that has no field named `type`. If the DOM accepts
the root name `r` and the parser reads the text `marshal` produced back as
the normalised tree that was serialised, then `marshal` returns a text,
`unmarshal` decodes that text, and the decoded record without its field
`type` is the record with the `@`-prefixed fields of every record moved
first, which is structurally equal to the record. -/
theorem roundTrip_record (D : Dom) (fields : Props)
    (hfields : fieldsRoundTrip D fields = true) (htype : "type" ∉ keysOf fields)
    (hroot : D.validRootName "r" = true)
    (hparse : ∀ root, marshal D (.object fields []) (some (.element "r" [] [])) = .ok (some root) →
      D.parseFromString (DOC_DECLARATION ++ serializeNode D root) = root.normalize) :
    ∃ text decoded, XmlMarshaller.marshal D (.object fields []) "r" = .ok text ∧
      XmlMarshaller.unmarshal D text = .ok decoded ∧
      removeType decoded = attributesFirst (.object fields []) ∧
      structEq (removeType decoded) (.object fields []) = true := by
  obtain ⟨hall, hnodup⟩ := fieldsRoundTrip_forall D fields hfields
  have hm : marshal D (.object fields []) (some (.element "r" [] [])) =
      .ok (some (nodeOf "r" (.object fields []))) := by
    rw [marshal_plain, marshalProps_nodes D "r" fields (fun p _ => marshal_nodeOf D p.2) hall [] []
      (by simpa using flatAttributes_nodup D fields hall hnodup)]
    simp only [nodeOf, List.nil_append]
  obtain ⟨_, hmarshal, hunmarshal⟩ := roundTrip_fields D fields "r" hall hnodup htype
    ⟨by decide, hroot⟩ (hparse _ hm)
  have htypenew : "type" ∉ keysOf (attributeFields fields ++ elementFields fields) :=
    fun h => htype (keysOf_attributesFirst_subset fields "type" h)
  refine ⟨_, _, hmarshal, hunmarshal, ?_, ?_⟩
  · rw [removeType_append_type _ _ htypenew]
    simp only [attributesFirst]
  · rw [removeType_append_type _ _ htypenew]
    exact structEq_fields D fields (fun p _ => structEq_attributesFirst D p.2) hall hnodup

set_option maxRecDepth 100000 in
theorem roundTrip_record_witness :
    fieldsRoundTrip referenceDom
        [("a", .str "x"), ("@b", .str "y"),
          ("c", .array [.str "1", .object [("d", .str ""), ("@e", .str "q")] []]),
          ("f", .object [("type", .str "t")] [])] = true ∧
    "type" ∉ keysOf
        [("a", .str "x"), ("@b", .str "y"),
          ("c", .array [.str "1", .object [("d", .str ""), ("@e", .str "q")] []]),
          ("f", .object [("type", .str "t")] [])] ∧
    referenceDom.validRootName "r" = true ∧
    (∀ root, marshal referenceDom
        (.object [("a", .str "x"), ("@b", .str "y"),
          ("c", .array [.str "1", .object [("d", .str ""), ("@e", .str "q")] []]),
          ("f", .object [("type", .str "t")] [])] []) (some (.element "r" [] [])) = .ok (some root) →
      referenceDom.parseFromString (DOC_DECLARATION ++ serializeNode referenceDom root) = root.normalize) ∧
    ∃ text decoded, XmlMarshaller.marshal referenceDom
        (.object [("a", .str "x"), ("@b", .str "y"),
          ("c", .array [.str "1", .object [("d", .str ""), ("@e", .str "q")] []]),
          ("f", .object [("type", .str "t")] [])] []) "r" = .ok text ∧
      XmlMarshaller.unmarshal referenceDom text = .ok decoded ∧
      removeType decoded = attributesFirst
        (.object [("a", .str "x"), ("@b", .str "y"),
          ("c", .array [.str "1", .object [("d", .str ""), ("@e", .str "q")] []]),
          ("f", .object [("type", .str "t")] [])] []) ∧
      structEq (removeType decoded)
        (.object [("a", .str "x"), ("@b", .str "y"),
          ("c", .array [.str "1", .object [("d", .str ""), ("@e", .str "q")] []]),
          ("f", .object [("type", .str "t")] [])] []) = true :=
  have hparse : ∀ root, marshal referenceDom
        (.object [("a", .str "x"), ("@b", .str "y"),
          ("c", .array [.str "1", .object [("d", .str ""), ("@e", .str "q")] []]),
          ("f", .object [("type", .str "t")] [])] []) (some (.element "r" [] [])) = .ok (some root) →
      referenceDom.parseFromString (DOC_DECLARATION ++ serializeNode referenceDom root) = root.normalize :=
    fun root h => by
      have heq : root = nodeOf "r"
          (.object [("a", .str "x"), ("@b", .str "y"),
            ("c", .array [.str "1", .object [("d", .str ""), ("@e", .str "q")] []]),
            ("f", .object [("type", .str "t")] [])] []) :=
        Option.some.inj (Except.ok.inj (h.symm.trans rfl))
      rw [heq]
      rfl
  ⟨rfl, by decide, rfl, hparse, roundTrip_record referenceDom _ rfl (by decide) rfl hparse⟩

/-! ### C7 -/

theorem nodesOf_map_str (key : String) (xs : List String) :
    nodesOf key (xs.map JSValue.str) = xs.map fun x => .element key [] [.text x] := by
  induction xs with
  | nil => simp only [List.map_nil, nodesOf]
  | cons x rest ih => simp only [List.map_cons, nodesOf, nodeOf, JSValue.toJSString, ih]

theorem attributesFirstItems_map_str (xs : List String) :
    attributesFirstItems (xs.map JSValue.str) = xs.map JSValue.str := by
  induction xs with
  | nil => simp only [List.map_nil, attributesFirstItems]
  | cons x rest ih => simp only [List.map_cons, attributesFirstItems, attributesFirst, ih]

/-- C7, as stated, fails: for the field name `type` and the list of the two
strings `x` and `y`, `marshal` produces two sibling `type` elements, but the
record `unmarshal` returns for that text does not hold the list under `type`:
it holds the root tag name. -/
theorem list_field_named_type_lost :
    XmlMarshaller.marshal referenceDom (.object [("type", .array [.str "x", .str "y"])] []) "r" =
        .ok (DOC_DECLARATION ++ "<r><type>x</type><type>y</type></r>") ∧
    XmlMarshaller.unmarshal referenceDom (DOC_DECLARATION ++ "<r><type>x</type><type>y</type></r>") =
        .ok (.object [("type", .str "r")] []) :=
  ⟨rfl, rfl⟩

/-- C7, amended: for every field name `key` that is not `@`-prefixed, is
accepted by the DOM as an element name, is not `type` and is not inherited
from `Object.prototype`, and every list `xs` of at least two strings,
`marshal` of the record with the one field `key` holding `xs`, under the root
`r`, builds exactly one child element named `key` per item under the root, in
list order, each holding its item as text, and returns the serialised
document; and when the parser reads that text back as the normalised tree,
`unmarshal` returns the record whose field `key` is the list `xs`, followed by
the field `type`. -/
theorem list_field_roundTrip (D : Dom) (key : String) (xs : List String)
    (hkey : startsWithAt key = false) (hvalid : D.validElementName key = true)
    (hproto : key ∉ objectPrototypeNames) (htype : key ≠ "type") (hlen : 2 ≤ xs.length)
    (hroot : D.validRootName "r" = true)
    (hparse : D.parseFromString (DOC_DECLARATION ++
        serializeNode D (.element "r" [] (xs.map fun x => .element key [] [.text x]))) =
      (Node.element "r" [] (xs.map fun x => .element key [] [.text x])).normalize) :
    marshal D (.object [(key, .array (xs.map JSValue.str))] []) (some (.element "r" [] [])) =
        .ok (some (.element "r" [] (xs.map fun x => .element key [] [.text x]))) ∧
    XmlMarshaller.marshal D (.object [(key, .array (xs.map JSValue.str))] []) "r" =
        .ok (DOC_DECLARATION ++
          serializeNode D (.element "r" [] (xs.map fun x => .element key [] [.text x]))) ∧
    XmlMarshaller.unmarshal D (DOC_DECLARATION ++
          serializeNode D (.element "r" [] (xs.map fun x => .element key [] [.text x]))) =
        .ok (.object [(key, .array (xs.map JSValue.str)), ("type", .str "r")] []) := by
  have hnode : nodeOf "r" (.object [(key, .array (xs.map JSValue.str))] []) =
      .element "r" [] (xs.map fun x => .element key [] [.text x]) := by
    simp [nodeOf, flatAttributes, childrenOf, hkey, nodesOf_map_str]
  have hall : ∀ p ∈ [(key, JSValue.array (xs.map JSValue.str))], FieldOk D p := by
    intro p hp
    rw [List.mem_singleton.1 hp]
    unfold FieldOk
    rw [if_neg (by simp [hkey])]
    refine ⟨hvalid, hproto, Or.inl ⟨_, rfl, by simpa using hlen, fun x hx => ?_⟩⟩
    obtain ⟨s, _, rfl⟩ := List.mem_map.1 hx
    rfl
  have h := roundTrip_fields D [(key, .array (xs.map JSValue.str))] "r" hall
    (by simp [keysOf]) (by simpa [keysOf] using Ne.symm htype) ⟨by decide, hroot⟩
    (by rw [hnode]; exact hparse)
  rw [hnode] at h
  refine ⟨h.1, h.2.1, ?_⟩
  rw [h.2.2]
  simp [attributeFields, elementFields, hkey, attributesFirst, attributesFirstItems_map_str]

theorem list_field_roundTrip_witness :
    startsWithAt "tags" = false ∧ referenceDom.validElementName "tags" = true ∧
    "tags" ∉ objectPrototypeNames ∧ "tags" ≠ "type" ∧ 2 ≤ ["x", "y", "z"].length ∧
    referenceDom.validRootName "r" = true ∧
    referenceDom.parseFromString (DOC_DECLARATION ++
        serializeNode referenceDom (.element "r" [] (["x", "y", "z"].map fun x => .element "tags" [] [.text x]))) =
      (Node.element "r" [] (["x", "y", "z"].map fun x => .element "tags" [] [.text x])).normalize ∧
    (marshal referenceDom (.object [("tags", .array (["x", "y", "z"].map JSValue.str))] [])
        (some (.element "r" [] [])) =
        .ok (some (.element "r" [] (["x", "y", "z"].map fun x => .element "tags" [] [.text x]))) ∧
    XmlMarshaller.marshal referenceDom
        (.object [("tags", .array (["x", "y", "z"].map JSValue.str))] []) "r" =
        .ok (DOC_DECLARATION ++
          serializeNode referenceDom (.element "r" [] (["x", "y", "z"].map fun x => .element "tags" [] [.text x]))) ∧
    XmlMarshaller.unmarshal referenceDom (DOC_DECLARATION ++
          serializeNode referenceDom (.element "r" [] (["x", "y", "z"].map fun x => .element "tags" [] [.text x]))) =
        .ok (.object [("tags", .array (["x", "y", "z"].map JSValue.str)), ("type", .str "r")] [])) ∧
    DOC_DECLARATION ++
        serializeNode referenceDom (.element "r" [] (["x", "y", "z"].map fun x => .element "tags" [] [.text x])) =
      DOC_DECLARATION ++ "<r><tags>x</tags><tags>y</tags><tags>z</tags></r>" :=
  ⟨rfl, rfl, by decide, by decide, by decide, rfl, rfl,
    list_field_roundTrip referenceDom "tags" ["x", "y", "z"] rfl rfl (by decide) (by decide)
      (by decide) rfl rfl, rfl⟩

/-! ## C11: fields holding primitives -/

/-- C11: the docstring of `XmlMarshaller.marshal` (line 24) says that any
field holding a string, number or boolean is marshalled into an attribute.
The code decides by the field name alone (line 90): the record the chat
controller passes, with the fields `alias`, `content` and `timestamp`, all
primitives, is marshalled into an element without any attribute and with one
child element per field; so is a record with a string and a boolean. -/
theorem marshal_primitive_fields_become_elements :
    marshal referenceDom
        (.object [("alias", .str "a"), ("content", .str "b"), ("timestamp", .num "5")] [])
        (some (.element "chatEntry" [] [])) =
      .ok (some (.element "chatEntry" []
        [.element "alias" [] [.text "a"], .element "content" [] [.text "b"],
          .element "timestamp" [] [.text "5"]])) ∧
    XmlMarshaller.marshal referenceDom
        (.object [("alias", .str "a"), ("content", .str "b"), ("timestamp", .num "5")] [])
        "chatEntry" =
      .ok (DOC_DECLARATION ++
        "<chatEntry><alias>a</alias><content>b</content><timestamp>5</timestamp></chatEntry>") ∧
    XmlMarshaller.marshal referenceDom (.object [("name", .str "a"), ("ok", .bool true)] []) "root" =
      .ok (DOC_DECLARATION ++ "<root><name>a</name><ok>true</ok></root>") :=
  ⟨rfl, rfl, rfl⟩

/-! ## C12: a document element holding only text -/

/-- C12: the docstring of `XmlMarshaller.unmarshal` (lines 47 and 48) says
that the text of a root element containing only text is returned. The code
does not return it: the document `<root>hello</root>` has such a root, the
private `unmarshal` would decode it to the text `hello`, but line 60 puts the
empty object in its place and the method returns the record holding nothing
but `type`. -/
theorem unmarshal_text_root_drops_text :
    referenceDom.parseFromString "<root>hello</root>" = .element "root" [] [.text "hello"] ∧
    unmarshal (.element "root" [] [.text "hello"]) = .ok (.str "hello") ∧
    XmlMarshaller.unmarshal referenceDom "<root>hello</root>" =
      .ok (.object [("type", .str "root")] []) :=
  ⟨rfl, rfl, rfl⟩

/-! ## C13: a primitive at the top level -/

/-- C13, as stated, fails: not every root name gives a document. For the empty
root name `createDocument` builds a document without a document element, and
appending the text to it throws a `TypeError`; for a root name that is no XML
name `createDocument` throws. -/
theorem marshal_primitive_root_name_rejected :
    XmlMarshaller.marshal referenceDom (.num "5") "" = .error .typeError ∧
    XmlMarshaller.marshal referenceDom (.num "5") "a b" = .error .domException :=
  ⟨rfl, rfl⟩

/-- C13, amended: for every string, number or boolean and every root name the
DOM accepts for a document element, `marshal` fills the root element with one
text node holding the string form of the value, and `XmlMarshaller.marshal`
returns the header followed by the start tag of the root, the escaped string
form and the end tag. The root element has no attribute and no child element,
and its text content is the string form of the value. -/
theorem marshal_primitive_document (D : Dom) (value : JSValue) (rootName : String)
    (hprim : value.isPrimitive = true)
    (hroot : rootName ≠ "" ∧ D.validRootName rootName = true) :
    marshal D value (some (.element rootName [] [])) =
        .ok (some (.element rootName [] [.text value.toJSString])) ∧
    XmlMarshaller.marshal D value rootName =
        .ok (DOC_DECLARATION ++ "<" ++ rootName ++ ">" ++ D.escapeText value.toJSString ++
          "</" ++ rootName ++ ">") ∧
    (Node.element rootName [] [.text value.toJSString]).attributes = [] ∧
    (Node.element rootName [] [.text value.toJSString]).children = [] ∧
    (Node.element rootName [] [.text value.toJSString]).textContent = value.toJSString := by
  have hm : marshal D value (some (.element rootName [] [])) =
      .ok (some (.element rootName [] [.text value.toJSString])) := by
    cases value <;> first | rfl | cases hprim
  refine ⟨hm, ?_, rfl, rfl, ?_⟩
  · have hguard : (value.isNullish || value.isFunction || value.isArray) = false := by
      cases value <;> first | rfl | cases hprim
    simp only [XmlMarshaller.marshal, hguard, Bool.false_eq_true, if_false, Dom.createDocument,
      hroot.1, hroot.2, if_true, hm, serializeToString, serializeNode, serializeNodes,
      serializeAttributes, String.append_empty, String.append_assoc]
  · simp [Node.textContent, Node.textContentList]

theorem marshal_primitive_document_witness :
    (JSValue.num "5").isPrimitive = true ∧ ("r" ≠ "" ∧ referenceDom.validRootName "r" = true) ∧
    XmlMarshaller.marshal referenceDom (.num "5") "r" = .ok (DOC_DECLARATION ++ "<r>5</r>") ∧
    XmlMarshaller.marshal referenceDom (.bool true) "r" = .ok (DOC_DECLARATION ++ "<r>true</r>") ∧
    XmlMarshaller.marshal referenceDom (.str "a<b") "r" = .ok (DOC_DECLARATION ++ "<r>a&lt;b</r>") :=
  ⟨rfl, ⟨by decide, rfl⟩,
    (marshal_primitive_document referenceDom (.num "5") "r" rfl ⟨by decide, rfl⟩).2.1,
    (marshal_primitive_document referenceDom (.bool true) "r" rfl ⟨by decide, rfl⟩).2.1,
    (marshal_primitive_document referenceDom (.str "a<b") "r" rfl ⟨by decide, rfl⟩).2.1⟩

/-! ## C14: inherited fields -/

/-- From its second round on, the outer loop marshals the prototype as an
object of its own. -/
theorem marshalChain_cons (D : Dom) (layer : Props) (protos : List Props) (element : Option Node) :
    marshalChain D (layer :: protos) element = marshal D (.object layer protos) element := by
  simp only [marshal, marshalChain]

/-- C14: a field defined by an object and by its prototype is not shadowed.
The loop `for (const key in object)` of the first round visits the field of
the object, and the outer loop over `Object.getPrototypeOf` visits the field
of the prototype in the next round: for every DOM, field name and pair of
values, marshalling the object runs the loop body on the derived value and
then on the base value. So an attribute ends with the base value, an element
field gives an element for the derived value followed by one for the base
value, and a field that is only inherited is marshalled twice. -/
theorem marshal_base_value_not_shadowed :
    (∀ (D : Dom) (key : String) (derived base : JSValue) (element : Option Node),
      marshal D (.object [(key, derived)] [[(key, base)]]) element =
        match marshalEntry D (key, derived) element with
        | .error e => .error e
        | .ok element1 => marshalEntry D (key, base) element1) ∧
    XmlMarshaller.marshal referenceDom
        (.object [("@id", .str "derived")] [[("@id", .str "base")]]) "r" =
      .ok (DOC_DECLARATION ++ "<r id=\"base\"/>") ∧
    XmlMarshaller.marshal referenceDom
        (.object [("name", .str "derived")] [[("name", .str "base")]]) "r" =
      .ok (DOC_DECLARATION ++ "<r><name>derived</name><name>base</name></r>") ∧
    XmlMarshaller.marshal referenceDom (.object [] [[("name", .str "base")]]) "r" =
      .ok (DOC_DECLARATION ++ "<r><name>base</name><name>base</name></r>") := by
  refine ⟨?_, rfl, rfl, rfl⟩
  intro D key derived base element
  simp only [marshal, marshalProps, List.not_mem_nil, if_false, marshalInherited, keysOf,
    List.map_cons, List.map_nil, List.mem_singleton, if_true, marshalChain]
  cases marshalEntry D (key, derived) element with
  | error e => rfl
  | ok element1 =>
      simp only []
      cases marshalEntry D (key, base) element1 <;> rfl

/-! ## C15: a tag name that occurs once -/

/-- The field of a tag name in a decoded element, for a name not inherited
from `Object.prototype`: the decoded value of the one child of that name, or
the list of the decoded values of the several children of that name, which
is as long as they are many. -/
theorem unmarshal_field_of_children (name : String) (attrs : List (String × String))
    (cs : List Node) (key : String) (fields : Props)
    (hkey : key ∉ objectPrototypeNames) (hat : startsWithAt key = false)
    (hmem : key ∈ (elementsOf cs).map Node.nodeName)
    (h : unmarshal (.element name attrs cs) = .ok (.object fields [])) :
    ∃ values, List.Forall₂ (fun c v => unmarshal c = .ok v)
        ((elementsOf cs).filter fun c => c.nodeName = key) values ∧
      getProp key fields = some (foldedValue values) ∧
      (∀ v ∈ values, v.isArray = false) ∧
      values.length = ((elementsOf cs).filter fun c => c.nodeName = key).length := by
  have hcond : ¬(attrs.length = 0 ∧ (elementsOf cs).length = 0) := by
    intro hc
    rw [List.length_eq_zero.1 hc.2] at hmem
    cases hmem
  simp only [unmarshal, if_neg hcond] at h
  cases hrun : unmarshalChildren cs (unmarshalAttributes attrs []) with
  | error e => rw [hrun] at h; cases h
  | ok object =>
      rw [hrun] at h
      cases h
      obtain ⟨values, hvalues, hget⟩ := getProp_unmarshalChildren key hkey cs _ _ hrun
      have hattrkey : ∀ a ∈ attrs, key ≠ "@" ++ jsTrim a.1 := by
        intro a _ heq
        rw [heq, startsWithAt_at_append] at hat
        cases hat
      have hvne : values ≠ [] := by
        intro hnil
        rw [hnil] at hvalues
        exact mem_elementsOf_nodeName hmem (List.forall₂_nil_right_iff.1 hvalues)
      have harr : ∀ v ∈ values, v.isArray = false := by
        intro v hv
        obtain ⟨c1, _, hc1⟩ := forall₂_exists_left hvalues v hv
        exact isArray_of_isDecoded v (unmarshal_isDecoded _ v hc1)
      refine ⟨values, hvalues, ?_, harr, hvalues.length_eq.symm⟩
      rw [hget, getProp_unmarshalAttributes_of_ne key attrs hattrkey]
      exact foldl_foldStep values harr hvne

/-- C15: a tag name that occurs once among the children does not always give
a field holding the decoded child directly. The test `key in object` of line
129 is true of a name the fresh object inherits from `Object.prototype`: the
root of `<root><toString>x</toString></root>` has one child named `toString`,
and the decoded record holds under `toString` a list, of the inherited
function and the decoded child. -/
theorem unmarshal_single_child_inherited_name :
    ((Node.element "root" [] [.element "toString" [] [.text "x"]]).children.filter
        fun child => child.nodeName = "toString").length = 1 ∧
    unmarshal (.element "root" [] [.element "toString" [] [.text "x"]]) =
      .ok (.object [("toString", .array [nativeFunction "toString", .str "x"])] []) ∧
    XmlMarshaller.unmarshal referenceDom "<root><toString>x</toString></root>" =
      .ok (.object [("toString", .array [nativeFunction "toString", .str "x"]),
        ("type", .str "root")] []) :=
  ⟨rfl, rfl, rfl⟩

/-! ## C16: elements without attributes and child elements -/

theorem elementsOf_idem (cs : List Node) : elementsOf (elementsOf cs) = elementsOf cs := by
  induction cs with
  | nil => rfl
  | cons c rest ih =>
      cases c with
      | text data => simpa only [elementsOf] using ih
      | element n a c => simp only [elementsOf, ih]

/-- The loop over the children does not see the text nodes. -/
theorem unmarshalChildren_elementsOf (cs : List Node) :
    ∀ object, unmarshalChildren (elementsOf cs) object = unmarshalChildren cs object := by
  induction cs with
  | nil => intro object; rfl
  | cons c rest ih =>
      intro object
      cases c with
      | text data => simpa only [elementsOf, unmarshalChildren] using ih object
      | element n a c => simp only [elementsOf, unmarshalChildren, ih]

/-- C16: for every element without attributes and without child elements the
recursive `unmarshal` returns the text content of the element, as a string:
the empty string when the element has no child node. Decoded as the one child
of another element (under a tag name not inherited from `Object.prototype`),
it is the string held by the field of its tag name; as the root of a
document, the same element is decoded by `XmlMarshaller.unmarshal` to the
record that holds `type`. -/
theorem unmarshal_leaf_returns_text (D : Dom) (name : String) (attrs : List (String × String))
    (childNodes : List Node)
    (hattrs : attrs.length = 0) (hchildren : (elementsOf childNodes).length = 0) :
    unmarshal (.element name attrs childNodes) =
        .ok (.str (Node.textContent (.element name attrs childNodes))) ∧
    (childNodes = [] → unmarshal (.element name attrs childNodes) = .ok (.str "")) ∧
    (∀ parent, name ∉ objectPrototypeNames →
      unmarshal (.element parent [] [.element name attrs childNodes]) =
        .ok (.object [(name, .str (Node.textContent (.element name attrs childNodes)))] [])) ∧
    (∀ xml, D.parseFromString xml = .element name attrs childNodes →
      XmlMarshaller.unmarshal D xml = .ok (.object [("type", .str name)] [])) := by
  have hleaf : unmarshal (.element name attrs childNodes) =
      .ok (.str (Node.textContent (.element name attrs childNodes))) := by
    simp only [unmarshal, hattrs, hchildren, and_self, if_true]
  refine ⟨hleaf, ?_, ?_, ?_⟩
  · intro hnone
    rw [hleaf, hnone]
    rfl
  · intro parent hname
    have hproto : name ≠ "__proto__" := fun h => hname (by rw [h]; decide)
    rw [unmarshal]
    simp only [List.length_nil, elementsOf, List.length_cons, true_and, unmarshalChildren, hleaf,
      unmarshalAttributes, foldChild, getProp, hproto, hname, if_false, setProp]
    simp
  · intro xml hparse
    simp only [XmlMarshaller.unmarshal, hparse, Node.attributes, Node.children, Node.childNodes,
      hattrs, hchildren, and_self, if_true, assignType, setProp, Node.nodeName]

theorem unmarshal_leaf_returns_text_witness :
    ([] : List (String × String)).length = 0 ∧ (elementsOf [.text "x"]).length = 0 ∧
    unmarshal (.element "a" [] [.text "x"]) = .ok (.str "x") ∧
    unmarshal (.element "a" [] []) = .ok (.str "") ∧
    unmarshal (.element "root" [] [.element "a" [] []]) = .ok (.object [("a", .str "")] []) ∧
    XmlMarshaller.unmarshal referenceDom "<a/>" = .ok (.object [("type", .str "a")] []) ∧
    XmlMarshaller.unmarshal referenceDom "<root><a/></root>" =
      .ok (.object [("a", .str ""), ("type", .str "root")] []) :=
  ⟨rfl, rfl,
    (unmarshal_leaf_returns_text referenceDom "a" [] [.text "x"] rfl rfl).1,
    (unmarshal_leaf_returns_text referenceDom "a" [] [] rfl rfl).2.1 rfl,
    (unmarshal_leaf_returns_text referenceDom "a" [] [] rfl rfl).2.2.1 "root" (by decide),
    (unmarshal_leaf_returns_text referenceDom "a" [] [] rfl rfl).2.2.2 "<a/>" rfl,
    rfl⟩

/-! ## C17: a list of one item -/

/-- The loop body on a list of one item is the loop body on the item. -/
theorem marshalEntry_single_item (D : Dom) (key : String) (item : JSValue)
    (hkey : startsWithAt key = false) (hitem : item.isArray = false)
    (hskip : (item.isNullish || item.isFunction) = false) (element : Option Node) :
    marshalEntry D (key, .array [item]) element = marshalEntry D (key, item) element := by
  rw [marshalEntry_eq, marshalEntry_eq, hskip]
  simp only [JSValue.isNullish, JSValue.isFunction, Bool.or_self, Bool.false_eq_true, if_false, hkey,
    marshalItems]
  cases item with
  | array items => cases hitem
  | _ => first
    | (cases hskip; done)
    | (show _ = newChild D key (marshal D _) element
       generalize newChild D key (marshal D _) element = r
       cases r <;> rfl)

/-- C17, as stated, fails: for the field name `type` and the string `x`, the
list of the one item and the item marshal to the same text, but the record
decoded from that text does not hold `x` under `type`: it holds the root tag
name. -/
theorem single_item_list_named_type_lost :
    XmlMarshaller.marshal referenceDom (.object [("type", .array [.str "x"])] []) "r" =
        .ok (DOC_DECLARATION ++ "<r><type>x</type></r>") ∧
    XmlMarshaller.marshal referenceDom (.object [("type", .str "x")] []) "r" =
        .ok (DOC_DECLARATION ++ "<r><type>x</type></r>") ∧
    XmlMarshaller.unmarshal referenceDom (DOC_DECLARATION ++ "<r><type>x</type></r>") =
        .ok (.object [("type", .str "r")] []) :=
  ⟨rfl, rfl, rfl⟩

/-- C17, amended: for every field name `key` that is not `@`-prefixed and
every string `v`, the record whose field `key` holds the list of the one item
`v` and the record whose field holds `v` marshal to the same outcome under
every root name. When the DOM accepts `key` as an element name and the root
name, `key` is not `type` and is not inherited from `Object.prototype`, and
the parser reads the text back as the normalised tree, that outcome is the
document with the one child element `key` holding `v`, and `unmarshal` of the
text returns the record whose field `key` holds the string `v`, not a list,
followed by the field `type`. -/
theorem single_item_list_collapses (D : Dom) (key v : String) (hkey : startsWithAt key = false) :
    (∀ rootName, XmlMarshaller.marshal D (.object [(key, .array [.str v])] []) rootName =
      XmlMarshaller.marshal D (.object [(key, .str v)] []) rootName) ∧
    (∀ rootName, D.validElementName key = true → key ∉ objectPrototypeNames → key ≠ "type" →
      rootName ≠ "" ∧ D.validRootName rootName = true →
      D.parseFromString (DOC_DECLARATION ++
          serializeNode D (.element rootName [] [.element key [] [.text v]])) =
        (Node.element rootName [] [.element key [] [.text v]]).normalize →
      XmlMarshaller.marshal D (.object [(key, .array [.str v])] []) rootName =
          .ok (DOC_DECLARATION ++
            serializeNode D (.element rootName [] [.element key [] [.text v]])) ∧
      XmlMarshaller.unmarshal D (DOC_DECLARATION ++
            serializeNode D (.element rootName [] [.element key [] [.text v]])) =
          .ok (.object [(key, .str v), ("type", .str rootName)] [])) := by
  have hsame : ∀ rootName, XmlMarshaller.marshal D (.object [(key, .array [.str v])] []) rootName =
      XmlMarshaller.marshal D (.object [(key, .str v)] []) rootName := by
    intro rootName
    simp only [XmlMarshaller.marshal, JSValue.isNullish, JSValue.isFunction, JSValue.isArray,
      marshal_plain, marshalProps, List.not_mem_nil, if_false,
      marshalEntry_single_item D key (.str v) hkey rfl rfl]
  refine ⟨hsame, ?_⟩
  intro rootName hvalid hproto htype hroot hparse
  have hnode : nodeOf rootName (.object [(key, .str v)] []) =
      .element rootName [] [.element key [] [.text v]] := by
    simp [nodeOf, flatAttributes, childrenOf, hkey, JSValue.toJSString]
  have hall : ∀ p ∈ [(key, JSValue.str v)], FieldOk D p := by
    intro p hp
    rw [List.mem_singleton.1 hp]
    unfold FieldOk
    rw [if_neg (by simp [hkey])]
    exact ⟨hvalid, hproto, Or.inr ⟨rfl, rfl⟩⟩
  have h := roundTrip_fields D [(key, .str v)] rootName hall
    (by simp [keysOf]) (by simpa [keysOf] using Ne.symm htype) hroot
    (by rw [hnode]; exact hparse)
  rw [hnode] at h
  refine ⟨by rw [hsame]; exact h.2.1, ?_⟩
  rw [h.2.2]
  simp [attributeFields, elementFields, hkey, attributesFirst]

theorem single_item_list_collapses_witness :
    startsWithAt "tags" = false ∧
    XmlMarshaller.marshal referenceDom (.object [("tags", .array [.str "x"])] []) "r" =
      XmlMarshaller.marshal referenceDom (.object [("tags", .str "x")] []) "r" ∧
    XmlMarshaller.marshal referenceDom (.object [("tags", .array [.str "x"])] []) "r" =
      .ok (DOC_DECLARATION ++ "<r><tags>x</tags></r>") ∧
    XmlMarshaller.unmarshal referenceDom (DOC_DECLARATION ++ "<r><tags>x</tags></r>") =
      .ok (.object [("tags", .str "x"), ("type", .str "r")] []) :=
  ⟨rfl, (single_item_list_collapses referenceDom "tags" "x" rfl).1 "r",
    ((single_item_list_collapses referenceDom "tags" "x" rfl).2 "r" rfl (by decide) (by decide)
      ⟨by decide, rfl⟩ rfl).1,
    ((single_item_list_collapses referenceDom "tags" "x" rfl).2 "r" rfl (by decide) (by decide)
      ⟨by decide, rfl⟩ rfl).2⟩

/-! ## C18: the lists of a decoded value -/

theorem itemsListsFolded_append (xs ys : List JSValue) :
    JSValue.itemsListsFolded (xs ++ ys) =
      (JSValue.itemsListsFolded xs && JSValue.itemsListsFolded ys) := by
  induction xs with
  | nil => simp [JSValue.itemsListsFolded]
  | cons x rest ih => simp [JSValue.itemsListsFolded, ih, Bool.and_assoc]

theorem listsFolded_of_getProp (key : String) (value : JSValue) (object : Props)
    (hobject : JSValue.propsListsFolded object = true) (hget : getProp key object = some value) :
    value.listsFolded = true := by
  induction object with
  | nil => cases hget
  | cons p rest ih =>
      obtain ⟨k, v⟩ := p
      simp only [JSValue.propsListsFolded, Bool.and_eq_true] at hobject
      simp only [getProp] at hget
      split at hget
      · cases hget; exact hobject.1
      · exact ih hobject.2 hget

theorem propsListsFolded_setProp (key : String) (value : JSValue) (object : Props)
    (hobject : JSValue.propsListsFolded object = true) (hvalue : value.listsFolded = true) :
    JSValue.propsListsFolded (setProp key value object) = true := by
  induction object with
  | nil => simp [setProp, JSValue.propsListsFolded, hvalue]
  | cons p rest ih =>
      obtain ⟨k, v⟩ := p
      simp only [JSValue.propsListsFolded, Bool.and_eq_true] at hobject
      simp only [setProp]
      split
      · simp [JSValue.propsListsFolded, hvalue, hobject.2]
      · simp [JSValue.propsListsFolded, hobject.1, ih hobject.2]

theorem propsListsFolded_unmarshalAttributes (attrs : List (String × String)) :
    ∀ object, JSValue.propsListsFolded object = true →
      JSValue.propsListsFolded (unmarshalAttributes attrs object) = true := by
  induction attrs with
  | nil => intro object h; exact h
  | cons a rest ih =>
      intro object h
      obtain ⟨name, value⟩ := a
      exact ih _ (propsListsFolded_setProp _ _ _ h rfl)

/-- Folding a child into the object makes no list of fewer than two items:
a new list has two, a list that grows had two. -/
theorem propsListsFolded_foldChild (key : String) (value : JSValue) (object object1 : Props)
    (hobject : JSValue.propsListsFolded object = true) (hvalue : value.listsFolded = true)
    (h : foldChild key value object = .ok object1) :
    JSValue.propsListsFolded object1 = true := by
  unfold foldChild at h
  split at h
  · next items hget =>
      cases h
      have hitems := listsFolded_of_getProp key _ object hobject hget
      simp only [JSValue.listsFolded, Bool.and_eq_true, decide_eq_true_eq] at hitems
      refine propsListsFolded_setProp _ _ _ hobject ?_
      simp only [JSValue.listsFolded, Bool.and_eq_true, decide_eq_true_eq, List.length_append,
        List.length_singleton, itemsListsFolded_append, JSValue.itemsListsFolded, hitems.2, hvalue,
        and_self, and_true]
      omega
  · next existing _ hget =>
      cases h
      have hexisting := listsFolded_of_getProp key _ object hobject hget
      refine propsListsFolded_setProp _ _ _ hobject ?_
      simp [JSValue.listsFolded, JSValue.itemsListsFolded, hexisting, hvalue]
  · by_cases hproto : key = "__proto__"
    · rw [if_pos hproto] at h; cases h
    · rw [if_neg hproto] at h
      split at h
      · cases h
        refine propsListsFolded_setProp _ _ _ hobject ?_
        have hnative : (objectPrototypeGet key).listsFolded = true := by
          unfold objectPrototypeGet
          split <;> rfl
        simp [JSValue.listsFolded, JSValue.itemsListsFolded, hnative, hvalue]
      · cases h
        exact propsListsFolded_setProp _ _ _ hobject hvalue

theorem propsListsFolded_unmarshalChildren (cs : List Node)
    (ih : ∀ c ∈ cs, ∀ value, unmarshal c = .ok value → value.listsFolded = true) :
    ∀ object object1, JSValue.propsListsFolded object = true →
      unmarshalChildren cs object = .ok object1 → JSValue.propsListsFolded object1 = true := by
  induction cs with
  | nil =>
      intro object object1 hobject h
      simp only [unmarshalChildren] at h
      cases h
      exact hobject
  | cons c rest ihrest =>
      intro object object1 hobject h
      cases c with
      | text data =>
          simp only [unmarshalChildren] at h
          exact ihrest (fun c hc => ih c (List.mem_cons_of_mem _ hc)) object object1 hobject h
      | element name attrs cs1 =>
          simp only [unmarshalChildren] at h
          cases hvalue : unmarshal (.element name attrs cs1) with
          | error e => simp only [hvalue] at h; cases h
          | ok value =>
              simp only [hvalue] at h
              cases hfold : foldChild name value object with
              | error e => simp only [hfold] at h; cases h
              | ok object2 =>
                  simp only [hfold] at h
                  exact ihrest (fun c hc => ih c (List.mem_cons_of_mem _ hc)) object2 object1
                    (propsListsFolded_foldChild name value object object2 hobject
                      (ih _ (List.mem_cons_self _ _) value hvalue) hfold) h

/-- Every list in a value `unmarshal` returns, at any depth, has at least two
items. -/
theorem unmarshal_listsFolded (node : Node) :
    ∀ value, unmarshal node = .ok value → value.listsFolded = true := by
  induction node using node_induction with
  | htext data => intro value h; simp only [unmarshal] at h; cases h
  | helement name attrs cs ih =>
      intro value h
      simp only [unmarshal] at h
      split at h
      · cases h; rfl
      · cases hobject : unmarshalChildren cs (unmarshalAttributes attrs []) with
        | error e => rw [hobject] at h; cases h
        | ok object =>
            rw [hobject] at h
            cases h
            simp only [JSValue.listsFolded, JSValue.chainListsFolded, Bool.and_true]
            exact propsListsFolded_unmarshalChildren cs ih _ _
              (propsListsFolded_unmarshalAttributes attrs [] rfl) hobject

/-- C18: the lists of a decoded value have at least two items
(`unmarshal_listsFolded`), but a list is not always as long as the siblings it
was folded from are many. For a tag name the fresh object inherits from
`Object.prototype` the test `key in object` of line 129 is true at the first
child, and the list starts with the inherited function: the one child named
`constructor` gives a list of two items, the two children named `valueOf` a
list of three. -/
theorem unmarshal_list_longer_than_siblings :
    ((Node.element "root" [] [.element "constructor" [] [.text "x"]]).children.filter
        fun child => child.nodeName = "constructor").length = 1 ∧
    unmarshal (.element "root" [] [.element "constructor" [] [.text "x"]]) =
      .ok (.object [("constructor", .array [nativeFunction "Object", .str "x"])] []) ∧
    ((Node.element "root" []
          [.element "valueOf" [] [.text "x"], .element "valueOf" [] [.text "y"]]).children.filter
        fun child => child.nodeName = "valueOf").length = 2 ∧
    unmarshal (.element "root" []
        [.element "valueOf" [] [.text "x"], .element "valueOf" [] [.text "y"]]) =
      .ok (.object [("valueOf", .array [nativeFunction "valueOf", .str "x", .str "y"])] []) ∧
    XmlMarshaller.unmarshal referenceDom "<root><valueOf>x</valueOf><valueOf>y</valueOf></root>" =
      .ok (.object [("valueOf", .array [nativeFunction "valueOf", .str "x", .str "y"]),
        ("type", .str "root")] []) :=
  ⟨rfl, rfl, rfl, rfl, rfl⟩

/-! ## C19: the text of an element with attributes or child elements -/

/-- C19: for every element with at least one attribute or at least one child
element the recursive `unmarshal` does not read the text of the element. Two
such elements with the same attributes and the same child elements, whatever
their text nodes, are decoded to the same outcome, which is that of the
element without its text nodes; and the outcome is a record (as far as the
embedding covers the element: no element below it is named `__proto__`). -/
theorem unmarshal_ignores_own_text (name : String) (attrs : List (String × String))
    (childNodes childNodes1 : List Node)
    (hnonleaf : attrs.length ≠ 0 ∨ (elementsOf childNodes).length ≠ 0)
    (hsame : elementsOf childNodes1 = elementsOf childNodes) :
    unmarshal (.element name attrs childNodes1) = unmarshal (.element name attrs childNodes) ∧
    unmarshal (.element name attrs childNodes) =
      unmarshal (.element name attrs (elementsOf childNodes)) ∧
    (Node.decodableList childNodes = true →
      ∃ fields, unmarshal (.element name attrs childNodes) = .ok (.object fields [])) := by
  have hcond : ¬(attrs.length = 0 ∧ (elementsOf childNodes).length = 0) := by
    rcases hnonleaf with h | h
    · exact fun hc => h hc.1
    · exact fun hc => h hc.2
  have hform : ∀ cs, elementsOf cs = elementsOf childNodes →
      unmarshal (.element name attrs cs) =
        unmarshal (.element name attrs (elementsOf childNodes)) := by
    intro cs hcs
    simp only [unmarshal, elementsOf_idem, hcs, hcond, if_false]
    rw [← unmarshalChildren_elementsOf cs, hcs]
  refine ⟨?_, hform childNodes rfl, ?_⟩
  · rw [hform childNodes1 hsame, hform childNodes rfl]
  · intro hdec
    obtain ⟨object, hobject⟩ := unmarshalChildren_ok childNodes
      (fun c _ n a k hc hcdec => unmarshal_ok c n a k hc hcdec) hdec (unmarshalAttributes attrs [])
    exact ⟨object, by simp only [unmarshal, hcond, if_false, hobject]⟩

theorem unmarshal_ignores_own_text_witness :
    (([("id", "1")] : List (String × String)).length ≠ 0 ∨ (elementsOf []).length ≠ 0) ∧
    elementsOf [.text "hello"] = elementsOf [] ∧
    parseXml "<b id=\"1\">hello</b>" = some (.element "b" [("id", "1")] [.text "hello"]) ∧
    parseXml "<b id=\"1\"/>" = some (.element "b" [("id", "1")] []) ∧
    unmarshal (.element "b" [("id", "1")] [.text "hello"]) =
      unmarshal (.element "b" [("id", "1")] []) ∧
    unmarshal (.element "b" [("id", "1")] []) = .ok (.object [("@id", .str "1")] []) :=
  ⟨Or.inl (by decide), rfl, rfl, rfl,
    (unmarshal_ignores_own_text "b" [("id", "1")] [] [.text "hello"] (Or.inl (by decide)) rfl).1,
    rfl⟩

end MarshalXml
